import Mathlib

/-!
Verification of the Benkyou pipeline: sentence batching (`analysis.batch_sentences`),
the dispatch/retry controller (`analysis.analyze_batches`), tolerant JSON-array
extraction (`note._try_parse_json_array`), and the incremental note store
(`note.save_notes` / `note.save_batch` / `note._append_piece_file`).

Texts are modelled as `List Char` (one entry per Unicode code point, matching
Python's `str` indexing and `len`).
-/

/-- Texts: Python `str` as a list of code points. -/
abbrev Str := List Char

/-- Convenience: Lean string literal to `Str`. -/
def strS (s : String) : Str := s.data

/-- The whitespace set of Python's `str.strip` / `str.isspace`. -/
def isPyWs (c : Char) : Bool :=
  c ∈ [' ', '\t', '\n', '\x0b', '\x0c', '\r',
       '\x1c', '\x1d', '\x1e', '\x1f', '\x85', '\xa0',
       '\u1680', '\u2000', '\u2001', '\u2002', '\u2003', '\u2004', '\u2005',
       '\u2006', '\u2007', '\u2008', '\u2009', '\u200a',
       '\u2028', '\u2029', '\u202f', '\u205f', '\u3000']

/-- Python `s.lstrip()`. -/
def pyLstrip (s : Str) : Str := s.dropWhile isPyWs

/-- Python `s.rstrip()`. -/
def pyRstrip (s : Str) : Str := (s.reverse.dropWhile isPyWs).reverse

/-- Python `s.strip()`. -/
def pyStrip (s : Str) : Str := pyRstrip (pyLstrip s)

/-! ## Batcher: `analysis.batch_sentences` -/

/-- Loop body of `batch_sentences`, also exposing the final accumulation state
`(buf, count)` so that the discarded trailing remainder can be reasoned about.
Mirrors the Python loop: strip each sentence, skip blanks, emit a lone sentence
when the buffer is empty and the sentence already reaches `min_chars`, otherwise
buffer it and flush once the running count strictly exceeds `min_chars`. -/
def batchGoFull (minChars : Nat) : List Str → List Str → Nat → List Str × List Str × Nat
  | [], buf, count => ([], buf, count)
  | s0 :: rest, buf, count =>
    let s := pyStrip s0
    if s = [] then
      batchGoFull minChars rest buf count
    else if count = 0 ∧ minChars ≤ s.length then
      let r := batchGoFull minChars rest buf count
      (s :: r.1, r.2)
    else
      let buf' := buf ++ [s]
      let count' := count + s.length
      if minChars < count' then
        let r := batchGoFull minChars rest [] 0
        (buf'.flatten :: r.1, r.2)
      else
        batchGoFull minChars rest buf' count'

/-- `analysis.batch_sentences`: the list of emitted batches (the trailing
under-threshold remainder is dropped, as in the source). -/
def batch_sentences (sentences : List Str) (minChars : Nat) : List Str :=
  (batchGoFull minChars sentences [] 0).1

/-! ## Batcher lemmas -/

/-- Total characters: emitted batches plus the leftover buffer account exactly
for the stripped non-blank input plus the initial buffer. -/
theorem batchGoFull_conservation (minChars : Nat) (ss : List Str) :
    ∀ buf count,
      ((batchGoFull minChars ss buf count).1.flatten).length
        + ((batchGoFull minChars ss buf count).2.1.flatten).length
      = (((ss.map pyStrip).filter (fun s => ¬ s = [])).flatten).length
        + (buf.flatten).length := by
  induction ss with
  | nil => intro buf count; simp [batchGoFull]
  | cons s0 rest ih =>
    intro buf count
    simp only [batchGoFull, List.map_cons, List.filter_cons]
    by_cases hblank : pyStrip s0 = []
    · simp only [hblank, if_pos rfl]
      simpa [hblank] using ih buf count
    · rw [if_neg hblank]
      by_cases hlone : count = 0 ∧ minChars ≤ (pyStrip s0).length
      · rw [if_pos hlone]
        have h1 := ih buf count
        simp [hblank] at h1 ⊢
        omega
      · rw [if_neg hlone]
        by_cases hflush : minChars < count + (pyStrip s0).length
        · rw [if_pos hflush]
          have h1 := ih [] 0
          simp [hblank] at h1 ⊢
          omega
        · rw [if_neg hflush]
          have h1 := ih (buf ++ [pyStrip s0]) (count + (pyStrip s0).length)
          simp [hblank] at h1 ⊢
          omega

/-- The running buffer never exceeds the threshold: if the incoming `count` is
at most `minChars`, so is the final `count`, and the final `count` measures the
final buffer provided the incoming one measured the incoming buffer. -/
theorem batchGoFull_remainder_le (minChars : Nat) (ss : List Str) :
    ∀ buf count, count ≤ minChars → count = (buf.flatten).length →
      (batchGoFull minChars ss buf count).2.2 ≤ minChars ∧
      (batchGoFull minChars ss buf count).2.2
        = ((batchGoFull minChars ss buf count).2.1.flatten).length := by
  induction ss with
  | nil =>
    intro buf count h hm
    refine ⟨by simpa [batchGoFull] using h, ?_⟩
    simpa [batchGoFull] using hm
  | cons s0 rest ih =>
    intro buf count h hm
    simp only [batchGoFull]
    by_cases hblank : pyStrip s0 = []
    · simp only [hblank, if_pos rfl]
      exact ih buf count h hm
    · rw [if_neg hblank]
      by_cases hlone : count = 0 ∧ minChars ≤ (pyStrip s0).length
      · rw [if_pos hlone]
        exact ih buf count h hm
      · rw [if_neg hlone]
        by_cases hflush : minChars < count + (pyStrip s0).length
        · rw [if_pos hflush]
          exact ih [] 0 (Nat.zero_le _) (by simp)
        · rw [if_neg hflush]
          exact ih (buf ++ [pyStrip s0]) (count + (pyStrip s0).length)
            (Nat.le_of_not_lt hflush) (by simp [hm])

/-! ## Claims C7 and C8 -/

/-- C7 counterexample: each of the two example sentences is 6 characters long,
hence at least `min_chars = 5` on its own with an empty buffer, so the code
emits each as its own batch; the result is not the single concatenated batch
the claim asserts. -/
theorem c7_counterexample :
    batch_sentences [strS "犬が吠えた。", strS "猫が鳴いた。"] 5
      ≠ [strS "犬が吠えた。" ++ strS "猫が鳴いた。"] := by
  decide

/-- C7 (amended): the sentence list `["犬が吠えた。", "猫が鳴いた。"]` batched with
`min_chars = 5` produces exactly two batches, each sentence alone, because each
sentence already reaches the threshold on its own. -/
theorem c7_each_sentence_own_batch :
    batch_sentences [strS "犬が吠えた。", strS "猫が鳴いた。"] 5
      = [strS "犬が吠えた。", strS "猫が鳴いた。"] := by
  decide

/-- C8 counterexample: with sentences `["a", "b"]` and threshold 2, no batch is
emitted and the discarded trailing remainder is `"ab"`, which is non-empty and
has exactly threshold many characters — not strictly fewer as the claim says. -/
theorem c8_counterexample :
    ¬ ((batchGoFull 2 [strS "a", strS "b"] [] 0).2.1.flatten = [] ∨
       ((batchGoFull 2 [strS "a", strS "b"] [] 0).2.1.flatten).length < 2) := by
  decide

/-- C8 (amended): for every sentence sequence and threshold, the characters in
the emitted batches never exceed the concatenation of the trimmed non-blank
input sentences, and the discarded trailing remainder has at most threshold
many characters (it can equal the threshold, since the buffer is flushed only
when the running count strictly exceeds it). -/
theorem c8_batch_totals (sentences : List Str) (minChars : Nat) :
    ((batch_sentences sentences minChars).flatten).length
      ≤ (((sentences.map pyStrip).filter (fun s => ¬ s = [])).flatten).length ∧
    ((batchGoFull minChars sentences [] 0).2.1.flatten).length ≤ minChars := by
  have h1 := batchGoFull_conservation minChars sentences [] 0
  have h2 := batchGoFull_remainder_le minChars sentences [] 0 (Nat.zero_le _) (by simp)
  simp only [List.flatten_nil, List.length_nil, Nat.add_zero] at h1
  unfold batch_sentences
  omega

/-! ## Dispatch controller: `analysis.analyze_batches`

The inner wait/tick loop of `analyze_batches` polls a future in real time; its
only observable effect per attempt is whether that attempt's fresh service call
returns text, times out past `timeout_secs`, or raises. A service behaviour is
therefore modelled as a function from the attempt number (and, for a run, the
1-based batch position) to that per-attempt outcome. -/

/-- Outcome of one fresh service call: returned text, overall timeout, or a
non-timeout exception. The retry loop treats the latter two identically. -/
inductive CallOut where
  | ok (out : Str)
  | timeout
  | exn (msg : Str)
deriving DecidableEq

/-- The `for attempt in range(1, max_retries + 1)` retry loop for one batch.
Returns the list of attempt numbers actually issued (one fresh call each) and,
on success, the returned text with the succeeding attempt number; `none` means
all retries were exhausted (the `for`/`else` branch that raises RuntimeError). -/
def attemptSeq (call : Nat → CallOut) : Nat → Nat → List Nat × Option (Str × Nat)
  | _attempt, 0 => ([], none)
  | attempt, remaining + 1 =>
    match call attempt with
    | CallOut.ok out => ([attempt], some (out, attempt))
    | _ =>
      let r := attemptSeq call (attempt + 1) remaining
      (attempt :: r.1, r.2)

/-- One batch's dispatch: attempts numbered from 1, at most `maxRetries` calls. -/
def dispatchBatch (call : Nat → CallOut) (maxRetries : Nat) :
    List Nat × Option (Str × Nat) :=
  attemptSeq call 1 maxRetries

/-- The whole `analyze_batches` loop over the batch list. `svc b a` is the
outcome of attempt `a` for the `b`-th batch (1-based); `cb` is the `on_batch`
callback, returning the updated caller state and whether it succeeded — its
exceptions are caught (`[WARN] … 写入回调失败`) and never stop the loop.
Returns the final caller state, the log of issued calls as
(batch position, attempt) pairs, and either the collected per-batch results
or the fatal RuntimeError raised once one batch exhausts its retries. -/
def analyzeGo (svc : Nat → Nat → CallOut) (cb : Nat → Str → σ → σ × Bool)
    (maxRetries : Nat) :
    List Str → Nat → σ → σ × List (Nat × Nat) × Except Str (List Str)
  | [], _i, st => (st, [], Except.ok [])
  | _b :: rest, i, st =>
    let d := dispatchBatch (svc i) maxRetries
    let log0 := d.1.map (fun a => (i, a))
    match d.2 with
    | some (out, _att) =>
      let st' := (cb i out st).1
      let r := analyzeGo svc cb maxRetries rest (i + 1) st'
      (r.1, log0 ++ r.2.1, (r.2.2).map (fun outs => out :: outs))
    | none => (st, log0, Except.error (strS "retries exhausted"))

/-- `analysis.analyze_batches` run from the first batch with an initial state. -/
def analyze_batches (svc : Nat → Nat → CallOut) (cb : Nat → Str → σ → σ × Bool)
    (maxRetries : Nat) (batches : List Str) (st : σ) :
    σ × List (Nat × Nat) × Except Str (List Str) :=
  analyzeGo svc cb maxRetries batches 1 st

/-! ## Claims C3 and C4 -/

/-- C3: if the calls for a batch time out on attempts 1 and 2 and succeed on
attempt 3, with `max_retries = 5`, the retry loop reports success with attempt
count 3 and issues exactly the three distinct calls 1, 2, 3. -/
theorem c3_success_on_third_attempt (call : Nat → CallOut) (out : Str)
    (h1 : call 1 = CallOut.timeout) (h2 : call 2 = CallOut.timeout)
    (h3 : call 3 = CallOut.ok out) :
    dispatchBatch call 5 = ([1, 2, 3], some (out, 3)) := by
  simp [dispatchBatch, attemptSeq, h1, h2, h3]

/-- C3 witness: a concrete behaviour timing out twice then succeeding. -/
theorem c3_success_on_third_attempt_witness :
    dispatchBatch
      (fun a => if a ≤ 2 then CallOut.timeout else CallOut.ok (strS "r")) 5
      = ([1, 2, 3], some (strS "r", 3)) :=
  c3_success_on_third_attempt
    (fun a => if a ≤ 2 then CallOut.timeout else CallOut.ok (strS "r"))
    (strS "r") (by decide) (by decide) (by decide)

/-- C4: if every attempt for the first batch fails (timeout or exception),
with `max_retries = 2` the loop reaches the fatal outcome after exactly the two
calls (1,1) and (1,2); the whole run aborts: the second batch is never
dispatched (no (2,·) entry in the call log) and no result is returned for any
batch. -/
theorem c4_exhausted_aborts_run (svc : Nat → Nat → CallOut)
    (cb : Nat → Str → σ → σ × Bool) (st : σ) (b1 b2 : Str)
    (hfail : ∀ a out, svc 1 a ≠ CallOut.ok out) :
    analyze_batches svc cb 2 [b1, b2] st
      = (st, [(1, 1), (1, 2)], Except.error (strS "retries exhausted")) := by
  have e1 : svc 1 1 ≠ CallOut.ok (match svc 1 1 with
    | CallOut.ok o => o | _ => strS "") := hfail 1 _
  have e2 : svc 1 2 ≠ CallOut.ok (match svc 1 2 with
    | CallOut.ok o => o | _ => strS "") := hfail 2 _
  simp only [analyze_batches, analyzeGo, dispatchBatch, attemptSeq]
  rcases hx1 : svc 1 1 with o | _ | m
  · exact absurd hx1 (by simpa using hfail 1 o)
  all_goals
    rcases hx2 : svc 1 2 with o | _ | m2
  case ok => exact absurd hx2 (by simpa using hfail 2 o)
  case ok => exact absurd hx2 (by simpa using hfail 2 o)
  all_goals simp [attemptSeq]

/-- C4 witness: all attempts time out for batch 1. -/
theorem c4_exhausted_aborts_run_witness :
    analyze_batches (fun _ _ => CallOut.timeout)
      (fun _ _ (st : Unit) => (st, true)) 2 [strS "x", strS "y"] ()
      = ((), [(1, 1), (1, 2)], Except.error (strS "retries exhausted")) :=
  c4_exhausted_aborts_run (fun _ _ => CallOut.timeout)
    (fun _ _ st => (st, true)) () (strS "x") (strS "y")
    (fun _ _ => by simp)

/-! ## Python `str.splitlines` -/

/-- The line-boundary characters of Python `str.splitlines`. -/
def isLineSep (c : Char) : Bool :=
  c ∈ ['\n', '\r', '\x0b', '\x0c', '\x1c', '\x1d', '\x1e', '\x85',
       '\u2028', '\u2029']

/-- Auxiliary for `pySplitlines`: split a non-empty tail, `\r\n` counting as a
single boundary and a trailing boundary not opening a new line. -/
def splitlinesAux : Str → List Str
  | [] => [[]]
  | [c] => if isLineSep c then [[]] else [[c]]
  | c :: c2 :: cs =>
    if isLineSep c then
      if c = '\r' ∧ c2 = '\n' then
        [] :: (match cs with
               | [] => []
               | _ :: _ => splitlinesAux cs)
      else
        [] :: splitlinesAux (c2 :: cs)
    else
      match splitlinesAux (c2 :: cs) with
      | [] => [[c]]
      | l :: ls => (c :: l) :: ls

/-- Python `s.splitlines()`. -/
def pySplitlines : Str → List Str
  | [] => []
  | c :: cs => splitlinesAux (c :: cs)

/-! ## JSON values and the `json.loads` scanner

A faithful model of CPython's `json.loads` on `str` input, as used by
`note._try_parse_json_array`. Numbers are represented by their source lexeme
(the claims never compare numerals across different spellings), and string
payloads by the raw character span between the quotes with escape sequences
validated but left undecoded (the claims only ever compare payloads arising
from identical spans). Object members keep source order and duplicates; no
claim inspects them beyond equality of parses. -/

inductive Json where
  | null : Json
  | bool : Bool → Json
  | num : Str → Json
  | str : Str → Json
  | arr : List Json → Json
  | obj : List (Str × Json) → Json

/-- JSON insignificant whitespace, CPython's `_w` regex class. -/
def isJws (c : Char) : Bool := c ∈ [' ', '\t', '\n', '\r']

/-- Skip insignificant whitespace. -/
def skipJws (s : Str) : Str := s.dropWhile isJws

/-- A hexadecimal digit, `[0-9a-fA-F]`. -/
def isHexDig (c : Char) : Bool :=
  c.isDigit ∨ ('a' ≤ c ∧ c ≤ 'f') ∨ ('A' ≤ c ∧ c ≤ 'F')

/-- Body of a JSON string after the opening quote: raw control characters are
rejected (`strict=True`), escapes are `\" \\ \/ \b \f \n \r \t` and `\uXXXX`.
Returns the raw span before the closing quote and the rest after it. -/
def parseStringBody : Str → Option (Str × Str)
  | [] => none
  | c :: r =>
    if c = '"' then some ([], r)
    else if c = '\\' then
      match r with
      | [] => none
      | e :: r2 =>
        if e = 'u' then
          match r2 with
          | h1 :: h2 :: h3 :: h4 :: r3 =>
            if isHexDig h1 ∧ isHexDig h2 ∧ isHexDig h3 ∧ isHexDig h4 then
              (parseStringBody r3).map
                (fun p => (c :: e :: h1 :: h2 :: h3 :: h4 :: p.1, p.2))
            else none
          | _ => none
        else if e ∈ ['"', '\\', '/', 'b', 'f', 'n', 'r', 't'] then
          (parseStringBody r2).map (fun p => (c :: e :: p.1, p.2))
        else none
    else if c.toNat < 32 then none
    else (parseStringBody r).map (fun p => (c :: p.1, p.2))

/-- Integer part of CPython's NUMBER_RE: `0` or a nonzero digit followed by
maximal digits. -/
def parseIntPart : Str → Option (Str × Str)
  | [] => none
  | c :: t =>
    if c = '0' then some (['0'], t)
    else if c.isDigit then some (c :: t.takeWhile Char.isDigit, t.dropWhile Char.isDigit)
    else none

/-- Fraction part `(\.\d+)?`: present only when a dot is followed by a digit. -/
def parseFrac : Str → Str × Str
  | [] => ([], [])
  | c :: t =>
    if c = '.' then
      let ds := t.takeWhile Char.isDigit
      if ds = [] then ([], c :: t) else ('.' :: ds, t.dropWhile Char.isDigit)
    else ([], c :: t)

/-- Exponent part `([eE][-+]?\d+)?`. -/
def parseExp (s : Str) : Str × Str :=
  match s with
  | [] => ([], s)
  | e :: t =>
    if e = 'e' ∨ e = 'E' then
      match t with
      | [] => ([], s)
      | c :: t2 =>
        if c = '+' ∨ c = '-' then
          let ds := t2.takeWhile Char.isDigit
          if ds = [] then ([], s) else (e :: c :: ds, t2.dropWhile Char.isDigit)
        else
          let ds := t.takeWhile Char.isDigit
          if ds = [] then ([], s) else (e :: ds, t.dropWhile Char.isDigit)
    else ([], s)

/-- Integer, fraction and exponent parts after an optional already-consumed
minus sign `m`. -/
def parseNumTail (m s1 : Str) : Option (Str × Str) :=
  match parseIntPart s1 with
  | none => none
  | some ip =>
    let fp := parseFrac ip.2
    let ep := parseExp fp.2
    some (m ++ ip.1 ++ fp.1 ++ ep.1, ep.2)

/-- A number lexeme per CPython's NUMBER_RE, maximal-munch. -/
def parseNumberBody (s : Str) : Option (Str × Str) :=
  match s with
  | [] => parseNumTail [] []
  | c :: t => if c = '-' then parseNumTail ['-'] t else parseNumTail [] (c :: t)

/-!
CPython `scan_once`, fuelled: the fuel only bounds recursion depth through
containers, each recursive call strictly consuming input, so `length + 1` fuel
always suffices (proved below in the prefix-replacement lemma). Dispatch order
matches the C scanner: string, object, array, `null`, `true`, `false`, then
the number regex, then the `NaN`/`Infinity`/`-Infinity` constants.
-/

/-- One step of the value scanner, in terms of the next-lower-fuel scanners.
Dispatch order matches the C scanner: string, object, array, `null`, `true`,
`false`, then the number regex, then the `NaN`/`Infinity`/`-Infinity`
constants. -/
def valueStep (pe : Str → Option (List Json × Str))
    (pm : Str → Option (List (Str × Json) × Str)) : Str → Option (Json × Str)
  | [] => none
  | c :: t =>
    if c = '"' then
      (parseStringBody t).map (fun p => (Json.str p.1, p.2))
    else if c = '{' then
      if (skipJws t).head? = some '}' then some (Json.obj [], (skipJws t).tail)
      else (pm (skipJws t)).map (fun p => (Json.obj p.1, p.2))
    else if c = '[' then
      if (skipJws t).head? = some ']' then some (Json.arr [], (skipJws t).tail)
      else (pe (skipJws t)).map (fun p => (Json.arr p.1, p.2))
    else if c = 'n' then
      if t.take 3 = strS "ull" then some (Json.null, t.drop 3) else none
    else if c = 't' then
      if t.take 3 = strS "rue" then some (Json.bool true, t.drop 3) else none
    else if c = 'f' then
      if t.take 4 = strS "alse" then some (Json.bool false, t.drop 4) else none
    else if c = '-' ∨ c.isDigit then
      match parseNumberBody (c :: t) with
      | some p => some (Json.num p.1, p.2)
      | none =>
        if c = '-' ∧ t.take 8 = strS "Infinity" then
          some (Json.num (strS "-Infinity"), t.drop 8)
        else none
    else if c = 'N' then
      if t.take 2 = strS "aN" then some (Json.num (strS "NaN"), t.drop 2) else none
    else if c = 'I' then
      if t.take 7 = strS "nfinity" then some (Json.num (strS "Infinity"), t.drop 7)
      else none
    else none

/-- One step of the scanner for elements of a non-empty JSON array, consuming
the closing `]`; a comma must be followed by another element (no trailing
comma). -/
def elemsStep (pv : Str → Option (Json × Str))
    (pe : Str → Option (List Json × Str)) (u : Str) :
    Option (List Json × Str) :=
  match pv u with
  | none => none
  | some (v, r1) =>
    if (skipJws r1).head? = some ',' then
      match pe (skipJws ((skipJws r1).tail)) with
      | none => none
      | some (vs, r4) => some (v :: vs, r4)
    else if (skipJws r1).head? = some ']' then some ([v], (skipJws r1).tail)
    else none

/-- One step of the scanner for members of a non-empty JSON object, consuming
the closing brace. -/
def membersStep (pv : Str → Option (Json × Str))
    (pm : Str → Option (List (Str × Json) × Str)) : Str → Option (List (Str × Json) × Str)
  | [] => none
  | c :: t =>
    if c = '"' then
      match parseStringBody t with
      | none => none
      | some (k, r1) =>
        if (skipJws r1).head? = some ':' then
          match pv (skipJws ((skipJws r1).tail)) with
          | none => none
          | some (v, r3) =>
            if (skipJws r3).head? = some ',' then
              match pm (skipJws ((skipJws r3).tail)) with
              | none => none
              | some (ms, r5) => some ((k, v) :: ms, r5)
            else if (skipJws r3).head? = some '}' then
              some ([(k, v)], (skipJws r3).tail)
            else none
        else none
    else none

/-- The fuelled scanner triple (value, array elements, object members),
defined by one structural recursion on the fuel so that it evaluates by
definitional unfolding. -/
def parsers : Nat →
    (Str → Option (Json × Str)) × (Str → Option (List Json × Str)) ×
      (Str → Option (List (Str × Json) × Str))
  | 0 => (fun _ => none, fun _ => none, fun _ => none)
  | f + 1 =>
    let P := parsers f
    (valueStep P.2.1 P.2.2, elemsStep P.1 P.2.1, membersStep P.1 P.2.2)

/-- One JSON value starting at the first character of the input. -/
def parseValue (f : Nat) (s : Str) : Option (Json × Str) := (parsers f).1 s

/-- Elements of a non-empty JSON array. -/
def parseElems (f : Nat) (u : Str) : Option (List Json × Str) := (parsers f).2.1 u

/-- Members of a non-empty JSON object. -/
def parseMembers (f : Nat) (u : Str) : Option (List (Str × Json) × Str) :=
  (parsers f).2.2 u

/-- Unfolding: the scanners at fuel `f + 1`. -/
theorem parseValue_succ (f : Nat) (s : Str) :
    parseValue (f + 1) s = valueStep (parseElems f) (parseMembers f) s := rfl

theorem parseElems_succ (f : Nat) (u : Str) :
    parseElems (f + 1) u = elemsStep (parseValue f) (parseElems f) u := rfl

theorem parseMembers_succ (f : Nat) (u : Str) :
    parseMembers (f + 1) u = membersStep (parseValue f) (parseMembers f) u := rfl

theorem parseValue_zero (s : Str) : parseValue 0 s = none := rfl

theorem parseElems_zero (u : Str) : parseElems 0 u = none := rfl

theorem parseMembers_zero (u : Str) : parseMembers 0 u = none := rfl

/-- `json.loads` on text: skip leading whitespace, scan one value, and require
only whitespace to follow. -/
def json_loads (s : Str) : Option Json :=
  let u := skipJws s
  match parseValue (u.length + 1) u with
  | some (v, r) => if skipJws r = [] then some v else none
  | none => none

/-! ## `note._strip_code_fences` and `note._try_parse_json_array` -/

/-- Python `t.startswith("```")`. -/
def startsTicks (t : Str) : Bool := List.isPrefixOf (strS "```") t

/-- Python `t.endswith("```")`. -/
def endsTicks (t : Str) : Bool := List.isSuffixOf (strS "```") t

/-- `note._strip_code_fences`: strip the text; when it is wrapped in a fenced
block, drop the first and last lines and rejoin with `\n`. -/
def _strip_code_fences (text : Str) : Str :=
  let t := pyStrip text
  if startsTicks t ∧ endsTicks t then
    List.intercalate (strS "\n") (((pySplitlines t).drop 1).dropLast)
  else t

/-- Python `t.find(c)` (as an `Option` instead of `-1`). -/
def findCharIdx (t : Str) (c : Char) : Option Nat :=
  t.findIdx? (fun x => x = c)

/-- Python `t.rfind(c)` (as an `Option` instead of `-1`). -/
def rfindCharIdx (t : Str) (c : Char) : Option Nat :=
  (t.reverse.findIdx? (fun x => x = c)).map (fun i => t.length - 1 - i)

/-- `note._try_parse_json_array`: strip fences, try a direct decode (accepted
only when the result is an array), then fall back to decoding the span from
the first `[` to the last `]`; `none` is the explicit unparsable result. -/
def _try_parse_json_array (text : Str) : Option (List Json) :=
  let t := _strip_code_fences text
  match json_loads t with
  | some (Json.arr l) => some l
  | _ =>
    match findCharIdx t '[', rfindCharIdx t ']' with
    | some s, some e =>
      if s < e then
        let frag := (t.drop s).take (e + 1 - s)
        match json_loads frag with
        | some (Json.arr l) => some l
        | _ => none
      else none
    | _, _ => none

/-! ## Note store: `note.py`

The document store is modelled as two association lists (filename → content),
one per subdirectory (`sentence/`, `piece/`); `config.GeminiConfig` is reduced
to the one field the note store reads. Opening a piece file for reading or
writing can raise `OSError`; that environment choice is modelled by a
predicate `pieceOk` on piece filenames — `false` means the first file
operation on that piece document raises. Sentence-file writes are modelled as
succeeding (no claim concerns their failure).

Decoded records need not be objects: `record.get` on a non-dict raises
`AttributeError`, and iterating a truthy non-list `pieces` value (or calling
`.get` on a non-dict element of it) raises `TypeError`/`AttributeError`.
All of these fire inside `_write_sentence_file` before its single file write,
so a bad record raises with no store effect; the fallible `dictGet` and
`getPieces` model the raising accesses, `recordOk` decides whether the record
body completes, and the record loop propagates the exception through the same
channel as a raised piece write. -/

/-- Lookup in a directory listing. -/
def fsGet : List (Str × Str) → Str → Option Str
  | [], _ => none
  | (k, v) :: m, key => if k = key then some v else fsGet m key

/-- Create or overwrite a file. -/
def fsSet : List (Str × Str) → Str → Str → List (Str × Str)
  | [], key, val => [(key, val)]
  | (k, v) :: m, key, val =>
    if k = key then (k, val) :: m else (k, v) :: fsSet m key val

/-- The two flat directories of the document store. -/
structure FS where
  sent : List (Str × Str)
  piece : List (Str × Str)
deriving DecidableEq

/-- The empty store. -/
def emptyFS : FS := ⟨[], []⟩

/-- The one configuration field the note store reads. -/
structure GeminiConfig where
  output_lib : Option Str

/-- Python `dict` lookup on parsed members: the last binding of a duplicated
key wins. -/
def jLookup : List (Str × Json) → Str → Option Json
  | [], _ => none
  | (k, v) :: ms, key =>
    match jLookup ms key with
    | some r => some r
    | none => if k = key then some v else none

/-- `obj.get(key, dflt)`: on an object, the member value or the default; on
any other receiver the source raises `AttributeError`, modelled as
`Except.error`. -/
def dictGet (o : Json) (key : Str) (dflt : Json) : Except Unit Json :=
  match o with
  | Json.obj ms =>
    Except.ok (match jLookup ms key with
      | some v => v
      | none => dflt)
  | _ => Except.error ()

/-- Whether a decoded value is an object (so attribute access succeeds). -/
def isObj : Json → Bool
  | Json.obj _ => true
  | _ => false

/-- Python `str()` of a parsed JSON value, as far as the claims reach it: the
fields the note store renders are strings in every claim. Numbers render as
their lexeme (the source renders the parsed float) and containers as opaque
markers (the source renders their repr); both corners are exercised by no
claim and identical in the two save paths compared by C1. -/
def pyStr : Json → Str
  | Json.null => strS "None"
  | Json.bool true => strS "True"
  | Json.bool false => strS "False"
  | Json.num lex => lex
  | Json.str s => s
  | Json.arr _ => strS "[...]"
  | Json.obj _ => strS "(dict)"

/-- `str(obj.get(key, "")).strip()`, the extraction applied to every rendered
field in `note.py`, on the non-raising path of `dictGet`. The store evaluates
it only on object receivers (guarded by `isObj`/`recordOk`, where `dictGet`
succeeds); the `[]` on the error branch is never reached there. -/
def fieldStr (o : Json) (key : Str) : Str :=
  match dictGet o key (Json.str []) with
  | Except.ok v => pyStrip (pyStr v)
  | Except.error _ => []

/-- Python truthiness of a decoded JSON value (`x or []` keeps a truthy `x`).
A decoded numeral is falsy exactly when its mantissa digits are all zero; the
digit-free `NaN`/`Infinity` constants are truthy floats. -/
def pyTruthy : Json → Bool
  | Json.null => false
  | Json.bool b => b
  | Json.num lex =>
    ((lex.takeWhile (fun c => ¬ (c = 'e' ∨ c = 'E'))).filter Char.isDigit).any
      (fun c => c ≠ '0')
    || (lex.filter Char.isDigit).isEmpty
  | Json.str s => !s.isEmpty
  | Json.arr l => !l.isEmpty
  | Json.obj ms => !ms.isEmpty

/-- The value of `obj.get("pieces") or []`: `AttributeError` on a non-dict
record; a falsy field collapses to the empty list; a truthy field is kept
as-is (iterating a truthy non-list, or a non-dict element of a list, raises
later — see `recordOk`). -/
def getPieces (o : Json) : Except Unit Json :=
  match dictGet o (strS "pieces") Json.null with
  | Except.ok p => Except.ok (if pyTruthy p then p else Json.arr [])
  | Except.error e => Except.error e

/-- The element list the piece loops iterate on the non-raising path. -/
def piecesList (o : Json) : List Json :=
  match getPieces o with
  | Except.ok (Json.arr l) => l
  | _ => []

/-- Whether the shared record body completes without raising: the record is a
dict, its `pieces` value iterates as a list, and every element is a dict. Any
other shape raises `AttributeError`/`TypeError` inside `_write_sentence_file`,
before the sentence document is written. -/
def recordOk (obj : Json) : Bool :=
  match getPieces obj with
  | Except.ok (Json.arr ps) => ps.all isObj
  | _ => false

/-- `note._first_n_chars`: newline → space, strip, first `n` characters. -/
def _first_n_chars (s : Str) (n : Nat) : Str :=
  (pyStrip (s.map (fun c => if c = '\n' then ' ' else c))).take n

/-- Python `name.rstrip(".")`. -/
def rstripDots (s : Str) : Str := (s.reverse.dropWhile (fun c => c = '.')).reverse

/-- The characters `note._ILLEGAL_CHARS` replaces. -/
def isIllegalChar (c : Char) : Bool :=
  c ∈ ['\\', '/', ':', '*', '?', '"', '<', '>', '|']

/-- `note._sanitize_filename`: strip, drop trailing dots, replace illegal
filename characters by spaces, truncate to 180 characters. -/
def _sanitize_filename (name : Str) : Str :=
  ((rstripDots (pyStrip name)).map
    (fun c => if isIllegalChar c then ' ' else c)).take 180

/-- Decimal numeral of a sentence index. -/
def natStr (n : Nat) : Str := Nat.toDigits 10 n

/-- The three body lines a piece contributes to its sentence document. -/
def sentencePieceLines (piece : Json) : List Str :=
  [strS "- [[" ++ fieldStr piece (strS "piece") ++ strS "]] - "
     ++ fieldStr piece (strS "reading"),
   strS "\t- " ++ fieldStr piece (strS "meaning"),
   strS "    - " ++ fieldStr piece (strS "function")]

/-- `note._write_sentence_file` on the non-raising path (see `recordOk`):
compose and (over)write the sentence document `S{idx} - {first 10 chars}.md`;
returns the updated directory, the file name, and the extracted sentence text.
The raising paths of the source function all fire before its single file
write and are modelled by the `recordOk` guard in the record loop. -/
def _write_sentence_file (sentDir : List (Str × Str)) (idx : Nat)
    (sentence_obj : Json) : List (Str × Str) × Str × Str :=
  let sentence_text := fieldStr sentence_obj (strS "sentence")
  let translation := fieldStr sentence_obj (strS "translation")
  let pieces := piecesList sentence_obj
  let title_snippet := _first_n_chars sentence_text 10
  let file_stem := strS "S" ++ natStr idx ++ strS " - " ++ title_snippet
  let file_name := _sanitize_filename file_stem ++ strS ".md"
  let lines := [sentence_text, strS "---", translation, strS "---"]
    ++ (pieces.map sentencePieceLines).flatten
  let content := pyRstrip (List.intercalate (strS "\n") lines) ++ strS "\n"
  (fsSet sentDir file_name content, file_name, sentence_text)

/-- First line whose stripped form equals the meaning heading. -/
def findMeaningIdx (lines : List Str) (target : Str) : Option Nat :=
  match lines with
  | [] => none
  | l :: ls =>
    if pyStrip l = target then some 0
    else (findMeaningIdx ls target).map (fun i => i + 1)

/-- Python `line.startswith("- ")`. -/
def startsDash (l : Str) : Bool := List.isPrefixOf (strS "- ") l

/-- Scan from position `j` for the next top-level `"- "` line; `j` reaches the
line count when there is none. -/
def nextTopFrom : List Str → Nat → Nat
  | [], j => j
  | l :: ls, j => if startsDash l then j else nextTopFrom ls (j + 1)

/-- The backlink entry and function line added for one observed occurrence. -/
def backlinkLines (stem text function : Str) : List Str :=
  [strS "    - [[" ++ stem ++ strS "|" ++ text ++ strS "]]",
   strS "        - " ++ function]

/-- `note._append_piece_file`: create the piece document on first sight, else
insert a backlink into the meaning group whose heading strip-equals
`"- {meaning}"`, else append a new meaning group at the end. A blank piece
name is a silent no-op. The Boolean is `false` when an exception propagates:
`piece_obj.get` on a non-dict piece raises `AttributeError` before the
blank-name check, and the injected `OSError` for this filename fires after it
(in both cases the directory is unchanged). -/
def _append_piece_file (pieceOk : Str → Bool) (pieceDir : List (Str × Str))
    (piece_obj : Json) (sentence_file_stem sentence_text : Str) :
    List (Str × Str) × Bool :=
  if isObj piece_obj then
  let piece_name := fieldStr piece_obj (strS "piece")
  let piece_type := fieldStr piece_obj (strS "type")
  let meaning := fieldStr piece_obj (strS "meaning")
  let function := fieldStr piece_obj (strS "function")
  if piece_name = [] then (pieceDir, true)
  else
    let file_stem := _sanitize_filename piece_name
    let file_path := file_stem ++ strS ".md"
    if pieceOk file_path = false then (pieceDir, false)
    else
      match fsGet pieceDir file_path with
      | none =>
        let lines := [strS "---", strS "type: " ++ piece_type, strS "---",
          strS "- " ++ meaning]
          ++ backlinkLines sentence_file_stem sentence_text function
        (fsSet pieceDir file_path
          (pyRstrip (List.intercalate (strS "\n") lines) ++ strS "\n"), true)
      | some content =>
        let lines := pySplitlines content
        let target := strS "- " ++ meaning
        match findMeaningIdx lines target with
        | some i =>
          let j := nextTopFrom (lines.drop (i + 1)) (i + 1)
          let lines' := lines.take j
            ++ backlinkLines sentence_file_stem sentence_text function
            ++ lines.drop j
          (fsSet pieceDir file_path
            (pyRstrip (List.intercalate (strS "\n") lines') ++ strS "\n"), true)
        | none =>
          let tl := [([] : Str), strS "- " ++ meaning]
            ++ backlinkLines sentence_file_stem sentence_text function
          (fsSet pieceDir file_path
            (content ++ (pyRstrip (List.intercalate (strS "\n") tl) ++ strS "\n")),
           true)
  else (pieceDir, false)

/-- The `for piece in obj.get("pieces") or []` loop; a raised piece access or
write aborts the loop and propagates (`false`). -/
def processPieces (pieceOk : Str → Bool) (pieceDir : List (Str × Str))
    (stem text : Str) : List Json → List (Str × Str) × Bool
  | [] => (pieceDir, true)
  | p :: ps =>
    let r := _append_piece_file pieceOk pieceDir p stem text
    if r.2 then processPieces pieceOk r.1 stem text ps
    else (r.1, false)

/-- The shared per-record loop body of `save_notes` and `save_batch` (their
source bodies are textually identical): write the sentence file, derive the
stem via `os.path.splitext` (drop the appended `".md"`), update each piece
file, then advance the index. A record that raises inside
`_write_sentence_file` (non-dict record, bad `pieces` shape — see `recordOk`)
propagates before anything is written; a raised piece write leaves the
current record's index unconsumed; either way the remaining records are
skipped (`false`). -/
def processRecords (pieceOk : Str → Bool) (fs : FS) (idx : Nat) :
    List Json → FS × Nat × Bool
  | [] => (fs, idx, true)
  | obj :: rest =>
    if recordOk obj then
      let w := _write_sentence_file fs.sent idx obj
      let stem := w.2.1.take (w.2.1.length - 3)
      let p := processPieces pieceOk fs.piece stem w.2.2 (piecesList obj)
      if p.2 then processRecords pieceOk ⟨w.1, p.1⟩ (idx + 1) rest
      else (⟨w.1, p.1⟩, idx, false)
    else (fs, idx, false)

/-- `note.save_batch`: merge one batch text at the given running index;
`Except.error` models a propagated exception (missing `output_lib`, or a piece
write error after the partial updates already on disk). An unparsable batch is
skipped with the index unchanged. -/
def save_batch (pieceOk : Str → Bool) (cfg : GeminiConfig) (_batch_index : Nat)
    (out_text : Str) (fs : FS) (current_sentence_index : Nat) :
    FS × Except Unit Nat :=
  match cfg.output_lib with
  | none => (fs, Except.error ())
  | some _ =>
    match _try_parse_json_array out_text with
    | none => (fs, Except.ok current_sentence_index)
    | some arr =>
      let r := processRecords pieceOk fs current_sentence_index arr
      if r.2.2 then (r.1, Except.ok r.2.1) else (r.1, Except.error ())

/-- The batch loop of `note.save_notes`, threading `sentence_index` from 0. -/
def saveNotesGo (pieceOk : Str → Bool) (fs : FS) (idx : Nat) :
    List Str → FS × Except Unit Unit
  | [] => (fs, Except.ok ())
  | text :: rest =>
    match _try_parse_json_array text with
    | none => saveNotesGo pieceOk fs idx rest
    | some arr =>
      let r := processRecords pieceOk fs idx arr
      if r.2.2 then saveNotesGo pieceOk r.1 r.2.1 rest
      else (r.1, Except.error ())

/-- `note.save_notes`: bulk mode over the whole result list. -/
def save_notes (pieceOk : Str → Bool) (cfg : GeminiConfig)
    (results : List Str) (fs : FS) : FS × Except Unit Unit :=
  match cfg.output_lib with
  | none => (fs, Except.error ())
  | some _ => saveNotesGo pieceOk fs 0 results

/-- One step of `main._on_batch` under the callback guard in
`analyze_batches`: run `save_batch`; on success store the new index in the
holder, on an exception keep the holder (the partial file updates remain). -/
def streamStep (pieceOk : Str → Bool) (cfg : GeminiConfig) (st : FS × Nat)
    (ib : Nat × Str) : FS × Nat :=
  let r := save_batch pieceOk cfg ib.1 ib.2 st.1 st.2
  match r.2 with
  | Except.ok i' => (r.1, i')
  | Except.error _ => (r.1, st.2)

/-- Streaming mode: fold `save_batch` over the arriving batch texts in
dispatch order, batch positions counted from 1, holder starting at 0. -/
def streamSave (pieceOk : Str → Bool) (cfg : GeminiConfig)
    (texts : List Str) : FS × Nat :=
  (List.enumFrom 1 texts).foldl (streamStep pieceOk cfg) (emptyFS, 0)

/-! ## Claims C10 and C1 -/

/-- A field of a non-object renders as the empty string (the store never
evaluates it there); contrapositively, a non-blank field forces an object. -/
theorem isObj_of_fieldStr_ne (o : Json) (k : Str) (h : ¬ fieldStr o k = []) :
    isObj o = true := by
  cases o with
  | obj ms => rfl
  | null => exact absurd rfl h
  | bool b => exact absurd rfl h
  | num l => exact absurd rfl h
  | str s => exact absurd rfl h
  | arr l => exact absurd rfl h

/-- A record that completes has all its pieces as objects. -/
theorem recordOk_pieces (obj : Json) (h : recordOk obj = true) :
    ∀ p ∈ piecesList obj, isObj p = true := by
  intro p hp
  unfold recordOk at h
  unfold piecesList at hp
  cases hg : getPieces obj with
  | error e => rw [hg] at h; simp at h
  | ok v =>
    rw [hg] at h hp
    cases v with
    | arr ps =>
      simp only [] at h hp
      exact List.all_eq_true.mp h p hp
    | null => simp at h
    | bool b => simp at h
    | num l => simp at h
    | str s => simp at h
    | obj ms => simp at h

/-- A blank (empty after stripping) piece name on a piece object
short-circuits the piece write before any file operation. -/
theorem append_piece_blank_name (pieceOk : Str → Bool)
    (pieceDir : List (Str × Str)) (obj : Json) (stem text : Str)
    (hobj : isObj obj = true) (h : fieldStr obj (strS "piece") = []) :
    _append_piece_file pieceOk pieceDir obj stem text = (pieceDir, true) := by
  simp [_append_piece_file, hobj, h]

/-- A piece list of blank-named piece objects leaves the piece directory
untouched. -/
theorem processPieces_blank (pieceOk : Str → Bool)
    (pieceDir : List (Str × Str)) (stem text : Str) (ps : List Json)
    (h : ∀ p ∈ ps, isObj p = true ∧ fieldStr p (strS "piece") = []) :
    processPieces pieceOk pieceDir stem text ps = (pieceDir, true) := by
  induction ps with
  | nil => rfl
  | cons p ps ih =>
    rw [processPieces, append_piece_blank_name pieceOk pieceDir p stem text
      (h p (List.mem_cons_self p ps)).1 (h p (List.mem_cons_self p ps)).2]
    exact ih (fun q hq => h q (List.mem_cons_of_mem p hq))

/-- C10: a piece whose name is empty or whitespace after stripping is a silent
no-op — the piece write touches no piece document and raises nothing (even
when the file operation would fail), and at the record level the sentence
document is still written and the sentence index still advances. -/
theorem c10_blank_piece_name_noop (pieceOk : Str → Bool) (fs : FS) (idx : Nat)
    (pieceDir : List (Str × Str)) (obj p0 : Json) (stem text : Str)
    (hp0 : isObj p0 = true)
    (hp : fieldStr p0 (strS "piece") = [])
    (hrec : recordOk obj = true)
    (hobj : ∀ p ∈ piecesList obj, fieldStr p (strS "piece") = []) :
    _append_piece_file pieceOk pieceDir p0 stem text = (pieceDir, true) ∧
    processRecords pieceOk fs idx [obj]
      = (⟨(_write_sentence_file fs.sent idx obj).1, fs.piece⟩, idx + 1, true) := by
  refine ⟨append_piece_blank_name pieceOk pieceDir p0 stem text hp0 hp, ?_⟩
  rw [processRecords, if_pos hrec]
  simp only []
  rw [processPieces_blank _ _ _ _ _
    (fun p hp2 => ⟨recordOk_pieces obj hrec p hp2, hobj p hp2⟩)]
  rfl

/-- C10 witness: a piece with whitespace-only name on a record whose single
piece is that piece. -/
theorem c10_blank_piece_name_noop_witness :
    _append_piece_file (fun _ => false) emptyFS.piece
      (Json.obj [(strS "piece", Json.str (strS "  "))]) (strS "s") (strS "t")
      = (emptyFS.piece, true) ∧
    processRecords (fun _ => false) emptyFS 0
      [Json.obj [(strS "sentence", Json.str (strS "ab")),
                 (strS "pieces",
                  Json.arr [Json.obj [(strS "piece", Json.str (strS "  "))]])]]
      = (⟨(_write_sentence_file emptyFS.sent 0
             (Json.obj [(strS "sentence", Json.str (strS "ab")),
                        (strS "pieces",
                         Json.arr [Json.obj [(strS "piece", Json.str (strS "  "))]])])).1,
          emptyFS.piece⟩, 1, true) :=
  c10_blank_piece_name_noop (fun _ => false) emptyFS 0 emptyFS.piece
    (Json.obj [(strS "sentence", Json.str (strS "ab")),
               (strS "pieces",
                Json.arr [Json.obj [(strS "piece", Json.str (strS "  "))]])])
    (Json.obj [(strS "piece", Json.str (strS "  "))]) (strS "s") (strS "t")
    (by decide) (by decide) (by decide) (by decide)

/-- With no injected file errors, a piece write on a piece object always
succeeds. -/
theorem append_piece_alwaysOk (pieceDir : List (Str × Str)) (obj : Json)
    (stem text : Str) (hobj : isObj obj = true) :
    (_append_piece_file (fun _ => true) pieceDir obj stem text).2 = true := by
  simp only [_append_piece_file]
  rw [if_pos hobj]
  split
  · rfl
  · rw [if_neg (by simp)]
    split
    · rfl
    · split <;> rfl

/-- With no injected file errors, the piece loop over piece objects always
succeeds. -/
theorem processPieces_alwaysOk (stem text : Str) :
    ∀ (ps : List Json) (pieceDir : List (Str × Str)),
      (∀ p ∈ ps, isObj p = true) →
      (processPieces (fun _ => true) pieceDir stem text ps).2 = true := by
  intro ps
  induction ps with
  | nil => intro pieceDir _; rfl
  | cons p ps ih =>
    intro pieceDir h
    rw [processPieces, if_pos (append_piece_alwaysOk pieceDir p stem text
      (h p (List.mem_cons_self p ps)))]
    exact ih _ (fun q hq => h q (List.mem_cons_of_mem p hq))

/-- With no injected file errors, the record loop over well-shaped records
always succeeds. -/
theorem processRecords_alwaysOk :
    ∀ (arr : List Json) (fs : FS) (idx : Nat),
      (∀ obj ∈ arr, recordOk obj = true) →
      (processRecords (fun _ => true) fs idx arr).2.2 = true := by
  intro arr
  induction arr with
  | nil => intro fs idx _; rfl
  | cons obj rest ih =>
    intro fs idx h
    rw [processRecords, if_pos (h obj (List.mem_cons_self obj rest)),
      if_pos (processPieces_alwaysOk _ _ _ _
        (recordOk_pieces obj (h obj (List.mem_cons_self obj rest))))]
    exact ih _ _ (fun q hq => h q (List.mem_cons_of_mem obj hq))

/-- Whether a batch text parses into records on which the record body never
raises (an unparsable batch is harmlessly skipped by both modes). -/
def batchRecordsOk (text : Str) : Bool :=
  match _try_parse_json_array text with
  | some arr => arr.all recordOk
  | none => true

theorem batchRecordsOk_elim (text : Str) (arr : List Json)
    (h : batchRecordsOk text = true) (hp : _try_parse_json_array text = some arr) :
    ∀ obj ∈ arr, recordOk obj = true := by
  unfold batchRecordsOk at h
  rw [hp] at h
  simp only [] at h
  exact List.all_eq_true.mp h

/-- Streaming from any holder state equals the bulk batch loop from the same
state, for any starting batch position, when no file operation fails and
every parsed record is well-shaped. -/
theorem stream_eq_bulk_go (cfg : GeminiConfig) (olib : Str)
    (hc : cfg.output_lib = some olib) :
    ∀ (texts : List Str), (∀ t ∈ texts, batchRecordsOk t = true) →
    ∀ b fs idx,
      (List.enumFrom b texts).foldl (streamStep (fun _ => true) cfg) (fs, idx)
        = ((saveNotesGo (fun _ => true) fs idx texts).1,
           ((List.enumFrom b texts).foldl (streamStep (fun _ => true) cfg)
             (fs, idx)).2) ∧
      (saveNotesGo (fun _ => true) fs idx texts).2 = Except.ok () := by
  intro texts
  induction texts with
  | nil => intro _ b fs idx; exact ⟨rfl, rfl⟩
  | cons text rest ih =>
    intro hwf b fs idx
    have hrec : ∀ arr, _try_parse_json_array text = some arr →
        ∀ obj ∈ arr, recordOk obj = true :=
      fun arr hp =>
        batchRecordsOk_elim text arr (hwf text (List.mem_cons_self _ _)) hp
    have hwfr : ∀ t ∈ rest, batchRecordsOk t = true :=
      fun t ht => hwf t (List.mem_cons_of_mem _ ht)
    rw [List.enumFrom, List.foldl_cons, saveNotesGo]
    have hstep : streamStep (fun _ => true) cfg (fs, idx) (b, text)
        = match _try_parse_json_array text with
          | none => (fs, idx)
          | some arr =>
            ((processRecords (fun _ => true) fs idx arr).1,
             (processRecords (fun _ => true) fs idx arr).2.1) := by
      unfold streamStep save_batch
      rw [hc]
      cases hpt : _try_parse_json_array text with
      | none => rfl
      | some arr =>
        simp only []
        rw [if_pos (processRecords_alwaysOk arr fs idx (hrec arr hpt))]
    rw [hstep]
    cases hpt : _try_parse_json_array text with
    | none => exact ih hwfr (b + 1) fs idx
    | some arr =>
      simp only []
      rw [if_pos (processRecords_alwaysOk arr fs idx (hrec arr hpt))]
      exact ih hwfr (b + 1) (processRecords (fun _ => true) fs idx arr).1
        (processRecords (fun _ => true) fs idx arr).2.1

/-- C1 counterexample: the batch list `["[[]]", "[{"sentence": "x"}]"]` is
parseable throughout, but the first batch's only record is a list, not an
object, so `record.get` raises `AttributeError` inside the record body.
Streaming mode catches that per batch at the `on_batch` guard and still
merges the second batch (one sentence document, holder at 1); bulk
`save_notes` has no handler, propagates the exception out of batch 1 and
writes nothing — the two modes produce different final document sets, so the
universal equivalence fails. -/
theorem c1_counterexample :
    (save_notes (fun _ => true) ⟨some (strS "lib")⟩
        [strS "[[]]", strS "[\x7b\"sentence\": \"x\"\x7d]"] emptyFS).2
      = Except.error () ∧
    (save_notes (fun _ => true) ⟨some (strS "lib")⟩
        [strS "[[]]", strS "[\x7b\"sentence\": \"x\"\x7d]"] emptyFS).1.sent
      = [] ∧
    (fsGet (streamSave (fun _ => true) ⟨some (strS "lib")⟩
        [strS "[[]]", strS "[\x7b\"sentence\": \"x\"\x7d]"]).1.sent
      (strS "S0 - x.md")).isSome = true ∧
    (streamSave (fun _ => true) ⟨some (strS "lib")⟩
        [strS "[[]]", strS "[\x7b\"sentence\": \"x\"\x7d]"]).2 = 1 :=
  ⟨rfl, rfl, rfl, rfl⟩

/-- C1 (corrected): for batch texts whose parsed records are all well-shaped
(each record an object whose `pieces` value iterates as a list of objects —
otherwise the record body raises, which only streaming mode survives),
streaming mode (folding `save_batch` over the batches in arrival order,
threading the holder index from 0) and bulk mode (`save_notes` over the whole
list with a fresh index from 0) produce identical final sentence and piece
directories, and the bulk pass raises nothing. Unparsable batches are skipped
by both modes; indices are assigned by the shared record loop in arrival
order, independent of dispatch timing. -/
theorem c1_streaming_eq_bulk (olib : Str) (results : List Str)
    (hwf : ∀ t ∈ results, batchRecordsOk t = true) :
    (save_notes (fun _ => true) ⟨some olib⟩ results emptyFS).1
      = (streamSave (fun _ => true) ⟨some olib⟩ results).1 ∧
    (save_notes (fun _ => true) ⟨some olib⟩ results emptyFS).2
      = Except.ok () := by
  have h := stream_eq_bulk_go ⟨some olib⟩ olib rfl results hwf 1 emptyFS 0
  unfold streamSave save_notes
  simp only []
  refine ⟨?_, h.2⟩
  conv_rhs => rw [h.1]

/-- C1 witness: three batches — two well-shaped, one unparsable in between. -/
theorem c1_streaming_eq_bulk_witness :
    (∀ t ∈ [strS "[\x7b\"sentence\": \"ab\"\x7d]", strS "not json",
        strS "[\x7b\"sentence\": \"cd\"\x7d]"], batchRecordsOk t = true) ∧
    (save_notes (fun _ => true) ⟨some (strS "lib")⟩
        [strS "[\x7b\"sentence\": \"ab\"\x7d]", strS "not json",
         strS "[\x7b\"sentence\": \"cd\"\x7d]"] emptyFS).1
      = (streamSave (fun _ => true) ⟨some (strS "lib")⟩
        [strS "[\x7b\"sentence\": \"ab\"\x7d]", strS "not json",
         strS "[\x7b\"sentence\": \"cd\"\x7d]"]).1 ∧
    (save_notes (fun _ => true) ⟨some (strS "lib")⟩
        [strS "[\x7b\"sentence\": \"ab\"\x7d]", strS "not json",
         strS "[\x7b\"sentence\": \"cd\"\x7d]"] emptyFS).2 = Except.ok () :=
  ⟨by decide,
    (c1_streaming_eq_bulk (strS "lib")
      [strS "[\x7b\"sentence\": \"ab\"\x7d]", strS "not json",
       strS "[\x7b\"sentence\": \"cd\"\x7d]"] (by decide)).1,
    (c1_streaming_eq_bulk (strS "lib")
      [strS "[\x7b\"sentence\": \"ab\"\x7d]", strS "not json",
       strS "[\x7b\"sentence\": \"cd\"\x7d]"] (by decide)).2⟩

/-! ## Claim C6 -/

/-- `main._on_batch` as the `on_batch` callback: on success the holder takes
the returned index; an exception leaves the holder untouched (the partial file
updates remain) and is reported to the guard in `analyze_batches`. -/
def mainCb (pieceOk : Str → Bool) (cfg : GeminiConfig) :
    Nat → Str → FS × Nat → (FS × Nat) × Bool :=
  fun i out st =>
    let r := save_batch pieceOk cfg i out st.1 st.2
    match r.2 with
    | Except.ok i' => ((r.1, i'), true)
    | Except.error _ => ((r.1, st.2), false)

/-- Writing a file makes it readable. -/
theorem fsGet_fsSet_self (m : List (Str × Str)) (k v : Str) :
    fsGet (fsSet m k v) k = some v := by
  induction m with
  | nil => simp [fsSet, fsGet]
  | cons p m ih =>
    by_cases h : p.1 = k
    · simp [fsSet, fsGet, h]
    · simp [fsSet, fsGet, h, ih]

/-- C6 counterexample: a two-record batch whose first record's piece document
write raises. `save_batch` propagates the exception (it is not caught at the
piece write), the first record's sentence document was already written, but
the holder index does not advance and the batch's second record is never
merged — contradicting the claim that the index still advances and the rest of
the batch is not aborted. -/
theorem c6_counterexample :
    (save_batch (fun fp => if fp = strS "X.md" then false else true)
        ⟨some (strS "lib")⟩ 1
        (strS "[\x7b\"sentence\": \"ab\", \"pieces\": [\x7b\"piece\": \"X\", \"meaning\": \"m\", \"function\": \"f\", \"type\": \"n\"\x7d]\x7d, \x7b\"sentence\": \"cd\"\x7d]")
        emptyFS 0).2
      = Except.error () ∧
    (fsGet (save_batch (fun fp => if fp = strS "X.md" then false else true)
        ⟨some (strS "lib")⟩ 1
        (strS "[\x7b\"sentence\": \"ab\", \"pieces\": [\x7b\"piece\": \"X\", \"meaning\": \"m\", \"function\": \"f\", \"type\": \"n\"\x7d]\x7d, \x7b\"sentence\": \"cd\"\x7d]")
        emptyFS 0).1.sent (strS "S0 - ab.md")).isSome = true ∧
    fsGet (save_batch (fun fp => if fp = strS "X.md" then false else true)
        ⟨some (strS "lib")⟩ 1
        (strS "[\x7b\"sentence\": \"ab\", \"pieces\": [\x7b\"piece\": \"X\", \"meaning\": \"m\", \"function\": \"f\", \"type\": \"n\"\x7d]\x7d, \x7b\"sentence\": \"cd\"\x7d]")
        emptyFS 0).1.sent (strS "S1 - cd.md") = none ∧
    (streamStep (fun fp => if fp = strS "X.md" then false else true)
        ⟨some (strS "lib")⟩ (emptyFS, 0)
        (1, strS "[\x7b\"sentence\": \"ab\", \"pieces\": [\x7b\"piece\": \"X\", \"meaning\": \"m\", \"function\": \"f\", \"type\": \"n\"\x7d]\x7d, \x7b\"sentence\": \"cd\"\x7d]")).2
      = 0 := by
  refine ⟨rfl, rfl, rfl, rfl⟩

/-- C6 (amended): a piece-document write failure propagates out of the record
merge and is caught only at the per-batch callback boundary in
`analyze_batches`. The failing record's sentence document has already been
written, but its sentence index is not consumed and the remaining records of
the batch are skipped; dispatch of subsequent batches continues and the run
still returns every batch's raw result. -/
theorem c6_piece_write_failure_caught_at_callback
    (pieceOk : Str → Bool) (cfg : GeminiConfig)
    (svc : Nat → Nat → CallOut) (o1 o2 : Str) (m : Nat)
    (h1 : svc 1 1 = CallOut.ok o1) (h2 : svc 2 1 = CallOut.ok o2)
    (fs : FS) (idx : Nat) (obj : Json) (rest : List Json)
    (hrec : recordOk obj = true)
    (hfail : (processPieces pieceOk fs.piece
        ((_write_sentence_file fs.sent idx obj).2.1.take
          ((_write_sentence_file fs.sent idx obj).2.1.length - 3))
        (_write_sentence_file fs.sent idx obj).2.2 (piecesList obj)).2 = false) :
    (analyze_batches svc (mainCb pieceOk cfg) (m + 1) [strS "b1", strS "b2"]
        (emptyFS, 0)).2.2 = Except.ok [o1, o2] ∧
    processRecords pieceOk fs idx (obj :: rest)
      = (⟨(_write_sentence_file fs.sent idx obj).1,
          (processPieces pieceOk fs.piece
            ((_write_sentence_file fs.sent idx obj).2.1.take
              ((_write_sentence_file fs.sent idx obj).2.1.length - 3))
            (_write_sentence_file fs.sent idx obj).2.2 (piecesList obj)).1⟩,
         idx, false) ∧
    fsGet (_write_sentence_file fs.sent idx obj).1
        (_write_sentence_file fs.sent idx obj).2.1
      = some (pyRstrip (List.intercalate (strS "\n")
          ([fieldStr obj (strS "sentence"), strS "---",
            fieldStr obj (strS "translation"), strS "---"]
            ++ ((piecesList obj).map sentencePieceLines).flatten)) ++ strS "\n") := by
  refine ⟨?_, ?_, ?_⟩
  · simp only [analyze_batches, analyzeGo, dispatchBatch, attemptSeq, h1, h2]
    rfl
  · rw [processRecords, if_pos hrec]
    rw [if_neg (by rw [hfail]; exact Bool.false_ne_true)]
  · unfold _write_sentence_file
    simp only []
    exact fsGet_fsSet_self _ _ _

/-- C6 witness: the amended behaviour on a concrete failing piece write. -/
theorem c6_piece_write_failure_caught_at_callback_witness :
    (analyze_batches (fun b _ => CallOut.ok (if b = 1 then strS "r1" else strS "r2"))
        (mainCb (fun fp => if fp = strS "X.md" then false else true)
          ⟨some (strS "lib")⟩) 1 [strS "b1", strS "b2"]
        (emptyFS, 0)).2.2 = Except.ok [strS "r1", strS "r2"] ∧
    processRecords (fun fp => if fp = strS "X.md" then false else true) emptyFS 0
        [Json.obj [(strS "sentence", Json.str (strS "ab")),
                   (strS "pieces", Json.arr [Json.obj
                     [(strS "piece", Json.str (strS "X")),
                      (strS "meaning", Json.str (strS "m")),
                      (strS "function", Json.str (strS "f"))]])],
         Json.obj [(strS "sentence", Json.str (strS "cd"))]]
      = (⟨(_write_sentence_file emptyFS.sent 0
            (Json.obj [(strS "sentence", Json.str (strS "ab")),
                       (strS "pieces", Json.arr [Json.obj
                         [(strS "piece", Json.str (strS "X")),
                          (strS "meaning", Json.str (strS "m")),
                          (strS "function", Json.str (strS "f"))]])])).1,
          (processPieces (fun fp => if fp = strS "X.md" then false else true)
            emptyFS.piece
            ((_write_sentence_file emptyFS.sent 0
              (Json.obj [(strS "sentence", Json.str (strS "ab")),
                         (strS "pieces", Json.arr [Json.obj
                           [(strS "piece", Json.str (strS "X")),
                            (strS "meaning", Json.str (strS "m")),
                            (strS "function", Json.str (strS "f"))]])])).2.1.take
              ((_write_sentence_file emptyFS.sent 0
                (Json.obj [(strS "sentence", Json.str (strS "ab")),
                           (strS "pieces", Json.arr [Json.obj
                             [(strS "piece", Json.str (strS "X")),
                              (strS "meaning", Json.str (strS "m")),
                              (strS "function", Json.str (strS "f"))]])])).2.1.length - 3))
            (_write_sentence_file emptyFS.sent 0
              (Json.obj [(strS "sentence", Json.str (strS "ab")),
                         (strS "pieces", Json.arr [Json.obj
                           [(strS "piece", Json.str (strS "X")),
                            (strS "meaning", Json.str (strS "m")),
                            (strS "function", Json.str (strS "f"))]])])).2.2
            (piecesList (Json.obj [(strS "sentence", Json.str (strS "ab")),
                        (strS "pieces", Json.arr [Json.obj
                          [(strS "piece", Json.str (strS "X")),
                           (strS "meaning", Json.str (strS "m")),
                           (strS "function", Json.str (strS "f"))]])]))).1⟩,
         0, false) ∧
    fsGet (_write_sentence_file emptyFS.sent 0
        (Json.obj [(strS "sentence", Json.str (strS "ab")),
                   (strS "pieces", Json.arr [Json.obj
                     [(strS "piece", Json.str (strS "X")),
                      (strS "meaning", Json.str (strS "m")),
                      (strS "function", Json.str (strS "f"))]])])).1
        (_write_sentence_file emptyFS.sent 0
        (Json.obj [(strS "sentence", Json.str (strS "ab")),
                   (strS "pieces", Json.arr [Json.obj
                     [(strS "piece", Json.str (strS "X")),
                      (strS "meaning", Json.str (strS "m")),
                      (strS "function", Json.str (strS "f"))]])])).2.1
      = some (pyRstrip (List.intercalate (strS "\n")
          ([fieldStr (Json.obj [(strS "sentence", Json.str (strS "ab")),
                      (strS "pieces", Json.arr [Json.obj
                        [(strS "piece", Json.str (strS "X")),
                         (strS "meaning", Json.str (strS "m")),
                         (strS "function", Json.str (strS "f"))]])]) (strS "sentence"),
            strS "---",
            fieldStr (Json.obj [(strS "sentence", Json.str (strS "ab")),
                      (strS "pieces", Json.arr [Json.obj
                        [(strS "piece", Json.str (strS "X")),
                         (strS "meaning", Json.str (strS "m")),
                         (strS "function", Json.str (strS "f"))]])]) (strS "translation"),
            strS "---"]
            ++ ((piecesList (Json.obj [(strS "sentence", Json.str (strS "ab")),
                  (strS "pieces", Json.arr [Json.obj
                    [(strS "piece", Json.str (strS "X")),
                     (strS "meaning", Json.str (strS "m")),
                     (strS "function", Json.str (strS "f"))]])])).map
                sentencePieceLines).flatten)) ++ strS "\n") :=
  c6_piece_write_failure_caught_at_callback
    (fun fp => if fp = strS "X.md" then false else true) ⟨some (strS "lib")⟩
    (fun b _ => CallOut.ok (if b = 1 then strS "r1" else strS "r2"))
    (strS "r1") (strS "r2") 0 (by decide) (by decide)
    emptyFS 0
    (Json.obj [(strS "sentence", Json.str (strS "ab")),
               (strS "pieces", Json.arr [Json.obj
                 [(strS "piece", Json.str (strS "X")),
                  (strS "meaning", Json.str (strS "m")),
                  (strS "function", Json.str (strS "f"))]])])
    [Json.obj [(strS "sentence", Json.str (strS "cd"))]]
    (by decide) (by decide)

/-! ## String lemmas for the piece-document merge -/

/-- Lines free of `str.splitlines` boundaries. -/
def sepFree (l : Str) : Prop := ∀ c ∈ l, isLineSep c = false

instance sepFree_decidable (l : Str) : Decidable (sepFree l) :=
  List.decidableBAll _ l

theorem pyRstrip_nil : pyRstrip [] = [] := rfl

/-- Right-strip over a concatenation whose right part keeps a residue. -/
theorem pyRstrip_append (A B : Str) (h : ¬ pyRstrip B = []) :
    pyRstrip (A ++ B) = A ++ pyRstrip B := by
  unfold pyRstrip at *
  rw [List.reverse_append, List.dropWhile_append]
  split
  · rename_i hemp
    exfalso
    apply h
    rw [List.isEmpty_iff] at hemp
    rw [hemp]
    rfl
  · rw [List.reverse_append, List.reverse_reverse]

/-- A list ending in a non-whitespace character is right-strip fixed. -/
theorem pyRstrip_eq_self (l : Str)
    (h : ∀ c, l.getLast? = some c → isPyWs c = false) : pyRstrip l = l := by
  unfold pyRstrip
  match hrev : l.reverse with
  | [] =>
    have : l = [] := by simpa using congrArg List.reverse hrev
    simp [this]
  | a :: t =>
    have ha : l.getLast? = some a := by
      rw [← List.head?_reverse, hrev]; rfl
    rw [List.dropWhile_cons_of_neg (by simp [h a ha])]
    rw [← hrev, List.reverse_reverse]

/-- Right-strip keeps the head of a list starting with non-whitespace. -/
theorem pyRstrip_cons_head (c : Char) (t : Str) (h : isPyWs c = false) :
    ∃ t', pyRstrip (c :: t) = c :: t' := by
  unfold pyRstrip
  rw [show (c :: t).reverse = t.reverse ++ [c] by simp, List.dropWhile_append]
  split
  · refine ⟨[], ?_⟩
    rw [List.dropWhile_cons_of_neg (by simp [h])]
    rfl
  · refine ⟨(List.dropWhile isPyWs t.reverse).reverse, ?_⟩
    rw [List.reverse_append]
    rfl

theorem pyLstrip_cons_of_neg (c : Char) (t : Str) (h : isPyWs c = false) :
    pyLstrip (c :: t) = c :: t := by
  unfold pyLstrip
  rw [List.dropWhile_cons_of_neg (by simp [h])]

theorem pyRstrip_idem (l : Str) : pyRstrip (pyRstrip l) = pyRstrip l := by
  unfold pyRstrip
  rw [List.reverse_reverse, List.dropWhile_idempotent]

/-- The head of a left-stripped list is non-whitespace. -/
theorem pyLstrip_head (x : Str) (c : Char) (t : Str) (h : pyLstrip x = c :: t) :
    isPyWs c = false := by
  have h1 : pyLstrip (pyLstrip x) = pyLstrip x := by
    unfold pyLstrip; rw [List.dropWhile_idempotent]
  rw [h] at h1
  have := List.dropWhile_eq_self_iff.mp h1 (by simp)
  simpa using this

/-- Stripping is idempotent. -/
theorem pyStrip_idem (x : Str) : pyStrip (pyStrip x) = pyStrip x := by
  unfold pyStrip
  match hy : pyLstrip x with
  | [] => rfl
  | c :: t =>
    have hc : isPyWs c = false := pyLstrip_head x c t hy
    obtain ⟨t', ht'⟩ := pyRstrip_cons_head c t hc
    rw [ht', pyLstrip_cons_of_neg c t' hc, ← ht', pyRstrip_idem]

/-- A strip-fixed nonempty list ends in a non-whitespace character. -/
theorem stripFixed_getLast (m : Str) (hfix : pyRstrip m = m) :
    ∀ c, m.getLast? = some c → isPyWs c = false := by
  intro c hc
  have h1 : List.dropWhile isPyWs m.reverse = m.reverse := by
    have := congrArg List.reverse hfix
    rwa [pyRstrip, List.reverse_reverse] at this
  rw [← List.head?_reverse] at hc
  match hrev : m.reverse with
  | [] => rw [hrev] at hc; exact absurd hc (by simp)
  | a :: t =>
    rw [hrev] at hc h1
    have := List.dropWhile_eq_self_iff.mp h1 (by simp)
    simp at hc
    subst hc
    simpa using this

/-- A strip-fixed value is right-strip fixed (and so is any stripped value). -/
theorem pyRstrip_pyStrip (x : Str) : pyRstrip (pyStrip x) = pyStrip x := by
  unfold pyStrip
  rw [pyRstrip_idem]

/-- `pyStrip` of a list headed by non-whitespace keeps that head. -/
theorem pyStrip_cons_head (c : Char) (t : Str) (h : isPyWs c = false) :
    ∃ t', pyStrip (c :: t) = c :: t' := by
  unfold pyStrip
  rw [pyLstrip_cons_of_neg c t h]
  exact pyRstrip_cons_head c t h

theorem intercalate_single (s x : Str) : List.intercalate s [x] = x := by
  simp [List.intercalate]

theorem intercalate_cons₂ (s x y : Str) (tl : List Str) :
    List.intercalate s (x :: y :: tl) = x ++ s ++ List.intercalate s (y :: tl) := by
  simp [List.intercalate, List.intersperse_cons_cons, List.append_assoc]

theorem intercalate_append_of_ne (s : Str) (A B : List Str)
    (hA : A ≠ []) (hB : B ≠ []) :
    List.intercalate s (A ++ B)
      = List.intercalate s A ++ s ++ List.intercalate s B := by
  induction A with
  | nil => exact absurd rfl hA
  | cons x A' ih =>
    cases A' with
    | nil =>
      cases B with
      | nil => exact absurd rfl hB
      | cons y tl =>
        rw [List.singleton_append, intercalate_cons₂, intercalate_single]
    | cons a A'' =>
      rw [List.cons_append, List.cons_append, intercalate_cons₂,
        ← List.cons_append, ih (by simp), intercalate_cons₂]
      simp [List.append_assoc]

theorem isLineSep_nl : isLineSep '\n' = true := by decide

theorem nl_ne_cr : ('\n' = '\r') = False := by simp

/-- Splitting a single boundary-free line followed by a `\n` boundary. -/
theorem splitlinesAux_line (rest : Str) :
    ∀ (x : Str), sepFree x →
      splitlinesAux (x ++ '\n' :: rest)
        = x :: (match rest with | [] => [] | _ :: _ => splitlinesAux rest) := by
  intro x
  induction x with
  | nil =>
    intro _
    cases rest with
    | nil => simp [splitlinesAux, isLineSep_nl]
    | cons r r' => simp [splitlinesAux, isLineSep_nl, nl_ne_cr]
  | cons c x' ih =>
    intro hx
    have hc : isLineSep c = false := hx c (List.mem_cons_self c x')
    cases x' with
    | nil =>
      cases rest with
      | nil => simp [splitlinesAux, hc, isLineSep_nl]
      | cons r r' => simp [splitlinesAux, hc, isLineSep_nl, nl_ne_cr]
    | cons d x'' =>
      have h' := ih (fun e he => hx e (List.mem_cons_of_mem _ he))
      simp only [List.cons_append] at h' ⊢
      rw [splitlinesAux.eq_def]
      simp [hc, h']

theorem splitlinesAux_line_nil (x : Str) (hx : sepFree x) :
    splitlinesAux (x ++ ['\n']) = [x] :=
  splitlinesAux_line [] x hx

theorem splitlinesAux_line_cons (x rest : Str) (hx : sepFree x)
    (hr : rest ≠ []) :
    splitlinesAux (x ++ '\n' :: rest) = x :: splitlinesAux rest := by
  rw [splitlinesAux_line rest x hx]
  cases rest with
  | nil => exact absurd rfl hr
  | cons r r' => rfl

theorem pySplitlines_ne_nil (s : Str) (h : s ≠ []) :
    pySplitlines s = splitlinesAux s := by
  cases s with
  | nil => exact absurd rfl h
  | cons c cs => rfl

/-- Splitting a canonical file body: boundary-free lines joined by `\n` with a
final newline split back into exactly those lines. -/
theorem pySplitlines_joined (ls : List Str) (hne : ls ≠ [])
    (hsep : ∀ l ∈ ls, sepFree l) :
    pySplitlines (List.intercalate (strS "\n") ls ++ strS "\n") = ls := by
  induction ls with
  | nil => exact absurd rfl hne
  | cons x tl ih =>
    cases tl with
    | nil =>
      rw [intercalate_single]
      rw [pySplitlines_ne_nil _ (by simp [strS])]
      exact splitlinesAux_line_nil x (hsep x (List.mem_cons_self x []))
    | cons y tl' =>
      rw [intercalate_cons₂]
      have hx : sepFree x := hsep x (List.mem_cons_self x _)
      have hrest : List.intercalate (strS "\n") (y :: tl') ++ strS "\n" ≠ [] := by
        intro hcon
        have := congrArg List.length hcon
        simp [strS] at this
      rw [List.append_assoc, List.append_assoc, show (strS "\n" ++
          (List.intercalate (strS "\n") (y :: tl') ++ strS "\n"))
          = '\n' :: (List.intercalate (strS "\n") (y :: tl') ++ strS "\n") from rfl]
      rw [pySplitlines_ne_nil _ (by simp)]
      rw [splitlinesAux_line_cons _ _ hx hrest]
      rw [← pySplitlines_ne_nil _ hrest]
      rw [ih (by simp) (fun l hl => hsep l (List.mem_cons_of_mem _ hl))]

theorem nextTopFrom_bounds (ls : List Str) :
    ∀ j, j ≤ nextTopFrom ls j ∧ nextTopFrom ls j ≤ j + ls.length := by
  induction ls with
  | nil => intro j; simp [nextTopFrom]
  | cons l ls ih =>
    intro j
    rw [nextTopFrom]
    split
    · simp
    · have := ih (j + 1)
      constructor
      · omega
      · simp only [List.length_cons]
        omega

theorem findMeaningIdx_bound (target : Str) (lines : List Str) :
    ∀ i, findMeaningIdx lines target = some i → i < lines.length := by
  induction lines with
  | nil => intro i h; exact absurd h (by simp [findMeaningIdx])
  | cons l ls ih =>
    intro i h
    rw [findMeaningIdx] at h
    split at h
    · cases h; simp
    · match hrec : findMeaningIdx ls target with
      | none => rw [hrec] at h; exact absurd h (by simp)
      | some i' =>
        rw [hrec] at h
        simp at h
        have := ih i' hrec
        simp [← h]
        omega

theorem startsDash_false_of_head (c : Char) (t : Str) (h : ¬ c = '-') :
    startsDash (c :: t) = false := by
  simp [startsDash, strS, List.isPrefixOf]
  intro hc
  exact absurd hc.symm h

theorem startsDash_dash_space (u : Str) : startsDash ('-' :: ' ' :: u) = true := by
  simp [startsDash, strS, List.isPrefixOf]

/-- Membership is preserved by right-strip. -/
theorem mem_of_mem_pyRstrip (x : Str) (c : Char) (h : c ∈ pyRstrip x) : c ∈ x := by
  unfold pyRstrip at h
  rw [List.mem_reverse] at h
  have := (List.dropWhile_suffix (l := x.reverse) isPyWs).subset h
  rwa [List.mem_reverse] at this

theorem sepFree_pyRstrip (x : Str) (h : sepFree x) : sepFree (pyRstrip x) :=
  fun c hc => h c (mem_of_mem_pyRstrip x c hc)

theorem sepFree_append_iff (a b : Str) :
    sepFree (a ++ b) ↔ sepFree a ∧ sepFree b := by
  constructor
  · intro h
    exact ⟨fun c hc => h c (List.mem_append_left _ hc),
           fun c hc => h c (List.mem_append_right _ hc)⟩
  · rintro ⟨ha, hb⟩ c hc
    rcases List.mem_append.mp hc with h | h
    · exact ha c h
    · exact hb c h

/-- The function line keeps its leading space after right-stripping. -/
theorem funLine_head (f : Str) :
    ∃ t', pyRstrip (strS "        - " ++ f) = ' ' :: t' := by
  obtain ⟨t2, ht2⟩ := pyRstrip_cons_head '-' (' ' :: f) (by decide)
  have hB : ¬ pyRstrip ('-' :: ' ' :: f) = [] := by rw [ht2]; simp
  have heq : strS "        - " ++ f = strS "        " ++ ('-' :: ' ' :: f) := by
    simp [strS]
  rw [heq, pyRstrip_append _ _ hB, ht2]
  exact ⟨strS "       " ++ '-' :: t2, rfl⟩

theorem sepFree_append (a b : Str) (ha : sepFree a) (hb : sepFree b) :
    sepFree (a ++ b) := (sepFree_append_iff a b).mpr ⟨ha, hb⟩

theorem pyRstrip_of_stripFixed (m : Str) (h : pyStrip m = m) : pyRstrip m = m := by
  conv_lhs => rw [← h]
  rw [pyRstrip_pyStrip, h]

theorem pyRstrip_append_fixed (A B : Str) (hB : pyRstrip B = B) (hne : B ≠ []) :
    pyRstrip (A ++ B) = A ++ B := by
  rw [pyRstrip_append A B (by rw [hB]; exact hne), hB]

/-- The meaning heading of a strip-fixed nonempty meaning is strip-fixed. -/
theorem pyStrip_heading (m : Str) (hf : pyStrip m = m) (hne : m ≠ []) :
    pyStrip (strS "- " ++ m) = strS "- " ++ m := by
  show pyRstrip (pyLstrip ('-' :: ' ' :: m)) = strS "- " ++ m
  rw [pyLstrip_cons_of_neg _ _ (by decide)]
  exact pyRstrip_append_fixed (strS "- ") m (pyRstrip_of_stripFixed m hf) hne

theorem heading_ne_dashes (m : Str) :
    ¬ pyStrip (strS "---") = strS "- " ++ m := by
  rw [show pyStrip (strS "---") = strS "---" from by decide]
  intro h
  have : '-' = ' ' := by
    have := congrArg (fun l => l.get? 1) h
    simpa [strS] using this
  exact absurd this (by decide)

/-- A line headed by a non-whitespace character other than `-` never
strip-equals a meaning heading. -/
theorem heading_ne_head (c : Char) (t : Str) (hc : isPyWs c = false)
    (hne : ¬ c = '-') (m : Str) : ¬ pyStrip (c :: t) = strS "- " ++ m := by
  obtain ⟨t', ht'⟩ := pyStrip_cons_head c t hc
  rw [ht']
  intro h
  have : c = '-' := by
    have := congrArg (fun l => l.get? 0) h
    simpa [strS] using this
  exact absurd this hne

/-- The piece object shape the service-response records carry. -/
def mkPieceObj (name ty m f : Str) : Json :=
  Json.obj [(strS "piece", Json.str name), (strS "type", Json.str ty),
            (strS "meaning", Json.str m), (strS "function", Json.str f)]

theorem mkPieceObj_piece (n t m f : Str) :
    fieldStr (mkPieceObj n t m f) (strS "piece") = pyStrip n := rfl

theorem mkPieceObj_type (n t m f : Str) :
    fieldStr (mkPieceObj n t m f) (strS "type") = pyStrip t := rfl

theorem mkPieceObj_meaning (n t m f : Str) :
    fieldStr (mkPieceObj n t m f) (strS "meaning") = pyStrip m := rfl

theorem mkPieceObj_function (n t m f : Str) :
    fieldStr (mkPieceObj n t m f) (strS "function") = pyStrip f := rfl

theorem isObj_mkPieceObj (n t m f : Str) : isObj (mkPieceObj n t m f) = true := rfl

theorem funLine_rstrip_ne (f : Str) : ¬ pyRstrip (strS "        - " ++ f) = [] := by
  obtain ⟨t', h⟩ := funLine_head f
  rw [h]
  simp

theorem startsDash_link (stem text : Str) :
    startsDash (strS "    - [[" ++ stem ++ strS "|" ++ text ++ strS "]]") = false := by
  rw [show strS "    - [[" ++ stem ++ strS "|" ++ text ++ strS "]]"
      = ' ' :: (strS "   - [[" ++ stem ++ strS "|" ++ text ++ strS "]]") from rfl]
  exact startsDash_false_of_head ' ' _ (by decide)

theorem startsDash_funLine (f : Str) :
    startsDash (pyRstrip (strS "        - " ++ f)) = false := by
  obtain ⟨t', h⟩ := funLine_head f
  rw [h]
  exact startsDash_false_of_head ' ' _ (by decide)

/-- Right-stripping the joined lines only right-strips the last line. -/
theorem pyRstrip_joined_last (pre : List Str) (last : Str)
    (hpre : pre ≠ []) (hne : ¬ pyRstrip last = []) :
    pyRstrip (List.intercalate (strS "\n") (pre ++ [last]))
      = List.intercalate (strS "\n") (pre ++ [pyRstrip last]) := by
  rw [intercalate_append_of_ne _ _ _ hpre (by simp),
    intercalate_append_of_ne _ _ _ hpre (by simp),
    intercalate_single, intercalate_single,
    pyRstrip_append _ _ hne]

/-- C2 (amended, restricted to fields free of `str.splitlines` boundaries):
two merges into a fresh piece document that share the piece name and the exact
meaning text produce one meaning group headed by that meaning with the two
backlink entries in arrival order (the second inserted at the end of the
group), and the file shows exactly one top-level heading line for that
meaning. -/
theorem c2_meaning_group_dedup
    (name ty m f1 f2 stem1 text1 stem2 text2 : Str)
    (hnameF : pyStrip name = name) (hnameNe : name ≠ [])
    (htyF : pyStrip ty = ty)
    (hmF : pyStrip m = m) (hmNe : m ≠ [])
    (hf1F : pyStrip f1 = f1) (hf2F : pyStrip f2 = f2)
    (hsT : sepFree ty) (hsM : sepFree m)
    (hsF1 : sepFree f1) (hsF2 : sepFree f2)
    (hsS1 : sepFree stem1) (hsX1 : sepFree text1)
    (hsS2 : sepFree stem2) (hsX2 : sepFree text2) :
    _append_piece_file (fun _ => true)
        (_append_piece_file (fun _ => true) [] (mkPieceObj name ty m f1) stem1 text1).1
        (mkPieceObj name ty m f2) stem2 text2
      = ([(_sanitize_filename name ++ strS ".md",
           List.intercalate (strS "\n")
             [strS "---", strS "type: " ++ ty, strS "---", strS "- " ++ m,
              strS "    - [[" ++ stem1 ++ strS "|" ++ text1 ++ strS "]]",
              pyRstrip (strS "        - " ++ f1),
              strS "    - [[" ++ stem2 ++ strS "|" ++ text2 ++ strS "]]",
              pyRstrip (strS "        - " ++ f2)] ++ strS "\n")], true) ∧
    (pySplitlines (List.intercalate (strS "\n")
             [strS "---", strS "type: " ++ ty, strS "---", strS "- " ++ m,
              strS "    - [[" ++ stem1 ++ strS "|" ++ text1 ++ strS "]]",
              pyRstrip (strS "        - " ++ f1),
              strS "    - [[" ++ stem2 ++ strS "|" ++ text2 ++ strS "]]",
              pyRstrip (strS "        - " ++ f2)] ++ strS "\n")).countP
        (fun l => startsDash l && decide (pyStrip l = strS "- " ++ m)) = 1 := by
  have hl1shape : strS "type: " ++ ty = 't' :: (strS "ype: " ++ ty) := rfl
  have hsepLines : ∀ (st tx : Str) (f : Str), sepFree st → sepFree tx → sepFree f →
      sepFree (strS "    - [[" ++ st ++ strS "|" ++ tx ++ strS "]]") ∧
      sepFree (pyRstrip (strS "        - " ++ f)) := by
    intro st tx f hst htx hf
    constructor
    · exact sepFree_append _ _ (sepFree_append _ _ (sepFree_append _ _
        (sepFree_append _ _ (by decide) hst) (by decide)) htx) (by decide)
    · exact sepFree_pyRstrip _ (sepFree_append _ _ (by decide) hf)
  obtain ⟨hsepLink1, hsepFl1⟩ := hsepLines stem1 text1 f1 hsS1 hsX1 hsF1
  obtain ⟨hsepLink2, hsepFl2⟩ := hsepLines stem2 text2 f2 hsS2 hsX2 hsF2
  have happ1 : _append_piece_file (fun _ => true) [] (mkPieceObj name ty m f1)
      stem1 text1
      = ([(_sanitize_filename name ++ strS ".md",
           List.intercalate (strS "\n")
             [strS "---", strS "type: " ++ ty, strS "---", strS "- " ++ m,
              strS "    - [[" ++ stem1 ++ strS "|" ++ text1 ++ strS "]]",
              pyRstrip (strS "        - " ++ f1)] ++ strS "\n")], true) := by
    simp only [_append_piece_file, isObj_mkPieceObj, eq_self_iff_true, if_true,
      mkPieceObj_piece, mkPieceObj_type,
      mkPieceObj_meaning, mkPieceObj_function, hnameF, htyF, hmF, hf1F]
    rw [if_neg hnameNe, if_neg (by simp)]
    simp only [fsGet, backlinkLines]
    rw [show ([strS "---", strS "type: " ++ ty, strS "---", strS "- " ++ m]
        ++ [strS "    - [[" ++ stem1 ++ strS "|" ++ text1 ++ strS "]]",
            strS "        - " ++ f1])
        = ([strS "---", strS "type: " ++ ty, strS "---", strS "- " ++ m,
            strS "    - [[" ++ stem1 ++ strS "|" ++ text1 ++ strS "]]"]
           ++ [strS "        - " ++ f1]) from rfl]
    rw [pyRstrip_joined_last _ _ (by simp) (funLine_rstrip_ne f1)]
    simp [fsSet]
  have hsplit1 : pySplitlines (List.intercalate (strS "\n")
      [strS "---", strS "type: " ++ ty, strS "---", strS "- " ++ m,
       strS "    - [[" ++ stem1 ++ strS "|" ++ text1 ++ strS "]]",
       pyRstrip (strS "        - " ++ f1)] ++ strS "\n")
      = [strS "---", strS "type: " ++ ty, strS "---", strS "- " ++ m,
         strS "    - [[" ++ stem1 ++ strS "|" ++ text1 ++ strS "]]",
         pyRstrip (strS "        - " ++ f1)] := by
    apply pySplitlines_joined _ (by simp)
    intro l hl
    simp only [List.mem_cons, List.not_mem_nil, or_false] at hl
    rcases hl with rfl | rfl | rfl | rfl | rfl | rfl
    · decide
    · exact sepFree_append _ _ (by decide) hsT
    · decide
    · exact sepFree_append _ _ (by decide) hsM
    · exact hsepLink1
    · exact hsepFl1
  have hl1ne : ¬ pyStrip (strS "type: " ++ ty) = strS "- " ++ m := by
    rw [hl1shape]
    exact heading_ne_head 't' _ (by decide) (by decide) m
  have hfind : findMeaningIdx
      [strS "---", strS "type: " ++ ty, strS "---", strS "- " ++ m,
       strS "    - [[" ++ stem1 ++ strS "|" ++ text1 ++ strS "]]",
       pyRstrip (strS "        - " ++ f1)] (strS "- " ++ m) = some 3 := by
    rw [findMeaningIdx, if_neg (heading_ne_dashes m),
      findMeaningIdx, if_neg hl1ne,
      findMeaningIdx, if_neg (heading_ne_dashes m),
      findMeaningIdx, if_pos (pyStrip_heading m hmF hmNe)]
    rfl
  have hnext : nextTopFrom
      [strS "    - [[" ++ stem1 ++ strS "|" ++ text1 ++ strS "]]",
       pyRstrip (strS "        - " ++ f1)] 4 = 6 := by
    rw [nextTopFrom, startsDash_link stem1 text1]
    rw [if_neg (by simp)]
    rw [nextTopFrom, startsDash_funLine f1]
    rw [if_neg (by simp)]
    rfl
  refine ⟨?_, ?_⟩
  · rw [happ1]
    simp only [_append_piece_file, isObj_mkPieceObj, eq_self_iff_true, if_true,
      mkPieceObj_piece, mkPieceObj_type,
      mkPieceObj_meaning, mkPieceObj_function, hnameF, htyF, hmF, hf2F]
    rw [if_neg hnameNe, if_neg (by simp)]
    rw [show fsGet [(_sanitize_filename name ++ strS ".md",
        List.intercalate (strS "\n")
          [strS "---", strS "type: " ++ ty, strS "---", strS "- " ++ m,
           strS "    - [[" ++ stem1 ++ strS "|" ++ text1 ++ strS "]]",
           pyRstrip (strS "        - " ++ f1)] ++ strS "\n")]
        (_sanitize_filename name ++ strS ".md")
        = some (List.intercalate (strS "\n")
          [strS "---", strS "type: " ++ ty, strS "---", strS "- " ++ m,
           strS "    - [[" ++ stem1 ++ strS "|" ++ text1 ++ strS "]]",
           pyRstrip (strS "        - " ++ f1)] ++ strS "\n") from by simp [fsGet]]
    simp only [hsplit1, hfind]
    rw [show List.drop (3 + 1)
        [strS "---", strS "type: " ++ ty, strS "---", strS "- " ++ m,
         strS "    - [[" ++ stem1 ++ strS "|" ++ text1 ++ strS "]]",
         pyRstrip (strS "        - " ++ f1)]
        = [strS "    - [[" ++ stem1 ++ strS "|" ++ text1 ++ strS "]]",
           pyRstrip (strS "        - " ++ f1)] from rfl]
    rw [hnext]
    simp only [backlinkLines]
    rw [show (List.take 6
        [strS "---", strS "type: " ++ ty, strS "---", strS "- " ++ m,
         strS "    - [[" ++ stem1 ++ strS "|" ++ text1 ++ strS "]]",
         pyRstrip (strS "        - " ++ f1)]
        ++ [strS "    - [[" ++ stem2 ++ strS "|" ++ text2 ++ strS "]]",
            strS "        - " ++ f2]
        ++ List.drop 6
        [strS "---", strS "type: " ++ ty, strS "---", strS "- " ++ m,
         strS "    - [[" ++ stem1 ++ strS "|" ++ text1 ++ strS "]]",
         pyRstrip (strS "        - " ++ f1)])
        = ([strS "---", strS "type: " ++ ty, strS "---", strS "- " ++ m,
            strS "    - [[" ++ stem1 ++ strS "|" ++ text1 ++ strS "]]",
            pyRstrip (strS "        - " ++ f1),
            strS "    - [[" ++ stem2 ++ strS "|" ++ text2 ++ strS "]]"]
           ++ [strS "        - " ++ f2]) from by simp]
    rw [pyRstrip_joined_last _ _ (by simp) (funLine_rstrip_ne f2)]
    simp [fsSet]
  · rw [show (List.intercalate (strS "\n")
        [strS "---", strS "type: " ++ ty, strS "---", strS "- " ++ m,
         strS "    - [[" ++ stem1 ++ strS "|" ++ text1 ++ strS "]]",
         pyRstrip (strS "        - " ++ f1),
         strS "    - [[" ++ stem2 ++ strS "|" ++ text2 ++ strS "]]",
         pyRstrip (strS "        - " ++ f2)] ++ strS "\n") =
        (List.intercalate (strS "\n")
        ([strS "---", strS "type: " ++ ty, strS "---", strS "- " ++ m,
         strS "    - [[" ++ stem1 ++ strS "|" ++ text1 ++ strS "]]",
         pyRstrip (strS "        - " ++ f1),
         strS "    - [[" ++ stem2 ++ strS "|" ++ text2 ++ strS "]]",
         pyRstrip (strS "        - " ++ f2)]) ++ strS "\n") from rfl]
    rw [pySplitlines_joined _ (by simp) (by
      intro l hl
      simp only [List.mem_cons, List.not_mem_nil, or_false] at hl
      rcases hl with rfl | rfl | rfl | rfl | rfl | rfl | rfl | rfl
      · decide
      · exact sepFree_append _ _ (by decide) hsT
      · decide
      · exact sepFree_append _ _ (by decide) hsM
      · exact hsepLink1
      · exact hsepFl1
      · exact hsepLink2
      · exact hsepFl2)]
    have sd0 : startsDash (strS "---") = false := by decide
    have sd1 : startsDash (strS "type: " ++ ty) = false := by
      rw [hl1shape]
      exact startsDash_false_of_head 't' _ (by decide)
    have sd3 : startsDash (strS "- " ++ m) = true := by
      rw [show strS "- " ++ m = '-' :: ' ' :: m from rfl]
      exact startsDash_dash_space m
    have sp3 : pyStrip (strS "- " ++ m) = strS "- " ++ m :=
      pyStrip_heading m hmF hmNe
    simp only [List.countP_cons, List.countP_nil, sd0, sd1, sd3, sp3,
      startsDash_link, startsDash_funLine, Bool.false_and, Bool.true_and]
    simp

/-- C2 counterexample: a meaning text containing a line boundary (`"a\nb"`,
reachable via the JSON escape `\n`) defeats exact-text dedup — the heading is
split across lines when the document is re-read, the second merge finds no
matching group and appends a duplicate group instead of a second backlink in
the existing one (two top-level headings, one backlink each). -/
theorem c2_counterexample :
    _append_piece_file (fun _ => true)
        (_append_piece_file (fun _ => true) []
          (mkPieceObj (strS "X") (strS "n") (strS "a\nb") (strS "f"))
          (strS "S0 - s1") (strS "s1")).1
        (mkPieceObj (strS "X") (strS "n") (strS "a\nb") (strS "f"))
        (strS "S1 - s2") (strS "s2")
      = ([(strS "X.md",
           strS "---\ntype: n\n---\n- a\nb\n    - [[S0 - s1|s1]]\n        - f\n\n- a\nb\n    - [[S1 - s2|s2]]\n        - f\n")],
         true) ∧
    (pySplitlines
        ((fsGet (_append_piece_file (fun _ => true)
            (_append_piece_file (fun _ => true) []
              (mkPieceObj (strS "X") (strS "n") (strS "a\nb") (strS "f"))
              (strS "S0 - s1") (strS "s1")).1
            (mkPieceObj (strS "X") (strS "n") (strS "a\nb") (strS "f"))
            (strS "S1 - s2") (strS "s2")).1 (strS "X.md")).getD [])).countP
        (fun l => startsDash l && decide (pyStrip l = strS "- a")) = 2 := by
  refine ⟨by decide, by decide⟩

/-- C2 witness: the amended dedup behaviour at concrete boundary-free fields. -/
theorem c2_meaning_group_dedup_witness :
    _append_piece_file (fun _ => true)
        (_append_piece_file (fun _ => true) []
          (mkPieceObj (strS "犬") (strS "noun") (strS "dog") (strS "subject"))
          (strS "S0 - A") (strS "A")).1
        (mkPieceObj (strS "犬") (strS "noun") (strS "dog") (strS "topic"))
        (strS "S1 - B") (strS "B")
      = ([(_sanitize_filename (strS "犬") ++ strS ".md",
           List.intercalate (strS "\n")
             [strS "---", strS "type: " ++ strS "noun", strS "---",
              strS "- " ++ strS "dog",
              strS "    - [[" ++ strS "S0 - A" ++ strS "|" ++ strS "A" ++ strS "]]",
              pyRstrip (strS "        - " ++ strS "subject"),
              strS "    - [[" ++ strS "S1 - B" ++ strS "|" ++ strS "B" ++ strS "]]",
              pyRstrip (strS "        - " ++ strS "topic")] ++ strS "\n")], true) ∧
    (pySplitlines (List.intercalate (strS "\n")
             [strS "---", strS "type: " ++ strS "noun", strS "---",
              strS "- " ++ strS "dog",
              strS "    - [[" ++ strS "S0 - A" ++ strS "|" ++ strS "A" ++ strS "]]",
              pyRstrip (strS "        - " ++ strS "subject"),
              strS "    - [[" ++ strS "S1 - B" ++ strS "|" ++ strS "B" ++ strS "]]",
              pyRstrip (strS "        - " ++ strS "topic")] ++ strS "\n")).countP
        (fun l => startsDash l && decide (pyStrip l = strS "- " ++ strS "dog")) = 1 :=
  c2_meaning_group_dedup (strS "犬") (strS "noun") (strS "dog") (strS "subject")
    (strS "topic") (strS "S0 - A") (strS "A") (strS "S1 - B") (strS "B")
    (by decide) (by decide) (by decide) (by decide) (by decide) (by decide)
    (by decide) (by decide) (by decide) (by decide) (by decide) (by decide)
    (by decide) (by decide) (by decide)

/-- A joined canonical body is right-strip fixed when its last line is. -/
theorem pyRstrip_intercalate_fixed (X : List Str) (b : Str)
    (hb : X.getLast? = some b) (hfix : pyRstrip b = b) (hne : b ≠ []) :
    pyRstrip (List.intercalate (strS "\n") X) = List.intercalate (strS "\n") X := by
  have hX : X.dropLast ++ [b] = X := List.dropLast_append_getLast? b hb
  by_cases hdl : X.dropLast = []
  · rw [← hX, hdl, List.nil_append, intercalate_single]
    exact hfix
  · conv_lhs => rw [← hX]
    rw [pyRstrip_joined_last _ _ hdl (by rw [hfix]; exact hne), hfix, hX]

/-- C9 (amended, for canonical piece documents: `\n`-joined boundary-free
lines, trailing newline, last line nonempty and free of trailing whitespace):
every merge into an existing piece document rewrites it to the same lines with
only the new backlink entry (or the new trailing meaning group) inserted at
one position; every byte outside the inserted lines is preserved. -/
theorem c9_insertion_frame
    (pieceOk : Str → Bool) (pieceDir : List (Str × Str)) (obj : Json)
    (stem text : Str) (L : List Str)
    (hname : ¬ fieldStr obj (strS "piece") = [])
    (hok : pieceOk (_sanitize_filename (fieldStr obj (strS "piece")) ++ strS ".md")
      = true)
    (hC : fsGet pieceDir
        (_sanitize_filename (fieldStr obj (strS "piece")) ++ strS ".md")
      = some (List.intercalate (strS "\n") L ++ strS "\n"))
    (hLne : L ≠ []) (hsepL : ∀ l ∈ L, sepFree l)
    (hlast : ∀ b, L.getLast? = some b → pyRstrip b = b ∧ b ≠ []) :
    ∃ j ins, j ≤ L.length ∧
      _append_piece_file pieceOk pieceDir obj stem text
        = (fsSet pieceDir
            (_sanitize_filename (fieldStr obj (strS "piece")) ++ strS ".md")
            (List.intercalate (strS "\n") (L.take j ++ ins ++ L.drop j)
              ++ strS "\n"), true) ∧
      (ins = backlinkLines stem text (fieldStr obj (strS "function")) ∨
       ins = [strS "    - [[" ++ stem ++ strS "|" ++ text ++ strS "]]",
              pyRstrip (strS "        - " ++ fieldStr obj (strS "function"))] ∨
       ins = [[], strS "- " ++ fieldStr obj (strS "meaning"),
              strS "    - [[" ++ stem ++ strS "|" ++ text ++ strS "]]",
              pyRstrip (strS "        - " ++ fieldStr obj (strS "function"))]) := by
  obtain ⟨bl, hbl⟩ : ∃ b, L.getLast? = some b := by
    cases L with
    | nil => exact absurd rfl hLne
    | cons a t => exact ⟨_, List.getLast?_eq_getLast _ (by simp)⟩
  obtain ⟨hbfix, hbne⟩ := hlast bl hbl
  have hobjO : isObj obj = true := isObj_of_fieldStr_ne obj (strS "piece") hname
  simp only [_append_piece_file]
  rw [if_pos hobjO, if_neg hname, if_neg (by simp [hok]), hC]
  simp only []
  rw [pySplitlines_joined L hLne hsepL]
  cases hfind : findMeaningIdx L (strS "- " ++ fieldStr obj (strS "meaning")) with
  | none =>
    refine ⟨L.length,
      [[], strS "- " ++ fieldStr obj (strS "meaning"),
       strS "    - [[" ++ stem ++ strS "|" ++ text ++ strS "]]",
       pyRstrip (strS "        - " ++ fieldStr obj (strS "function"))],
      Nat.le_refl _, ?_, Or.inr (Or.inr rfl)⟩
    simp only []
    rw [List.take_length, List.drop_length, List.append_nil]
    simp only [backlinkLines]
    rw [show ([([] : Str), strS "- " ++ fieldStr obj (strS "meaning")]
        ++ [strS "    - [[" ++ stem ++ strS "|" ++ text ++ strS "]]",
            strS "        - " ++ fieldStr obj (strS "function")])
        = ([([] : Str), strS "- " ++ fieldStr obj (strS "meaning"),
            strS "    - [[" ++ stem ++ strS "|" ++ text ++ strS "]]"]
           ++ [strS "        - " ++ fieldStr obj (strS "function")]) from rfl]
    rw [pyRstrip_joined_last _ _ (by simp)
      (funLine_rstrip_ne (fieldStr obj (strS "function")))]
    rw [show (L ++ ([([] : Str), strS "- " ++ fieldStr obj (strS "meaning"),
        strS "    - [[" ++ stem ++ strS "|" ++ text ++ strS "]]",
        pyRstrip (strS "        - " ++ fieldStr obj (strS "function"))]))
        = (L ++ ([([] : Str), strS "- " ++ fieldStr obj (strS "meaning"),
        strS "    - [[" ++ stem ++ strS "|" ++ text ++ strS "]]"]
          ++ [pyRstrip (strS "        - " ++ fieldStr obj (strS "function"))])) from rfl]
    rw [intercalate_append_of_ne _ _ _ hLne (by simp)]
    simp [List.append_assoc]
  | some i =>
    have hi : i < L.length := findMeaningIdx_bound _ L i hfind
    have hjb := nextTopFrom_bounds (L.drop (i + 1)) (i + 1)
    have hjle : nextTopFrom (L.drop (i + 1)) (i + 1) ≤ L.length := by
      have := hjb.2
      rw [List.length_drop] at this
      omega
    by_cases hj : nextTopFrom (L.drop (i + 1)) (i + 1) = L.length
    · refine ⟨L.length,
        [strS "    - [[" ++ stem ++ strS "|" ++ text ++ strS "]]",
         pyRstrip (strS "        - " ++ fieldStr obj (strS "function"))],
        Nat.le_refl _, ?_, Or.inr (Or.inl rfl)⟩
      simp only []
      rw [hj, List.take_length, List.drop_length, List.append_nil]
      simp only [backlinkLines]
      rw [show (L ++ [strS "    - [[" ++ stem ++ strS "|" ++ text ++ strS "]]",
            strS "        - " ++ fieldStr obj (strS "function")])
          = ((L ++ [strS "    - [[" ++ stem ++ strS "|" ++ text ++ strS "]]"])
             ++ [strS "        - " ++ fieldStr obj (strS "function")]) from by
        simp [List.append_assoc]]
      rw [pyRstrip_joined_last _ _ (by simp [hLne])
        (funLine_rstrip_ne (fieldStr obj (strS "function")))]
      simp [List.append_assoc]
    · have hjlt : nextTopFrom (L.drop (i + 1)) (i + 1) < L.length :=
        Nat.lt_of_le_of_ne hjle hj
      refine ⟨nextTopFrom (L.drop (i + 1)) (i + 1),
        backlinkLines stem text (fieldStr obj (strS "function")),
        hjle, ?_, Or.inl rfl⟩
      simp only []
      have hdropne : L.drop (nextTopFrom (L.drop (i + 1)) (i + 1)) ≠ [] := by
        intro hcon
        have := congrArg List.length hcon
        rw [List.length_drop] at this
        simp at this
        omega
      have hglast : (L.take (nextTopFrom (L.drop (i + 1)) (i + 1))
          ++ backlinkLines stem text (fieldStr obj (strS "function"))
          ++ L.drop (nextTopFrom (L.drop (i + 1)) (i + 1))).getLast? = some bl := by
        rw [List.getLast?_append_of_ne_nil _ hdropne]
        rw [← hbl]
        conv_rhs => rw [← List.take_append_drop
          (nextTopFrom (L.drop (i + 1)) (i + 1)) L]
        rw [List.getLast?_append_of_ne_nil _ hdropne]
      rw [pyRstrip_intercalate_fixed _ bl hglast hbfix hbne]

/-- C9 counterexample: a piece document the store itself wrote, whose meaning
field contained a carriage return (reachable through the JSON escape `\r`),
is not preserved byte-for-byte by a later merge: re-reading splits the `\r`,
and rewriting joins with `\n`, so a byte outside the inserted lines changes
(the file's one `\r` disappears while the inserted lines contain none). -/
theorem c9_counterexample :
    (_append_piece_file (fun _ => true) []
        (mkPieceObj (strS "X") (strS "n") (strS "a\rb") (strS "f"))
        (strS "S0 - s1") (strS "s1")).1
      = [(strS "X.md",
          strS "---\ntype: n\n---\n- a\rb\n    - [[S0 - s1|s1]]\n        - f\n")] ∧
    (_append_piece_file (fun _ => true)
        [(strS "X.md",
          strS "---\ntype: n\n---\n- a\rb\n    - [[S0 - s1|s1]]\n        - f\n")]
        (mkPieceObj (strS "X") (strS "n") (strS "a") (strS "f2"))
        (strS "S1 - s2") (strS "s2")).1
      = [(strS "X.md",
          strS "---\ntype: n\n---\n- a\nb\n    - [[S0 - s1|s1]]\n        - f\n    - [[S1 - s2|s2]]\n        - f2\n")] ∧
    (strS "---\ntype: n\n---\n- a\rb\n    - [[S0 - s1|s1]]\n        - f\n").count '\r'
      = 1 ∧
    (strS "---\ntype: n\n---\n- a\nb\n    - [[S0 - s1|s1]]\n        - f\n    - [[S1 - s2|s2]]\n        - f2\n").count '\r'
      = 0 := by
  refine ⟨by decide, by decide, by decide, by decide⟩

/-- C9 witness: the amended frame property on a concrete canonical document. -/
theorem c9_insertion_frame_witness :
    ∃ j ins, j ≤ ([strS "---", strS "type: n", strS "---", strS "- dog",
        strS "    - [[S0 - A|A]]", strS "        - subj"] : List Str).length ∧
      _append_piece_file (fun _ => true)
          [(strS "犬.md",
            List.intercalate (strS "\n")
              [strS "---", strS "type: n", strS "---", strS "- dog",
               strS "    - [[S0 - A|A]]", strS "        - subj"] ++ strS "\n")]
          (mkPieceObj (strS "犬") (strS "n") (strS "dog") (strS "top"))
          (strS "S1 - B") (strS "B")
        = (fsSet [(strS "犬.md",
            List.intercalate (strS "\n")
              [strS "---", strS "type: n", strS "---", strS "- dog",
               strS "    - [[S0 - A|A]]", strS "        - subj"] ++ strS "\n")]
            (_sanitize_filename (fieldStr
              (mkPieceObj (strS "犬") (strS "n") (strS "dog") (strS "top"))
              (strS "piece")) ++ strS ".md")
            (List.intercalate (strS "\n")
              (([strS "---", strS "type: n", strS "---", strS "- dog",
                 strS "    - [[S0 - A|A]]", strS "        - subj"] : List Str).take j
               ++ ins
               ++ ([strS "---", strS "type: n", strS "---", strS "- dog",
                    strS "    - [[S0 - A|A]]",
                    strS "        - subj"] : List Str).drop j)
              ++ strS "\n"), true) ∧
      (ins = backlinkLines (strS "S1 - B") (strS "B")
          (fieldStr (mkPieceObj (strS "犬") (strS "n") (strS "dog") (strS "top"))
            (strS "function")) ∨
       ins = [strS "    - [[" ++ strS "S1 - B" ++ strS "|" ++ strS "B" ++ strS "]]",
              pyRstrip (strS "        - " ++ fieldStr
                (mkPieceObj (strS "犬") (strS "n") (strS "dog") (strS "top"))
                (strS "function"))] ∨
       ins = [[], strS "- " ++ fieldStr
                (mkPieceObj (strS "犬") (strS "n") (strS "dog") (strS "top"))
                (strS "meaning"),
              strS "    - [[" ++ strS "S1 - B" ++ strS "|" ++ strS "B" ++ strS "]]",
              pyRstrip (strS "        - " ++ fieldStr
                (mkPieceObj (strS "犬") (strS "n") (strS "dog") (strS "top"))
                (strS "function"))]) :=
  c9_insertion_frame (fun _ => true)
    [(strS "犬.md",
      List.intercalate (strS "\n")
        [strS "---", strS "type: n", strS "---", strS "- dog",
         strS "    - [[S0 - A|A]]", strS "        - subj"] ++ strS "\n")]
    (mkPieceObj (strS "犬") (strS "n") (strS "dog") (strS "top"))
    (strS "S1 - B") (strS "B")
    [strS "---", strS "type: n", strS "---", strS "- dog",
     strS "    - [[S0 - A|A]]", strS "        - subj"]
    (by decide) (by decide) (by decide) (by decide)
    (by decide) (by decide)

/-! ## Scanner prefix lemmas

The key fact behind fence/strip tolerance: a successful scan consumes a
non-whitespace-delimited span, and re-running the scanner on that span with
any continuation that cannot extend a number munch gives the same value. -/

/-- Characters that can start a JSON value in `scan_once`. -/
def valueStart (c : Char) : Bool :=
  c = '"' ∨ c = '{' ∨ c = '[' ∨ c = 'n' ∨ c = 't' ∨ c = 'f' ∨
  c = 'N' ∨ c = 'I' ∨ c = '-' ∨ c.isDigit

/-- Characters the number lexer could absorb. -/
def numCont (c : Char) : Bool :=
  c.isDigit ∨ c = '.' ∨ c = 'e' ∨ c = 'E' ∨ c = '+' ∨ c = '-'

/-- A continuation that cannot extend the previous token. -/
def restOk (r : Str) : Prop := ∀ c, r.head? = some c → numCont c = false

theorem restOk_nil : restOk [] := by intro c h; exact absurd h (by simp)

theorem isPyWs_not_digit (c : Char) (h : isPyWs c = true) : c.isDigit = false := by
  simp only [isPyWs, decide_eq_true_eq] at h
  have hall : ∀ x ∈ ([' ', '\t', '\n', '\x0b', '\x0c', '\r',
      '\x1c', '\x1d', '\x1e', '\x1f', '\x85', '\xa0',
      '\u1680', '\u2000', '\u2001', '\u2002', '\u2003', '\u2004', '\u2005',
      '\u2006', '\u2007', '\u2008', '\u2009', '\u200a',
      '\u2028', '\u2029', '\u202f', '\u205f', '\u3000'] : List Char),
      x.isDigit = false := by decide
  exact hall c h

theorem isJws_imp_isPyWs (c : Char) (h : isJws c = true) : isPyWs c = true := by
  simp only [isJws, decide_eq_true_eq] at h
  have hall : ∀ x ∈ ([' ', '\t', '\n', '\r'] : List Char), isPyWs x = true := by
    decide
  exact hall c h

theorem valueStart_not_ws (c : Char) (h : valueStart c = true) :
    isPyWs c = false ∧ isJws c = false := by
  have hpy : isPyWs c = false := by
    cases hws : isPyWs c with
    | false => rfl
    | true =>
      exfalso
      have hnd := isPyWs_not_digit c hws
      simp only [valueStart, decide_eq_true_eq] at h
      rcases h with h | h | h | h | h | h | h | h | h | h
      all_goals first
        | (subst h; exact absurd hws (by decide))
        | (rw [h] at hnd; exact absurd hnd (by simp))
  refine ⟨hpy, ?_⟩
  cases hj : isJws c with
  | false => rfl
  | true => rw [isJws_imp_isPyWs c hj] at hpy; exact absurd hpy (by simp)

/-- Maximal munch over a concatenation: a block of satisfying characters
followed by a non-satisfying head splits exactly there. -/
theorem takeWhile_dropWhile_append (p : Char → Bool) (a b : Str)
    (ha : ∀ c ∈ a, p c = true) (hb : ∀ c, b.head? = some c → p c = false) :
    (a ++ b).takeWhile p = a ∧ (a ++ b).dropWhile p = b := by
  induction a with
  | nil =>
    simp only [List.nil_append]
    cases b with
    | nil => exact ⟨rfl, rfl⟩
    | cons c t =>
      have := hb c rfl
      rw [List.takeWhile_cons, List.dropWhile_cons, this]
      exact ⟨rfl, rfl⟩
  | cons x a' ih =>
    have hx := ha x (List.mem_cons_self x a')
    obtain ⟨h1, h2⟩ := ih (fun c hc => ha c (List.mem_cons_of_mem _ hc))
    rw [List.cons_append, List.takeWhile_cons, List.dropWhile_cons, hx]
    simp only [if_true]
    exact ⟨by rw [h1], by rw [h2]⟩

theorem skipJws_decomp (s : Str) :
    ∃ w, s = w ++ skipJws s ∧ ∀ c ∈ w, isJws c = true := by
  refine ⟨s.takeWhile isJws, ?_, fun c hc => List.mem_takeWhile_imp hc⟩
  rw [skipJws, List.takeWhile_append_dropWhile]

theorem skipJws_head (s : Str) :
    ∀ c, (skipJws s).head? = some c → isJws c = false := by
  intro c hc
  have hself : skipJws (skipJws s) = skipJws s := by
    rw [skipJws, skipJws, List.dropWhile_idempotent]
  match hm : skipJws s with
  | [] => rw [hm] at hc; exact absurd hc (by simp)
  | d :: t =>
    rw [hm] at hself hc
    have := List.dropWhile_eq_self_iff.mp hself (by simp)
    simp at hc
    subst hc
    simpa using this

theorem skipJws_append_all (w u : Str) (hw : ∀ c ∈ w, isJws c = true)
    (hu : ∀ c, u.head? = some c → isJws c = false) :
    skipJws (w ++ u) = u :=
  (takeWhile_dropWhile_append isJws w u hw hu).2

theorem skipJws_valueStart (u : Str) (c : Char) (t : Str)
    (hu : u = c :: t) (hc : valueStart c = true) : skipJws u = u := by
  subst hu
  rw [skipJws, List.dropWhile_cons, (valueStart_not_ws c hc).2]
  simp

/-- Unfolding equation of `parseStringBody` on a cons cell. -/
theorem parseStringBody_cons (c : Char) (r : Str) :
    parseStringBody (c :: r)
      = (if c = '"' then some ([], r)
         else if c = '\\' then
           match r with
           | [] => none
           | e :: r2 =>
             if e = 'u' then
               match r2 with
               | h1 :: h2 :: h3 :: h4 :: r3 =>
                 if isHexDig h1 ∧ isHexDig h2 ∧ isHexDig h3 ∧ isHexDig h4 then
                   (parseStringBody r3).map
                     (fun p => (c :: e :: h1 :: h2 :: h3 :: h4 :: p.1, p.2))
                 else none
               | _ => none
             else if e ∈ ['"', '\\', '/', 'b', 'f', 'n', 'r', 't'] then
               (parseStringBody r2).map (fun p => (c :: e :: p.1, p.2))
             else none
         else if c.toNat < 32 then none
         else (parseStringBody r).map (fun p => (c :: p.1, p.2))) := by
  rw [parseStringBody.eq_def]
  rfl

/-- A scanned string body is the raw span up to its closing quote, and
rescanning that span before any other continuation yields the same span. -/
theorem parseStringBody_spec_n : ∀ (n : Nat) (t : Str), t.length ≤ n →
    ∀ sp r, parseStringBody t = some (sp, r) →
      t = sp ++ '"' :: r ∧
      ∀ r₂, parseStringBody (sp ++ '"' :: r₂) = some (sp, r₂) := by
  intro n
  induction n with
  | zero =>
    intro t ht sp r h
    have ht0 : t = [] := by
      cases t with
      | nil => rfl
      | cons a b => simp at ht
    subst ht0
    exact absurd h (by simp [parseStringBody])
  | succ n ih =>
    intro t ht sp r h
    match t with
    | [] => exact absurd h (by simp [parseStringBody])
    | c :: rest =>
      by_cases hq : c = '"'
      · subst hq
        rw [parseStringBody_cons, if_pos rfl] at h
        obtain ⟨h1, h2⟩ : ([] : Str) = sp ∧ rest = r := by
          constructor <;> (cases h; rfl)
        subst h1; subst h2
        exact ⟨rfl, fun r₂ => by rw [List.nil_append, parseStringBody_cons, if_pos rfl]⟩
      · by_cases hb : c = '\\'
        · subst hb
          rw [parseStringBody_cons, if_neg (by decide), if_pos rfl] at h
          match rest with
          | [] => exact absurd h (by simp)
          | e :: r2 =>
            try simp only [] at h
            by_cases hu : e = 'u'
            · subst hu
              rw [if_pos rfl] at h
              match r2 with
              | [] => exact absurd h (by simp)
              | [h1] => exact absurd h (by simp)
              | [h1, h2] => exact absurd h (by simp)
              | [h1, h2, h3] => exact absurd h (by simp)
              | h1 :: h2 :: h3 :: h4 :: r3 =>
                try simp only [] at h
                by_cases hhex : isHexDig h1 ∧ isHexDig h2 ∧ isHexDig h3 ∧ isHexDig h4
                · rw [if_pos hhex] at h
                  match hrec : parseStringBody r3 with
                  | none => rw [hrec] at h; exact absurd h (by simp)
                  | some (sp', r') =>
                    rw [hrec] at h
                    have hp := Option.some.inj h
                    have hsp : '\\' :: 'u' :: h1 :: h2 :: h3 :: h4 :: sp' = sp :=
                      congrArg Prod.fst hp
                    have hr : r' = r := congrArg Prod.snd hp
                    subst hsp; subst hr
                    have hlen : r3.length ≤ n := by
                      simp only [List.length_cons] at ht
                      omega
                    obtain ⟨hdec, hrep⟩ := ih r3 hlen sp' r' hrec
                    constructor
                    · rw [hdec]; rfl
                    · intro r₂
                      rw [show ('\\' :: 'u' :: h1 :: h2 :: h3 :: h4 :: sp')
                          ++ '"' :: r₂
                          = '\\' :: 'u' :: h1 :: h2 :: h3 :: h4
                            :: (sp' ++ '"' :: r₂) from rfl]
                      rw [parseStringBody_cons, if_neg (by decide), if_pos rfl]
                      try simp only []
                      try rw [if_pos rfl]
                      try simp only []
                      rw [if_pos hhex, hrep r₂]
                      rfl
                · rw [if_neg hhex] at h
                  exact absurd h (by simp)
            · rw [if_neg hu] at h
              by_cases hesc : e ∈ (['"', '\\', '/', 'b', 'f', 'n', 'r', 't'] : List Char)
              · rw [if_pos (by simpa using hesc)] at h
                match hrec : parseStringBody r2 with
                | none => rw [hrec] at h; exact absurd h (by simp)
                | some (sp', r') =>
                  rw [hrec] at h
                  have hp := Option.some.inj h
                  have hsp : '\\' :: e :: sp' = sp := congrArg Prod.fst hp
                  have hr : r' = r := congrArg Prod.snd hp
                  subst hsp; subst hr
                  have hlen : r2.length ≤ n := by
                    simp only [List.length_cons] at ht
                    omega
                  obtain ⟨hdec, hrep⟩ := ih r2 hlen sp' r' hrec
                  constructor
                  · rw [hdec]; rfl
                  · intro r₂
                    rw [show ('\\' :: e :: sp') ++ '"' :: r₂
                        = '\\' :: e :: (sp' ++ '"' :: r₂) from rfl]
                    rw [parseStringBody_cons, if_neg (by decide), if_pos rfl]
                    try simp only []
                    rw [if_neg hu, if_pos (by simpa using hesc), hrep r₂]
                    rfl
              · rw [if_neg (by simpa using hesc)] at h
                exact absurd h (by simp)
        · rw [parseStringBody_cons, if_neg hq, if_neg hb] at h
          by_cases hctl : c.toNat < 32
          · rw [if_pos hctl] at h
            exact absurd h (by simp)
          · rw [if_neg hctl] at h
            match hrec : parseStringBody rest with
            | none => rw [hrec] at h; exact absurd h (by simp)
            | some (sp', r') =>
              rw [hrec] at h
              have hp := Option.some.inj h
              have hsp : c :: sp' = sp := congrArg Prod.fst hp
              have hr : r' = r := congrArg Prod.snd hp
              subst hsp; subst hr
              have hlen : rest.length ≤ n := by
                simp only [List.length_cons] at ht
                omega
              obtain ⟨hdec, hrep⟩ := ih rest hlen sp' r' hrec
              constructor
              · rw [hdec]; rfl
              · intro r₂
                rw [show (c :: sp') ++ '"' :: r₂ = c :: (sp' ++ '"' :: r₂) from rfl]
                rw [parseStringBody_cons, if_neg hq, if_neg hb, if_neg hctl, hrep r₂]
                rfl

theorem parseStringBody_spec (t sp r : Str) (h : parseStringBody t = some (sp, r)) :
    t = sp ++ '"' :: r ∧
    ∀ r₂, parseStringBody (sp ++ '"' :: r₂) = some (sp, r₂) :=
  parseStringBody_spec_n t.length t (Nat.le_refl _) sp r h

/-! ## Number lexer specifications -/

/-- The head of a `dropWhile` residue fails the predicate. -/
theorem dropWhile_head_false (p : Char → Bool) (l : Str) :
    ∀ c, (l.dropWhile p).head? = some c → p c = false := by
  induction l with
  | nil => intro c hc; exact absurd hc (by simp)
  | cons a t ih =>
    intro c hc
    rw [List.dropWhile_cons] at hc
    by_cases hp : p a
    · rw [if_pos hp] at hc; exact ih c hc
    · rw [if_neg hp] at hc
      simp only [List.head?_cons, Option.some_inj] at hc
      subst hc
      simpa using hp

/-- A last element is a member. -/
theorem mem_of_getLast_eq (l : Str) (c : Char) (h : l.getLast? = some c) :
    c ∈ l := by
  induction l with
  | nil => exact absurd h (by simp)
  | cons a t ih =>
    cases t with
    | nil =>
      simp only [List.getLast?_singleton, Option.some_inj] at h
      subst h; exact List.mem_cons_self a []
    | cons b t' =>
      rw [List.getLast?_cons_cons] at h
      exact List.mem_cons_of_mem a (ih h)

theorem restOk_head_not_digit (x : Str) (hx : restOk x) :
    ∀ c, x.head? = some c → c.isDigit = false := by
  intro c hc
  have h := hx c hc
  cases hd : c.isDigit with
  | false => rfl
  | true => rw [show numCont c = true by simp [numCont, hd]] at h; exact absurd h (by simp)

theorem parseIntPart_spec (s ip r : Str) (h : parseIntPart s = some (ip, r)) :
    s = ip ++ r ∧ ip ≠ [] ∧
    (∀ c, ip.head? = some c → c.isDigit = true) ∧
    (∀ c, ip.getLast? = some c → c.isDigit = true) ∧
    (∀ x, (∀ c, x.head? = some c → c.isDigit = false) →
      parseIntPart (ip ++ x) = some (ip, x)) := by
  match s with
  | [] => exact absurd h (by simp [parseIntPart])
  | c :: t =>
    simp only [parseIntPart] at h
    by_cases h0 : c = '0'
    · rw [if_pos h0] at h
      have hp := Option.some.inj h
      have hip : (['0'] : Str) = ip := congrArg Prod.fst hp
      have hr : t = r := congrArg Prod.snd hp
      subst hip; subst hr; subst h0
      refine ⟨rfl, by simp, ?_, ?_, ?_⟩
      · intro c hc; simp only [List.head?_cons, Option.some_inj] at hc; subst hc; decide
      · intro c hc; simp only [List.getLast?_singleton, Option.some_inj] at hc
        subst hc; decide
      · intro x _
        show parseIntPart ('0' :: x) = _
        simp only [parseIntPart]
        rw [if_true]
    · rw [if_neg h0] at h
      by_cases hd : c.isDigit
      · rw [if_pos hd] at h
        have hp := Option.some.inj h
        have hip : c :: t.takeWhile Char.isDigit = ip := congrArg Prod.fst hp
        have hr : t.dropWhile Char.isDigit = r := congrArg Prod.snd hp
        subst hip; subst hr
        refine ⟨by rw [List.cons_append, List.takeWhile_append_dropWhile], by simp,
          ?_, ?_, ?_⟩
        · intro e he; simp only [List.head?_cons, Option.some_inj] at he
          subst he; exact hd
        · intro e he
          cases hds : t.takeWhile Char.isDigit with
          | nil =>
            rw [hds] at he
            simp only [List.getLast?_singleton, Option.some_inj] at he
            subst he; exact hd
          | cons a u =>
            rw [hds, List.getLast?_cons_cons] at he
            have hm : e ∈ a :: u := mem_of_getLast_eq _ _ he
            rw [← hds] at hm
            exact List.mem_takeWhile_imp hm
        · intro x hx
          obtain ⟨hT, hD⟩ := takeWhile_dropWhile_append Char.isDigit
            (t.takeWhile Char.isDigit) x
            (fun e he => List.mem_takeWhile_imp he) hx
          show parseIntPart (c :: (t.takeWhile Char.isDigit ++ x)) = _
          simp only [parseIntPart]
          rw [if_neg h0, if_pos hd, hT, hD]
      · rw [if_neg hd] at h
        exact absurd h (by simp)

theorem parseFrac_skip (s : Str) (h : ∀ c, s.head? = some c → c ≠ '.') :
    parseFrac s = ([], s) := by
  match s with
  | [] => rfl
  | c :: t =>
    simp only [parseFrac]
    rw [if_neg (h c rfl)]

theorem parseFrac_fst_nil (s r : Str) (h : parseFrac s = ([], r)) : r = s := by
  match s with
  | [] => exact (congrArg Prod.snd h).symm
  | c :: t =>
    simp only [parseFrac] at h
    by_cases hdot : c = '.'
    · rw [if_pos hdot] at h
      by_cases hds : t.takeWhile Char.isDigit = []
      · rw [if_pos hds] at h
        exact (congrArg Prod.snd h).symm
      · rw [if_neg hds] at h
        exact absurd (congrArg Prod.fst h).symm (by simp)
    · rw [if_neg hdot] at h
      exact (congrArg Prod.snd h).symm

theorem parseFrac_spec (s fp r : Str) (h : parseFrac s = (fp, r)) (hne : fp ≠ []) :
    s = fp ++ r ∧
    (∀ c, fp.head? = some c → c = '.') ∧
    (∀ c, fp.getLast? = some c → c.isDigit = true) ∧
    (∀ x, (∀ c, x.head? = some c → c.isDigit = false) →
      parseFrac (fp ++ x) = (fp, x)) := by
  match s with
  | [] => exact absurd (congrArg Prod.fst h).symm hne
  | c :: t =>
    simp only [parseFrac] at h
    by_cases hdot : c = '.'
    · rw [if_pos hdot] at h
      by_cases hds : t.takeWhile Char.isDigit = []
      · rw [if_pos hds] at h
        exact absurd (congrArg Prod.fst h).symm hne
      · rw [if_neg hds] at h
        have hp := Option.some.inj (congrArg some h)
        have hfp : '.' :: t.takeWhile Char.isDigit = fp := congrArg Prod.fst h
        have hr : t.dropWhile Char.isDigit = r := congrArg Prod.snd h
        subst hfp; subst hr; subst hdot
        refine ⟨by rw [List.cons_append, List.takeWhile_append_dropWhile], ?_, ?_, ?_⟩
        · intro e he; simp only [List.head?_cons, Option.some_inj] at he
          exact he.symm
        · intro e he
          cases hds2 : t.takeWhile Char.isDigit with
          | nil => exact absurd hds2 hds
          | cons a u =>
            rw [hds2, List.getLast?_cons_cons] at he
            have hm : e ∈ a :: u := mem_of_getLast_eq _ _ he
            rw [← hds2] at hm
            exact List.mem_takeWhile_imp hm
        · intro x hx
          obtain ⟨hT, hD⟩ := takeWhile_dropWhile_append Char.isDigit
            (t.takeWhile Char.isDigit) x
            (fun e he => List.mem_takeWhile_imp he) hx
          show parseFrac ('.' :: (t.takeWhile Char.isDigit ++ x)) = _
          simp only [parseFrac]
          rw [if_true, hT, hD, if_neg hds]
    · rw [if_neg hdot] at h
      exact absurd (congrArg Prod.fst h).symm hne

theorem parseExp_skip (s : Str) (h : ∀ c, s.head? = some c → c ≠ 'e' ∧ c ≠ 'E') :
    parseExp s = ([], s) := by
  match s with
  | [] => rfl
  | e :: t =>
    simp only [parseExp]
    rw [if_neg ?hne]
    case hne =>
      rintro (h1 | h1)
      · exact (h e rfl).1 h1
      · exact (h e rfl).2 h1

theorem parseExp_fst_nil (s r : Str) (h : parseExp s = ([], r)) : r = s := by
  match s with
  | [] => exact (congrArg Prod.snd h).symm
  | e :: t =>
    simp only [parseExp] at h
    by_cases he : e = 'e' ∨ e = 'E'
    · rw [if_pos he] at h
      cases t with
      | nil => exact (congrArg Prod.snd h).symm
      | cons c t2 =>
        simp only [] at h
        by_cases hsign : c = '+' ∨ c = '-'
        · rw [if_pos hsign] at h
          by_cases hds : t2.takeWhile Char.isDigit = []
          · rw [if_pos hds] at h
            exact (congrArg Prod.snd h).symm
          · rw [if_neg hds] at h
            exact absurd (congrArg Prod.fst h) (by simp)
        · rw [if_neg hsign] at h
          by_cases hds : (c :: t2).takeWhile Char.isDigit = []
          · rw [if_pos hds] at h
            exact (congrArg Prod.snd h).symm
          · rw [if_neg hds] at h
            exact absurd (congrArg Prod.fst h) (by simp)
    · rw [if_neg he] at h
      exact (congrArg Prod.snd h).symm

theorem parseExp_spec (s ep r : Str) (h : parseExp s = (ep, r)) (hne : ep ≠ []) :
    s = ep ++ r ∧
    (∀ c, ep.head? = some c → c = 'e' ∨ c = 'E') ∧
    (∀ c, ep.getLast? = some c → c.isDigit = true) ∧
    (∀ x, (∀ c, x.head? = some c → c.isDigit = false) →
      parseExp (ep ++ x) = (ep, x)) := by
  match s with
  | [] => exact absurd (congrArg Prod.fst h).symm hne
  | e :: t =>
    simp only [parseExp] at h
    by_cases he : e = 'e' ∨ e = 'E'
    · rw [if_pos he] at h
      cases t with
      | nil => exact absurd (congrArg Prod.fst h).symm hne
      | cons c t2 =>
        simp only [] at h
        by_cases hsign : c = '+' ∨ c = '-'
        · rw [if_pos hsign] at h
          by_cases hds : t2.takeWhile Char.isDigit = []
          · rw [if_pos hds] at h
            exact absurd (congrArg Prod.fst h).symm hne
          · rw [if_neg hds] at h
            have hep : e :: c :: t2.takeWhile Char.isDigit = ep := congrArg Prod.fst h
            have hr : t2.dropWhile Char.isDigit = r := congrArg Prod.snd h
            subst hep; subst hr
            refine ⟨?_, ?_, ?_, ?_⟩
            · show e :: c :: t2 = _
              rw [List.cons_append, List.cons_append, List.takeWhile_append_dropWhile]
            · intro d hd
              simp only [List.head?_cons, Option.some_inj] at hd
              subst hd; exact he
            · intro d hd
              rw [List.getLast?_cons_cons] at hd
              cases hds2 : t2.takeWhile Char.isDigit with
              | nil => exact absurd hds2 hds
              | cons a u =>
                rw [hds2, List.getLast?_cons_cons] at hd
                have hm : d ∈ a :: u := mem_of_getLast_eq _ _ hd
                rw [← hds2] at hm
                exact List.mem_takeWhile_imp hm
            · intro x hx
              obtain ⟨hT, hD⟩ := takeWhile_dropWhile_append Char.isDigit
                (t2.takeWhile Char.isDigit) x
                (fun z hz => List.mem_takeWhile_imp hz) hx
              show parseExp (e :: c :: (t2.takeWhile Char.isDigit ++ x)) = _
              simp only [parseExp]
              rw [if_pos he, if_pos hsign, hT, hD, if_neg hds]
        · rw [if_neg hsign] at h
          by_cases hds : (c :: t2).takeWhile Char.isDigit = []
          · rw [if_pos hds] at h
            exact absurd (congrArg Prod.fst h).symm hne
          · rw [if_neg hds] at h
            have hcd : c.isDigit = true := by
              by_contra hcd
              rw [List.takeWhile_cons, if_neg (by simpa using hcd)] at hds
              exact hds rfl
            have hds_eq : (c :: t2).takeWhile Char.isDigit
                = c :: t2.takeWhile Char.isDigit := by
              rw [List.takeWhile_cons, if_pos hcd]
            have hdr_eq : (c :: t2).dropWhile Char.isDigit
                = t2.dropWhile Char.isDigit := by
              rw [List.dropWhile_cons, if_pos hcd]
            rw [hds_eq, hdr_eq] at h
            have hep : e :: c :: t2.takeWhile Char.isDigit = ep := congrArg Prod.fst h
            have hr : t2.dropWhile Char.isDigit = r := congrArg Prod.snd h
            subst hep; subst hr
            refine ⟨?_, ?_, ?_, ?_⟩
            · show e :: c :: t2 = _
              rw [List.cons_append, List.cons_append, List.takeWhile_append_dropWhile]
            · intro d hd
              simp only [List.head?_cons, Option.some_inj] at hd
              subst hd; exact he
            · intro d hd
              rw [List.getLast?_cons_cons] at hd
              cases hds2 : t2.takeWhile Char.isDigit with
              | nil =>
                rw [hds2] at hd
                simp only [List.getLast?_singleton, Option.some_inj] at hd
                subst hd; exact hcd
              | cons a u =>
                rw [hds2, List.getLast?_cons_cons] at hd
                have hm : d ∈ a :: u := mem_of_getLast_eq _ _ hd
                rw [← hds2] at hm
                exact List.mem_takeWhile_imp hm
            · intro x hx
              obtain ⟨hT, hD⟩ := takeWhile_dropWhile_append Char.isDigit
                (t2.takeWhile Char.isDigit) x
                (fun z hz => List.mem_takeWhile_imp hz) hx
              have h1 : (c :: (t2.takeWhile Char.isDigit ++ x)).takeWhile Char.isDigit
                  = c :: t2.takeWhile Char.isDigit := by
                rw [List.takeWhile_cons, if_pos hcd, hT]
              have h2 : (c :: (t2.takeWhile Char.isDigit ++ x)).dropWhile Char.isDigit
                  = x := by
                rw [List.dropWhile_cons, if_pos hcd, hD]
              show parseExp (e :: c :: (t2.takeWhile Char.isDigit ++ x)) = _
              simp only [parseExp]
              rw [if_pos he, if_neg hsign, h1, h2, if_neg (by simp)]
    · rw [if_neg he] at h
      exact absurd (congrArg Prod.fst h).symm hne

theorem parseNumTail_spec (m s1 lex r : Str) (h : parseNumTail m s1 = some (lex, r)) :
    ∃ ip fr ex, lex = m ++ ip ++ fr ++ ex ∧ s1 = ip ++ (fr ++ (ex ++ r)) ∧ ip ≠ [] ∧
    (∀ c, ip.head? = some c → c.isDigit = true) ∧
    (∀ c, (ip ++ fr ++ ex).getLast? = some c → c.isDigit = true) ∧
    (∀ x, restOk x → parseNumTail m (ip ++ (fr ++ (ex ++ x))) = some (lex, x)) := by
  simp only [parseNumTail] at h
  cases hip : parseIntPart s1 with
  | none => rw [hip] at h; exact absurd h (by simp)
  | some p =>
    obtain ⟨ip1, s2⟩ := p
    rw [hip] at h
    simp only [] at h
    rcases hfp : parseFrac s2 with ⟨fr1, s3⟩
    rw [hfp] at h
    simp only [] at h
    rcases hep : parseExp s3 with ⟨ex1, s4⟩
    rw [hep] at h
    simp only [] at h
    have hp := Option.some.inj h
    have hlex : m ++ ip1 ++ fr1 ++ ex1 = lex := congrArg Prod.fst hp
    have hrr : s4 = r := congrArg Prod.snd hp
    subst hlex; subst hrr
    obtain ⟨hips, hipne, hiph, hipl, hipr⟩ := parseIntPart_spec s1 ip1 s2 hip
    have hs23 : s2 = fr1 ++ s3 := by
      by_cases hfrn : fr1 = []
      · subst hfrn
        simpa using (parseFrac_fst_nil s2 s3 hfp).symm
      · exact (parseFrac_spec s2 fr1 s3 hfp hfrn).1
    have hs34 : s3 = ex1 ++ s4 := by
      by_cases hexn : ex1 = []
      · subst hexn
        simpa using (parseExp_fst_nil s3 s4 hep).symm
      · exact (parseExp_spec s3 ex1 s4 hep hexn).1
    refine ⟨ip1, fr1, ex1, rfl, ?_, hipne, hiph, ?_, ?_⟩
    · rw [hips, hs23, hs34]
    · intro d hd
      by_cases hexn : ex1 = []
      · subst hexn
        rw [List.append_nil] at hd
        by_cases hfrn : fr1 = []
        · subst hfrn
          rw [List.append_nil] at hd
          exact hipl d hd
        · rw [List.getLast?_append_of_ne_nil _ hfrn] at hd
          exact (parseFrac_spec s2 fr1 s3 hfp hfrn).2.2.1 d hd
      · rw [List.getLast?_append_of_ne_nil _ hexn] at hd
        exact (parseExp_spec s3 ex1 s4 hep hexn).2.2.1 d hd
    · intro x hx
      have hxd : ∀ c, x.head? = some c → c.isDigit = false :=
        restOk_head_not_digit x hx
      have hexhead : ∀ c, (ex1 ++ x).head? = some c → c.isDigit = false := by
        intro c hc
        by_cases hexn : ex1 = []
        · subst hexn
          rw [List.nil_append] at hc
          exact hxd c hc
        · rw [List.head?_append_of_ne_nil _ hexn] at hc
          rcases (parseExp_spec s3 ex1 s4 hep hexn).2.1 c hc with hcc | hcc <;>
            (subst hcc; decide)
      have hophead : ∀ c, (fr1 ++ (ex1 ++ x)).head? = some c → c.isDigit = false := by
        intro c hc
        by_cases hfrn : fr1 = []
        · subst hfrn
          rw [List.nil_append] at hc
          exact hexhead c hc
        · rw [List.head?_append_of_ne_nil _ hfrn] at hc
          have := (parseFrac_spec s2 fr1 s3 hfp hfrn).2.1 c hc
          subst this; decide
      have hfrx : parseFrac (fr1 ++ (ex1 ++ x)) = (fr1, ex1 ++ x) := by
        by_cases hfrn : fr1 = []
        · subst hfrn
          rw [List.nil_append]
          apply parseFrac_skip
          intro c hc
          by_cases hexn : ex1 = []
          · subst hexn
            rw [List.nil_append] at hc
            intro hdot
            subst hdot
            exact absurd (hx '.' hc) (by decide)
          · rw [List.head?_append_of_ne_nil _ hexn] at hc
            rcases (parseExp_spec s3 ex1 s4 hep hexn).2.1 c hc with hcc | hcc <;>
              (subst hcc; decide)
        · exact (parseFrac_spec s2 fr1 s3 hfp hfrn).2.2.2 (ex1 ++ x) hexhead
      have hexx : parseExp (ex1 ++ x) = (ex1, x) := by
        by_cases hexn : ex1 = []
        · subst hexn
          rw [List.nil_append]
          apply parseExp_skip
          intro c hc
          constructor
          · intro hcc; subst hcc; exact absurd (hx 'e' hc) (by decide)
          · intro hcc; subst hcc; exact absurd (hx 'E' hc) (by decide)
        · exact (parseExp_spec s3 ex1 s4 hep hexn).2.2.2 x hxd
      simp only [parseNumTail]
      rw [hipr (fr1 ++ (ex1 ++ x)) hophead]
      simp only []
      rw [hfrx]
      simp only []
      rw [hexx]

theorem parseNumberBody_spec (s lex r : Str) (h : parseNumberBody s = some (lex, r)) :
    s = lex ++ r ∧ lex ≠ [] ∧
    (∀ c, lex.head? = some c → (c = '-' ∨ c.isDigit = true)) ∧
    (∀ c, lex.getLast? = some c → c.isDigit = true) ∧
    (∀ x, restOk x → parseNumberBody (lex ++ x) = some (lex, x)) := by
  match s with
  | [] =>
    rw [show parseNumberBody [] = none from rfl] at h
    exact absurd h (by simp)
  | c :: t =>
    simp only [parseNumberBody] at h
    by_cases hm : c = '-'
    · rw [if_pos hm] at h
      obtain ⟨ip, fr, ex, hlex, ht, hipne, hiph, hlast, hrep⟩ :=
        parseNumTail_spec ['-'] t lex r h
      subst hlex
      have hlform : (['-'] : Str) ++ ip ++ fr ++ ex = '-' :: (ip ++ fr ++ ex) := by
        simp
      refine ⟨?_, by simp, ?_, ?_, ?_⟩
      · subst hm
        rw [ht, hlform]
        simp [List.append_assoc]
      · intro d hd
        rw [hlform] at hd
        simp only [List.head?_cons, Option.some_inj] at hd
        subst hd; exact Or.inl rfl
      · intro d hd
        rw [hlform] at hd
        cases hm2 : ip ++ fr ++ ex with
        | nil =>
          exfalso
          rcases List.append_eq_nil.mp (List.append_eq_nil.mp hm2).1 with ⟨h1, _⟩
          exact hipne h1
        | cons a u =>
          rw [hm2, List.getLast?_cons_cons] at hd
          apply hlast d
          rw [hm2]
          exact hd
      · intro x hx
        have hrx := hrep x hx
        have harg : (['-'] : Str) ++ ip ++ fr ++ ex ++ x
            = '-' :: (ip ++ (fr ++ (ex ++ x))) := by
          simp [List.append_assoc]
        rw [harg]
        simp only [parseNumberBody, if_true]
        rw [show ip ++ (fr ++ (ex ++ x)) = ip ++ (fr ++ (ex ++ x)) from rfl]
        exact hrx
    · rw [if_neg hm] at h
      obtain ⟨ip, fr, ex, hlex, ht, hipne, hiph, hlast, hrep⟩ :=
        parseNumTail_spec [] (c :: t) lex r h
      subst hlex
      rw [List.nil_append] at *
      refine ⟨?_, ?_, ?_, ?_, ?_⟩
      · rw [ht]; simp [List.append_assoc]
      · intro hnil
        rcases List.append_eq_nil.mp hnil with ⟨h1, _⟩
        rcases List.append_eq_nil.mp h1 with ⟨h2, _⟩
        exact hipne h2
      · intro d hd
        rw [show ip ++ fr ++ ex = ip ++ (fr ++ ex) by simp [List.append_assoc],
          List.head?_append_of_ne_nil _ hipne] at hd
        exact Or.inr (hiph d hd)
      · exact hlast
      · intro x hx
        have hrx := hrep x hx
        have harg : ip ++ fr ++ ex ++ x = ip ++ (fr ++ (ex ++ x)) := by
          simp [List.append_assoc]
        rw [harg]
        obtain ⟨c0, t0, hct⟩ := List.exists_cons_of_ne_nil hipne
        have hc0 : c0.isDigit = true := hiph c0 (by rw [hct]; rfl)
        have hct2 : ip ++ (fr ++ (ex ++ x)) = c0 :: (t0 ++ (fr ++ (ex ++ x))) := by
          rw [hct]; simp
        rw [hct2]
        simp only [parseNumberBody]
        have hc0m : c0 ≠ '-' := by
          intro hcc; rw [hcc] at hc0; exact absurd hc0 (by decide)
        rw [if_neg hc0m, ← hct2, hrx]

/-! ## Scanner span invariant

A successful scan at any fuel consumes a nonempty span that starts at a
value-start character, ends in a non-whitespace character, and — before any
continuation that cannot extend a number munch — rescans to the same value
with the continuation untouched, at any fuel exceeding the span length. -/

theorem head_some_decomp (l : Str) (c : Char) (h : l.head? = some c) :
    l = c :: l.tail := by
  cases l with
  | nil => exact absurd h (by simp)
  | cons a t =>
    simp only [List.head?_cons, Option.some_inj] at h
    subst h; rfl

theorem jws_not_numCont (c : Char) (h : isJws c = true) : numCont c = false := by
  simp only [isJws, decide_eq_true_eq] at h
  have hall : ∀ x ∈ ([' ', '\t', '\n', '\r'] : List Char), numCont x = false := by
    decide
  exact hall c h

/-- Whitespace followed by a delimiter cannot extend a number munch. -/
theorem restOk_jws_append (w : Str) (c : Char) (x : Str)
    (hw : ∀ e ∈ w, isJws e = true) (hc : numCont c = false) :
    restOk (w ++ c :: x) := by
  intro d hd
  cases w with
  | nil =>
    simp only [List.nil_append, List.head?_cons, Option.some_inj] at hd
    subst hd; exact hc
  | cons a u =>
    rw [List.head?_append_of_ne_nil _ (by simp)] at hd
    simp only [List.head?_cons, Option.some_inj] at hd
    subst hd
    exact jws_not_numCont a (hw a (List.mem_cons_self _ _))

theorem getLast?_chain_cons (a : Char) (l : Str) (h : l ≠ []) :
    (a :: l).getLast? = l.getLast? := by
  cases l with
  | nil => exact absurd rfl h
  | cons b t => rw [List.getLast?_cons_cons]

/-- The span invariant for one of the fuelled scanners. -/
def ScanInv {α : Type} (parse : Nat → Str → Option (α × Str)) (f : Nat) : Prop :=
  ∀ s a r, parse f s = some (a, r) →
    ∃ cons, s = cons ++ r ∧ cons ≠ [] ∧
      (∀ c, cons.head? = some c → valueStart c = true) ∧
      (∀ c, cons.getLast? = some c → isPyWs c = false) ∧
      ∀ g r₂, cons.length + 1 ≤ g → restOk r₂ → parse g (cons ++ r₂) = some (a, r₂)

/-! Dispatch of `valueStep` at each literal head character. -/

theorem valueStep_str (pe : Str → Option (List Json × Str))
    (pm : Str → Option (List (Str × Json) × Str)) (t : Str) :
    valueStep pe pm ('"' :: t)
      = (parseStringBody t).map (fun p => (Json.str p.1, p.2)) := rfl

theorem valueStep_obj (pe : Str → Option (List Json × Str))
    (pm : Str → Option (List (Str × Json) × Str)) (t : Str) :
    valueStep pe pm ('{' :: t)
      = (if (skipJws t).head? = some '}' then some (Json.obj [], (skipJws t).tail)
         else (pm (skipJws t)).map (fun p => (Json.obj p.1, p.2))) := rfl

theorem valueStep_arr (pe : Str → Option (List Json × Str))
    (pm : Str → Option (List (Str × Json) × Str)) (t : Str) :
    valueStep pe pm ('[' :: t)
      = (if (skipJws t).head? = some ']' then some (Json.arr [], (skipJws t).tail)
         else (pe (skipJws t)).map (fun p => (Json.arr p.1, p.2))) := rfl

theorem valueStep_null (pe : Str → Option (List Json × Str))
    (pm : Str → Option (List (Str × Json) × Str)) (t : Str) :
    valueStep pe pm ('n' :: t)
      = (if t.take 3 = strS "ull" then some (Json.null, t.drop 3) else none) := rfl

theorem valueStep_true (pe : Str → Option (List Json × Str))
    (pm : Str → Option (List (Str × Json) × Str)) (t : Str) :
    valueStep pe pm ('t' :: t)
      = (if t.take 3 = strS "rue" then some (Json.bool true, t.drop 3)
         else none) := rfl

theorem valueStep_false (pe : Str → Option (List Json × Str))
    (pm : Str → Option (List (Str × Json) × Str)) (t : Str) :
    valueStep pe pm ('f' :: t)
      = (if t.take 4 = strS "alse" then some (Json.bool false, t.drop 4)
         else none) := rfl

theorem valueStep_NaN (pe : Str → Option (List Json × Str))
    (pm : Str → Option (List (Str × Json) × Str)) (t : Str) :
    valueStep pe pm ('N' :: t)
      = (if t.take 2 = strS "aN" then some (Json.num (strS "NaN"), t.drop 2)
         else none) := rfl

theorem valueStep_Inf (pe : Str → Option (List Json × Str))
    (pm : Str → Option (List (Str × Json) × Str)) (t : Str) :
    valueStep pe pm ('I' :: t)
      = (if t.take 7 = strS "nfinity" then some (Json.num (strS "Infinity"), t.drop 7)
         else none) := rfl

theorem valueStep_num (pe : Str → Option (List Json × Str))
    (pm : Str → Option (List (Str × Json) × Str)) (c : Char) (t : Str)
    (hc : c = '-' ∨ c.isDigit = true) :
    valueStep pe pm (c :: t)
      = (match parseNumberBody (c :: t) with
         | some p => some (Json.num p.1, p.2)
         | none =>
           if c = '-' ∧ t.take 8 = strS "Infinity" then
             some (Json.num (strS "-Infinity"), t.drop 8)
           else none) := by
  obtain ⟨n1, n2, n3, n4, n5, n6⟩ :
      c ≠ '"' ∧ c ≠ '{' ∧ c ≠ '[' ∧ c ≠ 'n' ∧ c ≠ 't' ∧ c ≠ 'f' := by
    rcases hc with hcc | hcc
    · subst hcc
      exact ⟨by decide, by decide, by decide, by decide, by decide, by decide⟩
    · refine ⟨?_, ?_, ?_, ?_, ?_, ?_⟩ <;>
        (intro he; rw [he] at hcc; exact absurd hcc (by decide))
  simp only [valueStep]
  rw [if_neg n1, if_neg n2, if_neg n3, if_neg n4, if_neg n5, if_neg n6, if_pos hc]

theorem valueStep_other (pe : Str → Option (List Json × Str))
    (pm : Str → Option (List (Str × Json) × Str)) (c : Char) (t : Str)
    (n1 : c ≠ '"') (n2 : c ≠ '{') (n3 : c ≠ '[') (n4 : c ≠ 'n') (n5 : c ≠ 't')
    (n6 : c ≠ 'f') (n7 : ¬ (c = '-' ∨ c.isDigit = true)) (n8 : c ≠ 'N')
    (n9 : c ≠ 'I') :
    valueStep pe pm (c :: t) = none := by
  simp only [valueStep]
  rw [if_neg n1, if_neg n2, if_neg n3, if_neg n4, if_neg n5, if_neg n6,
    if_neg n7, if_neg n8, if_neg n9]

theorem scan_spec_value_step (f : Nat) (ihe : ScanInv parseElems f)
    (ihm : ScanInv parseMembers f) : ScanInv parseValue (f + 1) := by
  intro s v r h
  rw [parseValue_succ] at h
  match s with
  | [] => exact absurd h (by simp [valueStep])
  | c :: t =>
    by_cases h1 : c = '"'
    · subst h1
      rw [valueStep_str] at h
      cases hsb : parseStringBody t with
      | none => rw [hsb] at h; exact absurd h (by simp)
      | some p =>
        obtain ⟨sp, r1⟩ := p
        rw [hsb] at h
        have hp := Option.some.inj h
        have hv : Json.str sp = v := congrArg Prod.fst hp
        have hr : r = r1 := (congrArg Prod.snd hp).symm
        subst hv; subst hr
        obtain ⟨hdec, hrep⟩ := parseStringBody_spec t sp r hsb
        refine ⟨'"' :: sp ++ ['"'], ?_, by simp, ?_, ?_, ?_⟩
        · rw [hdec]; simp
        · intro d hd
          simp only [List.cons_append, List.head?_cons, Option.some_inj] at hd
          subst hd; decide
        · intro d hd
          rw [List.getLast?_append_of_ne_nil _ (by simp)] at hd
          simp only [List.getLast?_singleton, Option.some_inj] at hd
          subst hd; decide
        · intro g r₂ hg hr2
          obtain ⟨g', rfl⟩ : ∃ g', g = g' + 1 := ⟨g - 1, by omega⟩
          rw [parseValue_succ,
            show ('"' :: sp ++ ['"']) ++ r₂ = '"' :: (sp ++ '"' :: r₂) by simp,
            valueStep_str, hrep r₂]
          rfl
    · by_cases h2 : c = '{'
      · subst h2
        rw [valueStep_obj] at h
        by_cases hcl : (skipJws t).head? = some '}'
        · rw [if_pos hcl] at h
          have hp := Option.some.inj h
          have hv : Json.obj [] = v := congrArg Prod.fst hp
          have hr : (skipJws t).tail = r := congrArg Prod.snd hp
          subst hv
          obtain ⟨w, hw, hwall⟩ := skipJws_decomp t
          have hst : skipJws t = '}' :: (skipJws t).tail := head_some_decomp _ _ hcl
          have ht2 : t = w ++ ('}' :: r) := by rw [← hr, ← hst]; exact hw
          refine ⟨'{' :: w ++ ['}'], ?_, by simp, ?_, ?_, ?_⟩
          · rw [ht2]; simp
          · intro d hd
            simp only [List.cons_append, List.head?_cons, Option.some_inj] at hd
            subst hd; decide
          · intro d hd
            rw [List.getLast?_append_of_ne_nil _ (by simp)] at hd
            simp only [List.getLast?_singleton, Option.some_inj] at hd
            subst hd; decide
          · intro g r₂ hg hr2
            obtain ⟨g', rfl⟩ : ∃ g', g = g' + 1 := ⟨g - 1, by omega⟩
            have hskip : skipJws (w ++ '}' :: r₂) = '}' :: r₂ :=
              skipJws_append_all w _ hwall (by
                intro d hd
                simp only [List.head?_cons, Option.some_inj] at hd
                subst hd; decide)
            rw [parseValue_succ,
              show ('{' :: w ++ ['}']) ++ r₂ = '{' :: (w ++ '}' :: r₂) by simp,
              valueStep_obj, hskip,
              if_pos (show List.head? ('}' :: r₂) = some '}' from rfl)]
            rfl
        · rw [if_neg hcl] at h
          cases hpm : parseMembers f (skipJws t) with
          | none => rw [hpm] at h; exact absurd h (by simp)
          | some q =>
            obtain ⟨ms, rm⟩ := q
            rw [hpm] at h
            have hp := Option.some.inj h
            have hv : Json.obj ms = v := congrArg Prod.fst hp
            have hr : r = rm := (congrArg Prod.snd hp).symm
            subst hv; subst hr
            obtain ⟨cm, hcmdec, hcmne, hcmhead, hcmlast, hcmrep⟩ := ihm _ ms r hpm
            obtain ⟨w, hw, hwall⟩ := skipJws_decomp t
            have ht2 : t = w ++ (cm ++ r) := by rw [← hcmdec]; exact hw
            refine ⟨'{' :: (w ++ cm), ?_, by simp, ?_, ?_, ?_⟩
            · rw [ht2]; simp
            · intro d hd
              simp only [List.head?_cons, Option.some_inj] at hd
              subst hd; decide
            · intro d hd
              rw [getLast?_chain_cons _ _ (by
                  intro hnil
                  exact hcmne (List.append_eq_nil.mp hnil).2),
                List.getLast?_append_of_ne_nil _ hcmne] at hd
              exact hcmlast d hd
            · intro g r₂ hg hr2
              obtain ⟨g', rfl⟩ : ∃ g', g = g' + 1 := ⟨g - 1, by omega⟩
              have hcmhd : ∀ d, (cm ++ r₂).head? = some d → isJws d = false := by
                intro d hd
                rw [List.head?_append_of_ne_nil _ hcmne] at hd
                exact (valueStart_not_ws d (hcmhead d hd)).2
              have hskip : skipJws (w ++ (cm ++ r₂)) = cm ++ r₂ :=
                skipJws_append_all w _ hwall hcmhd
              have hno : ¬ (skipJws (w ++ (cm ++ r₂))).head? = some '}' := by
                rw [hskip]
                intro hq
                rw [List.head?_append_of_ne_nil _ hcmne] at hq
                exact absurd (hcmhead _ hq) (by decide)
              rw [parseValue_succ,
                show ('{' :: (w ++ cm)) ++ r₂ = '{' :: (w ++ (cm ++ r₂)) by simp,
                valueStep_obj, if_neg hno, hskip,
                hcmrep g' r₂ (by
                  simp only [List.length_cons, List.length_append] at hg
                  omega) hr2]
              rfl
      · by_cases h3 : c = '['
        · subst h3
          rw [valueStep_arr] at h
          by_cases hcl : (skipJws t).head? = some ']'
          · rw [if_pos hcl] at h
            have hp := Option.some.inj h
            have hv : Json.arr [] = v := congrArg Prod.fst hp
            have hr : (skipJws t).tail = r := congrArg Prod.snd hp
            subst hv
            obtain ⟨w, hw, hwall⟩ := skipJws_decomp t
            have hst : skipJws t = ']' :: (skipJws t).tail := head_some_decomp _ _ hcl
            have ht2 : t = w ++ (']' :: r) := by rw [← hr, ← hst]; exact hw
            refine ⟨'[' :: w ++ [']'], ?_, by simp, ?_, ?_, ?_⟩
            · rw [ht2]; simp
            · intro d hd
              simp only [List.cons_append, List.head?_cons, Option.some_inj] at hd
              subst hd; decide
            · intro d hd
              rw [List.getLast?_append_of_ne_nil _ (by simp)] at hd
              simp only [List.getLast?_singleton, Option.some_inj] at hd
              subst hd; decide
            · intro g r₂ hg hr2
              obtain ⟨g', rfl⟩ : ∃ g', g = g' + 1 := ⟨g - 1, by omega⟩
              have hskip : skipJws (w ++ ']' :: r₂) = ']' :: r₂ :=
                skipJws_append_all w _ hwall (by
                  intro d hd
                  simp only [List.head?_cons, Option.some_inj] at hd
                  subst hd; decide)
              rw [parseValue_succ,
                show ('[' :: w ++ [']']) ++ r₂ = '[' :: (w ++ ']' :: r₂) by simp,
                valueStep_arr, hskip,
                if_pos (show List.head? (']' :: r₂) = some ']' from rfl)]
              rfl
          · rw [if_neg hcl] at h
            cases hpe : parseElems f (skipJws t) with
            | none => rw [hpe] at h; exact absurd h (by simp)
            | some q =>
              obtain ⟨es, re⟩ := q
              rw [hpe] at h
              have hp := Option.some.inj h
              have hv : Json.arr es = v := congrArg Prod.fst hp
              have hr : r = re := (congrArg Prod.snd hp).symm
              subst hv; subst hr
              obtain ⟨ce, hcedec, hcene, hcehead, hcelast, hcerep⟩ := ihe _ es r hpe
              obtain ⟨w, hw, hwall⟩ := skipJws_decomp t
              have ht2 : t = w ++ (ce ++ r) := by rw [← hcedec]; exact hw
              refine ⟨'[' :: (w ++ ce), ?_, by simp, ?_, ?_, ?_⟩
              · rw [ht2]; simp
              · intro d hd
                simp only [List.head?_cons, Option.some_inj] at hd
                subst hd; decide
              · intro d hd
                rw [getLast?_chain_cons _ _ (by
                    intro hnil
                    exact hcene (List.append_eq_nil.mp hnil).2),
                  List.getLast?_append_of_ne_nil _ hcene] at hd
                exact hcelast d hd
              · intro g r₂ hg hr2
                obtain ⟨g', rfl⟩ : ∃ g', g = g' + 1 := ⟨g - 1, by omega⟩
                have hcehd : ∀ d, (ce ++ r₂).head? = some d → isJws d = false := by
                  intro d hd
                  rw [List.head?_append_of_ne_nil _ hcene] at hd
                  exact (valueStart_not_ws d (hcehead d hd)).2
                have hskip : skipJws (w ++ (ce ++ r₂)) = ce ++ r₂ :=
                  skipJws_append_all w _ hwall hcehd
                have hno : ¬ (skipJws (w ++ (ce ++ r₂))).head? = some ']' := by
                  rw [hskip]
                  intro hq
                  rw [List.head?_append_of_ne_nil _ hcene] at hq
                  exact absurd (hcehead _ hq) (by decide)
                rw [parseValue_succ,
                  show ('[' :: (w ++ ce)) ++ r₂ = '[' :: (w ++ (ce ++ r₂)) by simp,
                  valueStep_arr, if_neg hno, hskip,
                  hcerep g' r₂ (by
                    simp only [List.length_cons, List.length_append] at hg
                    omega) hr2]
                rfl
        · by_cases h4 : c = 'n'
          · subst h4
            rw [valueStep_null] at h
            by_cases hck : t.take 3 = strS "ull"
            · rw [if_pos hck] at h
              have hp := Option.some.inj h
              have hv : Json.null = v := congrArg Prod.fst hp
              have hr : t.drop 3 = r := congrArg Prod.snd hp
              subst hv
              have ht2 : t = strS "ull" ++ r := by
                rw [← hr, ← hck, List.take_append_drop]
              refine ⟨strS "null", ?_, by decide, ?_, ?_, ?_⟩
              · rw [ht2]; rfl
              · intro d hd
                rw [show (strS "null").head? = some 'n' from rfl] at hd
                simp only [Option.some_inj] at hd
                subst hd; decide
              · intro d hd
                rw [show (strS "null").getLast? = some 'l' from rfl] at hd
                simp only [Option.some_inj] at hd
                subst hd; decide
              · intro g r₂ hg hr2
                obtain ⟨g', rfl⟩ : ∃ g', g = g' + 1 := ⟨g - 1, by omega⟩
                rw [parseValue_succ,
                  show strS "null" ++ r₂ = 'n' :: ('u' :: 'l' :: 'l' :: r₂) from rfl,
                  valueStep_null,
                  if_pos (show List.take 3 ('u' :: 'l' :: 'l' :: r₂) = strS "ull" from rfl)]
                rfl
            · rw [if_neg hck] at h; exact absurd h (by simp)
          · by_cases h5 : c = 't'
            · subst h5
              rw [valueStep_true] at h
              by_cases hck : t.take 3 = strS "rue"
              · rw [if_pos hck] at h
                have hp := Option.some.inj h
                have hv : Json.bool true = v := congrArg Prod.fst hp
                have hr : t.drop 3 = r := congrArg Prod.snd hp
                subst hv
                have ht2 : t = strS "rue" ++ r := by
                  rw [← hr, ← hck, List.take_append_drop]
                refine ⟨strS "true", ?_, by decide, ?_, ?_, ?_⟩
                · rw [ht2]; rfl
                · intro d hd
                  rw [show (strS "true").head? = some 't' from rfl] at hd
                  simp only [Option.some_inj] at hd
                  subst hd; decide
                · intro d hd
                  rw [show (strS "true").getLast? = some 'e' from rfl] at hd
                  simp only [Option.some_inj] at hd
                  subst hd; decide
                · intro g r₂ hg hr2
                  obtain ⟨g', rfl⟩ : ∃ g', g = g' + 1 := ⟨g - 1, by omega⟩
                  rw [parseValue_succ,
                    show strS "true" ++ r₂ = 't' :: ('r' :: 'u' :: 'e' :: r₂) from rfl,
                    valueStep_true,
                    if_pos (show List.take 3 ('r' :: 'u' :: 'e' :: r₂) = strS "rue" from rfl)]
                  rfl
              · rw [if_neg hck] at h; exact absurd h (by simp)
            · by_cases h6 : c = 'f'
              · subst h6
                rw [valueStep_false] at h
                by_cases hck : t.take 4 = strS "alse"
                · rw [if_pos hck] at h
                  have hp := Option.some.inj h
                  have hv : Json.bool false = v := congrArg Prod.fst hp
                  have hr : t.drop 4 = r := congrArg Prod.snd hp
                  subst hv
                  have ht2 : t = strS "alse" ++ r := by
                    rw [← hr, ← hck, List.take_append_drop]
                  refine ⟨strS "false", ?_, by decide, ?_, ?_, ?_⟩
                  · rw [ht2]; rfl
                  · intro d hd
                    rw [show (strS "false").head? = some 'f' from rfl] at hd
                    simp only [Option.some_inj] at hd
                    subst hd; decide
                  · intro d hd
                    rw [show (strS "false").getLast? = some 'e' from rfl] at hd
                    simp only [Option.some_inj] at hd
                    subst hd; decide
                  · intro g r₂ hg hr2
                    obtain ⟨g', rfl⟩ : ∃ g', g = g' + 1 := ⟨g - 1, by omega⟩
                    rw [parseValue_succ,
                      show strS "false" ++ r₂
                        = 'f' :: ('a' :: 'l' :: 's' :: 'e' :: r₂) from rfl,
                      valueStep_false,
                      if_pos (show List.take 4 ('a' :: 'l' :: 's' :: 'e' :: r₂) = strS "alse" from rfl)]
                    rfl
                · rw [if_neg hck] at h; exact absurd h (by simp)
              · by_cases h7 : c = '-' ∨ c.isDigit = true
                · rw [valueStep_num _ _ c t h7] at h
                  cases hnb : parseNumberBody (c :: t) with
                  | some p =>
                    obtain ⟨lex, rn⟩ := p
                    rw [hnb] at h
                    simp only [] at h
                    have hp := Option.some.inj h
                    have hv : Json.num lex = v := congrArg Prod.fst hp
                    have hr : r = rn := (congrArg Prod.snd hp).symm
                    subst hv; subst hr
                    obtain ⟨hdec, hlexne, hlexhead, hlexlast, hlexrep⟩ :=
                      parseNumberBody_spec (c :: t) lex r hnb
                    obtain ⟨c0, t0, hct⟩ := List.exists_cons_of_ne_nil hlexne
                    have hc0 : c0 = c := by
                      rw [hct, List.cons_append] at hdec
                      injection hdec with hh htt
                      exact hh.symm
                    refine ⟨lex, hdec, hlexne, ?_, ?_, ?_⟩
                    · intro d hd
                      rw [hct] at hd
                      simp only [List.head?_cons, Option.some_inj] at hd
                      subst hd
                      rw [hc0]
                      rcases h7 with hcc | hcc
                      · subst hcc; decide
                      · simp [valueStart, hcc]
                    · intro d hd
                      have hdg := hlexlast d hd
                      cases hpw : isPyWs d with
                      | false => rfl
                      | true =>
                        rw [isPyWs_not_digit d hpw] at hdg
                        exact absurd hdg (by simp)
                    · intro g r₂ hg hr2
                      obtain ⟨g', rfl⟩ : ∃ g', g = g' + 1 := ⟨g - 1, by omega⟩
                      rw [parseValue_succ,
                        show lex ++ r₂ = c0 :: (t0 ++ r₂) by rw [hct]; rfl,
                        valueStep_num _ _ c0 _ (by rw [hc0]; exact h7),
                        show c0 :: (t0 ++ r₂) = lex ++ r₂ by rw [hct]; rfl,
                        hlexrep r₂ hr2]
                  | none =>
                    rw [hnb] at h
                    simp only [] at h
                    by_cases hinf : c = '-' ∧ t.take 8 = strS "Infinity"
                    · rw [if_pos hinf] at h
                      obtain ⟨hcm, htk⟩ := hinf
                      subst hcm
                      have hp := Option.some.inj h
                      have hv : Json.num (strS "-Infinity") = v := congrArg Prod.fst hp
                      have hr : t.drop 8 = r := congrArg Prod.snd hp
                      subst hv
                      have ht2 : t = strS "Infinity" ++ r := by
                        rw [← hr, ← htk, List.take_append_drop]
                      refine ⟨strS "-Infinity", ?_, by decide, ?_, ?_, ?_⟩
                      · rw [ht2]; rfl
                      · intro d hd
                        rw [show (strS "-Infinity").head? = some '-' from rfl] at hd
                        simp only [Option.some_inj] at hd
                        subst hd; decide
                      · intro d hd
                        rw [show (strS "-Infinity").getLast? = some 'y' from rfl] at hd
                        simp only [Option.some_inj] at hd
                        subst hd; decide
                      · intro g r₂ hg hr2
                        obtain ⟨g', rfl⟩ : ∃ g', g = g' + 1 := ⟨g - 1, by omega⟩
                        rw [parseValue_succ,
                          show strS "-Infinity" ++ r₂
                            = '-' :: (strS "Infinity" ++ r₂) from rfl,
                          valueStep_num _ _ '-' _ (Or.inl rfl),
                          show parseNumberBody ('-' :: (strS "Infinity" ++ r₂))
                            = none from rfl]
                        simp only []
                        rw [if_pos ⟨trivial, rfl⟩]
                        rfl
                    · rw [if_neg hinf] at h; exact absurd h (by simp)
                · by_cases h8 : c = 'N'
                  · subst h8
                    rw [valueStep_NaN] at h
                    by_cases hck : t.take 2 = strS "aN"
                    · rw [if_pos hck] at h
                      have hp := Option.some.inj h
                      have hv : Json.num (strS "NaN") = v := congrArg Prod.fst hp
                      have hr : t.drop 2 = r := congrArg Prod.snd hp
                      subst hv
                      have ht2 : t = strS "aN" ++ r := by
                        rw [← hr, ← hck, List.take_append_drop]
                      refine ⟨strS "NaN", ?_, by decide, ?_, ?_, ?_⟩
                      · rw [ht2]; rfl
                      · intro d hd
                        rw [show (strS "NaN").head? = some 'N' from rfl] at hd
                        simp only [Option.some_inj] at hd
                        subst hd; decide
                      · intro d hd
                        rw [show (strS "NaN").getLast? = some 'N' from rfl] at hd
                        simp only [Option.some_inj] at hd
                        subst hd; decide
                      · intro g r₂ hg hr2
                        obtain ⟨g', rfl⟩ : ∃ g', g = g' + 1 := ⟨g - 1, by omega⟩
                        rw [parseValue_succ,
                          show strS "NaN" ++ r₂ = 'N' :: ('a' :: 'N' :: r₂) from rfl,
                          valueStep_NaN,
                          if_pos (show List.take 2 ('a' :: 'N' :: r₂) = strS "aN" from rfl)]
                        rfl
                    · rw [if_neg hck] at h; exact absurd h (by simp)
                  · by_cases h9 : c = 'I'
                    · subst h9
                      rw [valueStep_Inf] at h
                      by_cases hck : t.take 7 = strS "nfinity"
                      · rw [if_pos hck] at h
                        have hp := Option.some.inj h
                        have hv : Json.num (strS "Infinity") = v := congrArg Prod.fst hp
                        have hr : t.drop 7 = r := congrArg Prod.snd hp
                        subst hv
                        have ht2 : t = strS "nfinity" ++ r := by
                          rw [← hr, ← hck, List.take_append_drop]
                        refine ⟨strS "Infinity", ?_, by decide, ?_, ?_, ?_⟩
                        · rw [ht2]; rfl
                        · intro d hd
                          rw [show (strS "Infinity").head? = some 'I' from rfl] at hd
                          simp only [Option.some_inj] at hd
                          subst hd; decide
                        · intro d hd
                          rw [show (strS "Infinity").getLast? = some 'y' from rfl] at hd
                          simp only [Option.some_inj] at hd
                          subst hd; decide
                        · intro g r₂ hg hr2
                          obtain ⟨g', rfl⟩ : ∃ g', g = g' + 1 := ⟨g - 1, by omega⟩
                          rw [parseValue_succ,
                            show strS "Infinity" ++ r₂
                              = 'I' :: (strS "nfinity" ++ r₂) from rfl,
                            valueStep_Inf,
                            if_pos (show List.take 7 (strS "nfinity" ++ r₂) = strS "nfinity" from rfl)]
                          rfl
                      · rw [if_neg hck] at h; exact absurd h (by simp)
                    · rw [valueStep_other _ _ c t h1 h2 h3 h4 h5 h6 h7 h8 h9] at h
                      exact absurd h (by simp)

theorem scan_spec_elems_step (f : Nat) (ihv : ScanInv parseValue f)
    (ihe : ScanInv parseElems f) : ScanInv parseElems (f + 1) := by
  intro u es r h
  rw [parseElems_succ] at h
  simp only [elemsStep] at h
  cases hpv : parseValue f u with
  | none => rw [hpv] at h; exact absurd h (by simp)
  | some p =>
    obtain ⟨v, r1⟩ := p
    rw [hpv] at h
    simp only [] at h
    obtain ⟨cv, hcvdec, hcvne, hcvhead, hcvlast, hcvrep⟩ := ihv u v r1 hpv
    obtain ⟨w1, hw1, hw1all⟩ := skipJws_decomp r1
    by_cases hcm : (skipJws r1).head? = some ','
    · rw [if_pos hcm] at h
      have hsr1 : skipJws r1 = ',' :: (skipJws r1).tail := head_some_decomp _ _ hcm
      cases hpe : parseElems f (skipJws ((skipJws r1).tail)) with
      | none => rw [hpe] at h; exact absurd h (by simp)
      | some q =>
        obtain ⟨vs, r4⟩ := q
        rw [hpe] at h
        simp only [] at h
        have hp := Option.some.inj h
        have hes : v :: vs = es := congrArg Prod.fst hp
        have hrr : r = r4 := (congrArg Prod.snd hp).symm
        subst hes; subst hrr
        obtain ⟨ce, hcedec, hcene, hcehead, hcelast, hcerep⟩ := ihe _ vs r hpe
        obtain ⟨w2, hw2, hw2all⟩ := skipJws_decomp ((skipJws r1).tail)
        have hint : (skipJws r1).tail = w2 ++ (ce ++ r) := by
          rw [hw2, hcedec]
        have h2 : r1 = w1 ++ (',' :: (w2 ++ (ce ++ r))) := by
          rw [hw1, hsr1, hint]
        have hdec : u = (cv ++ (w1 ++ ',' :: (w2 ++ ce))) ++ r := by
          rw [hcvdec, h2]; simp
        refine ⟨cv ++ (w1 ++ ',' :: (w2 ++ ce)), hdec, ?_, ?_, ?_, ?_⟩
        · intro hnil; exact hcvne (List.append_eq_nil.mp hnil).1
        · intro d hd
          rw [List.head?_append_of_ne_nil _ hcvne] at hd
          exact hcvhead d hd
        · intro d hd
          rw [List.getLast?_append_of_ne_nil _ (by simp),
            List.getLast?_append_cons,
            getLast?_chain_cons _ _ (by
              intro hnil; exact hcene (List.append_eq_nil.mp hnil).2),
            List.getLast?_append_of_ne_nil _ hcene] at hd
          exact hcelast d hd
        · intro g r₂ hg hr2
          obtain ⟨g', rfl⟩ : ∃ g', g = g' + 1 := ⟨g - 1, by omega⟩
          have hX : (cv ++ (w1 ++ ',' :: (w2 ++ ce))) ++ r₂
              = cv ++ (w1 ++ ',' :: (w2 ++ (ce ++ r₂))) := by simp
          have hrokX : restOk (w1 ++ ',' :: (w2 ++ (ce ++ r₂))) :=
            restOk_jws_append w1 ',' _ hw1all (by decide)
          have hlen : cv.length + 1 ≤ g' ∧ ce.length + 1 ≤ g' := by
            simp only [List.length_append, List.length_cons] at hg
            constructor <;> omega
          have hpv2 : parseValue g' (cv ++ (w1 ++ ',' :: (w2 ++ (ce ++ r₂))))
              = some (v, w1 ++ ',' :: (w2 ++ (ce ++ r₂))) :=
            hcvrep g' _ hlen.1 hrokX
          have hsk1 : skipJws (w1 ++ ',' :: (w2 ++ (ce ++ r₂)))
              = ',' :: (w2 ++ (ce ++ r₂)) :=
            skipJws_append_all w1 _ hw1all (by
              intro d hd
              simp only [List.head?_cons, Option.some_inj] at hd
              subst hd; decide)
          have hsk2 : skipJws (w2 ++ (ce ++ r₂)) = ce ++ r₂ :=
            skipJws_append_all w2 _ hw2all (by
              intro d hd
              rw [List.head?_append_of_ne_nil _ hcene] at hd
              exact (valueStart_not_ws d (hcehead d hd)).2)
          rw [parseElems_succ, hX]
          simp only [elemsStep]
          rw [hpv2]
          simp only []
          rw [hsk1,
            if_pos (show List.head? (',' :: (w2 ++ (ce ++ r₂))) = some ',' from rfl),
            show List.tail (',' :: (w2 ++ (ce ++ r₂))) = w2 ++ (ce ++ r₂) from rfl,
            hsk2, hcerep g' r₂ hlen.2 hr2]
    · rw [if_neg hcm] at h
      by_cases hbr : (skipJws r1).head? = some ']'
      · rw [if_pos hbr] at h
        have hp := Option.some.inj h
        have hes : [v] = es := congrArg Prod.fst hp
        have hrr : r = (skipJws r1).tail := (congrArg Prod.snd hp).symm
        subst hes
        have hsr1 : skipJws r1 = ']' :: (skipJws r1).tail := head_some_decomp _ _ hbr
        have h2 : r1 = w1 ++ (']' :: r) := by rw [hw1, hsr1, ← hrr]
        have hdec : u = (cv ++ (w1 ++ [']'])) ++ r := by
          rw [hcvdec, h2]; simp
        refine ⟨cv ++ (w1 ++ [']']), hdec, ?_, ?_, ?_, ?_⟩
        · intro hnil; exact hcvne (List.append_eq_nil.mp hnil).1
        · intro d hd
          rw [List.head?_append_of_ne_nil _ hcvne] at hd
          exact hcvhead d hd
        · intro d hd
          rw [List.getLast?_append_of_ne_nil _ (by simp),
            List.getLast?_append_of_ne_nil _ (by simp)] at hd
          simp only [List.getLast?_singleton, Option.some_inj] at hd
          subst hd; decide
        · intro g r₂ hg hr2
          obtain ⟨g', rfl⟩ : ∃ g', g = g' + 1 := ⟨g - 1, by omega⟩
          have hX : (cv ++ (w1 ++ [']'])) ++ r₂ = cv ++ (w1 ++ ']' :: r₂) := by simp
          have hlen : cv.length + 1 ≤ g' := by
            simp only [List.length_append, List.length_cons] at hg
            omega
          have hpv2 : parseValue g' (cv ++ (w1 ++ ']' :: r₂))
              = some (v, w1 ++ ']' :: r₂) :=
            hcvrep g' _ hlen (restOk_jws_append w1 ']' r₂ hw1all (by decide))
          have hsk1 : skipJws (w1 ++ ']' :: r₂) = ']' :: r₂ :=
            skipJws_append_all w1 _ hw1all (by
              intro d hd
              simp only [List.head?_cons, Option.some_inj] at hd
              subst hd; decide)
          rw [parseElems_succ, hX]
          simp only [elemsStep]
          rw [hpv2]
          simp only []
          rw [hsk1,
            if_neg (show ¬ List.head? (']' :: r₂) = some ',' by simp),
            if_pos (show List.head? (']' :: r₂) = some ']' from rfl)]
          rfl
      · rw [if_neg hbr] at h
        exact absurd h (by simp)

theorem scan_spec_members_step (f : Nat) (ihv : ScanInv parseValue f)
    (ihm : ScanInv parseMembers f) : ScanInv parseMembers (f + 1) := by
  intro u ms r h
  rw [parseMembers_succ] at h
  match u with
  | [] => exact absurd h (by simp [membersStep])
  | c :: t =>
    simp only [membersStep] at h
    by_cases hq : c = '"'
    · rw [if_pos hq] at h
      subst hq
      cases hsb : parseStringBody t with
      | none => rw [hsb] at h; exact absurd h (by simp)
      | some p =>
        obtain ⟨k, r1⟩ := p
        rw [hsb] at h
        simp only [] at h
        obtain ⟨hkdec, hkrep⟩ := parseStringBody_spec t k r1 hsb
        obtain ⟨w1, hw1, hw1all⟩ := skipJws_decomp r1
        by_cases hcol : (skipJws r1).head? = some ':'
        · rw [if_pos hcol] at h
          have hsr1 : skipJws r1 = ':' :: (skipJws r1).tail :=
            head_some_decomp _ _ hcol
          obtain ⟨w2, hw2, hw2all⟩ := skipJws_decomp ((skipJws r1).tail)
          cases hpv : parseValue f (skipJws ((skipJws r1).tail)) with
          | none => rw [hpv] at h; exact absurd h (by simp)
          | some q =>
            obtain ⟨v, r3⟩ := q
            rw [hpv] at h
            simp only [] at h
            obtain ⟨cv, hcvdec, hcvne, hcvhead, hcvlast, hcvrep⟩ := ihv _ v r3 hpv
            obtain ⟨w3, hw3, hw3all⟩ := skipJws_decomp r3
            by_cases hcm : (skipJws r3).head? = some ','
            · rw [if_pos hcm] at h
              have hsr3 : skipJws r3 = ',' :: (skipJws r3).tail :=
                head_some_decomp _ _ hcm
              cases hpm : parseMembers f (skipJws ((skipJws r3).tail)) with
              | none => rw [hpm] at h; exact absurd h (by simp)
              | some q2 =>
                obtain ⟨ms2, r5⟩ := q2
                rw [hpm] at h
                simp only [] at h
                have hp := Option.some.inj h
                have hms : (k, v) :: ms2 = ms := congrArg Prod.fst hp
                have hrr : r = r5 := (congrArg Prod.snd hp).symm
                subst hms; subst hrr
                obtain ⟨cm, hcmdec, hcmne, hcmhead, hcmlast, hcmrep⟩ :=
                  ihm _ ms2 r hpm
                obtain ⟨w4, hw4, hw4all⟩ := skipJws_decomp ((skipJws r3).tail)
                have hint4 : (skipJws r3).tail = w4 ++ (cm ++ r) := by
                  rw [hw4, hcmdec]
                have hr3 : r3 = w3 ++ (',' :: (w4 ++ (cm ++ r))) := by
                  rw [hw3, hsr3, hint4]
                have hint2 : (skipJws r1).tail
                    = w2 ++ (cv ++ (w3 ++ (',' :: (w4 ++ (cm ++ r))))) := by
                  rw [hw2, hcvdec, hr3]
                have hr1 : r1 = w1 ++ (':' ::
                    (w2 ++ (cv ++ (w3 ++ (',' :: (w4 ++ (cm ++ r))))))) := by
                  rw [hw1, hsr1, hint2]
                have hdec : '"' :: t
                    = ('"' :: (k ++ ('"' :: (w1 ++ (':' ::
                        (w2 ++ (cv ++ (w3 ++ (',' :: (w4 ++ cm)))))))))) ++ r := by
                  rw [hkdec, hr1]; simp
                refine ⟨'"' :: (k ++ ('"' :: (w1 ++ (':' ::
                    (w2 ++ (cv ++ (w3 ++ (',' :: (w4 ++ cm))))))))),
                  hdec, by simp, ?_, ?_, ?_⟩
                · intro d hd
                  simp only [List.head?_cons, Option.some_inj] at hd
                  subst hd; decide
                · intro d hd
                  rw [getLast?_chain_cons _ _ (by simp),
                    List.getLast?_append_cons,
                    getLast?_chain_cons _ _ (by simp),
                    List.getLast?_append_cons,
                    getLast?_chain_cons _ _ (by simp),
                    List.getLast?_append_of_ne_nil _ (by simp),
                    List.getLast?_append_of_ne_nil _ (by simp),
                    List.getLast?_append_cons,
                    getLast?_chain_cons _ _ (by
                      intro hnil; exact hcmne (List.append_eq_nil.mp hnil).2),
                    List.getLast?_append_of_ne_nil _ hcmne] at hd
                  exact hcmlast d hd
                · intro g r₂ hg hr2
                  obtain ⟨g', rfl⟩ : ∃ g', g = g' + 1 := ⟨g - 1, by omega⟩
                  have hX : ('"' :: (k ++ ('"' :: (w1 ++ (':' ::
                        (w2 ++ (cv ++ (w3 ++ (',' :: (w4 ++ cm)))))))))) ++ r₂
                      = '"' :: (k ++ ('"' :: (w1 ++ (':' ::
                        (w2 ++ (cv ++ (w3 ++ (',' :: (w4 ++ (cm ++ r₂)))))))))) := by
                    simp
                  have hrok3 : restOk (w3 ++ ',' :: (w4 ++ (cm ++ r₂))) :=
                    restOk_jws_append w3 ',' _ hw3all (by decide)
                  have hlen : cv.length + 1 ≤ g' ∧ cm.length + 1 ≤ g' := by
                    simp only [List.length_cons, List.length_append] at hg
                    constructor <;> omega
                  have hpv2 : parseValue g'
                      (cv ++ (w3 ++ ',' :: (w4 ++ (cm ++ r₂))))
                      = some (v, w3 ++ ',' :: (w4 ++ (cm ++ r₂))) :=
                    hcvrep g' _ hlen.1 hrok3
                  have hsk1 : skipJws (w1 ++ (':' ::
                      (w2 ++ (cv ++ (w3 ++ (',' :: (w4 ++ (cm ++ r₂))))))))
                      = ':' :: (w2 ++ (cv ++ (w3 ++ (',' :: (w4 ++ (cm ++ r₂)))))) :=
                    skipJws_append_all w1 _ hw1all (by
                      intro d hd
                      simp only [List.head?_cons, Option.some_inj] at hd
                      subst hd; decide)
                  have hsk2 : skipJws
                      (w2 ++ (cv ++ (w3 ++ (',' :: (w4 ++ (cm ++ r₂))))))
                      = cv ++ (w3 ++ (',' :: (w4 ++ (cm ++ r₂)))) :=
                    skipJws_append_all w2 _ hw2all (by
                      intro d hd
                      rw [List.head?_append_of_ne_nil _ hcvne] at hd
                      exact (valueStart_not_ws d (hcvhead d hd)).2)
                  have hsk3 : skipJws (w3 ++ (',' :: (w4 ++ (cm ++ r₂))))
                      = ',' :: (w4 ++ (cm ++ r₂)) :=
                    skipJws_append_all w3 _ hw3all (by
                      intro d hd
                      simp only [List.head?_cons, Option.some_inj] at hd
                      subst hd; decide)
                  have hsk4 : skipJws (w4 ++ (cm ++ r₂)) = cm ++ r₂ :=
                    skipJws_append_all w4 _ hw4all (by
                      intro d hd
                      rw [List.head?_append_of_ne_nil _ hcmne] at hd
                      exact (valueStart_not_ws d (hcmhead d hd)).2)
                  rw [parseMembers_succ, hX]
                  simp only [membersStep]
                  try rw [if_pos (show ('"' : Char) = '"' from rfl)]
                  try rw [if_true]
                  rw [hkrep]
                  simp only []
                  rw [hsk1,
                    if_pos (show List.head? (':' ::
                      (w2 ++ (cv ++ (w3 ++ (',' :: (w4 ++ (cm ++ r₂)))))))
                      = some ':' from rfl),
                    show List.tail (':' ::
                      (w2 ++ (cv ++ (w3 ++ (',' :: (w4 ++ (cm ++ r₂)))))))
                      = w2 ++ (cv ++ (w3 ++ (',' :: (w4 ++ (cm ++ r₂)))))
                      from rfl,
                    hsk2, hpv2]
                  simp only []
                  rw [hsk3,
                    if_pos (show List.head? (',' :: (w4 ++ (cm ++ r₂)))
                      = some ',' from rfl),
                    show List.tail (',' :: (w4 ++ (cm ++ r₂)))
                      = w4 ++ (cm ++ r₂) from rfl,
                    hsk4, hcmrep g' r₂ hlen.2 hr2]
            · rw [if_neg hcm] at h
              by_cases hbr : (skipJws r3).head? = some '}'
              · rw [if_pos hbr] at h
                have hp := Option.some.inj h
                have hms : [(k, v)] = ms := congrArg Prod.fst hp
                have hrr : r = (skipJws r3).tail := (congrArg Prod.snd hp).symm
                subst hms
                have hsr3 : skipJws r3 = '}' :: (skipJws r3).tail :=
                  head_some_decomp _ _ hbr
                have hr3 : r3 = w3 ++ ('}' :: r) := by rw [hw3, hsr3, ← hrr]
                have hint2 : (skipJws r1).tail
                    = w2 ++ (cv ++ (w3 ++ ('}' :: r))) := by
                  rw [hw2, hcvdec, hr3]
                have hr1 : r1 = w1 ++ (':' ::
                    (w2 ++ (cv ++ (w3 ++ ('}' :: r))))) := by
                  rw [hw1, hsr1, hint2]
                have hdec : '"' :: t
                    = ('"' :: (k ++ ('"' :: (w1 ++ (':' ::
                        (w2 ++ (cv ++ (w3 ++ ['}'])))))))) ++ r := by
                  rw [hkdec, hr1]; simp
                refine ⟨'"' :: (k ++ ('"' :: (w1 ++ (':' ::
                    (w2 ++ (cv ++ (w3 ++ ['}']))))))), hdec, by simp, ?_, ?_, ?_⟩
                · intro d hd
                  simp only [List.head?_cons, Option.some_inj] at hd
                  subst hd; decide
                · intro d hd
                  rw [getLast?_chain_cons _ _ (by simp),
                    List.getLast?_append_cons,
                    getLast?_chain_cons _ _ (by simp),
                    List.getLast?_append_cons,
                    getLast?_chain_cons _ _ (by simp),
                    List.getLast?_append_of_ne_nil _ (by simp),
                    List.getLast?_append_of_ne_nil _ (by simp),
                    List.getLast?_append_of_ne_nil _ (by simp)] at hd
                  simp only [List.getLast?_singleton, Option.some_inj] at hd
                  subst hd; decide
                · intro g r₂ hg hr2
                  obtain ⟨g', rfl⟩ : ∃ g', g = g' + 1 := ⟨g - 1, by omega⟩
                  have hX : ('"' :: (k ++ ('"' :: (w1 ++ (':' ::
                        (w2 ++ (cv ++ (w3 ++ ['}'])))))))) ++ r₂
                      = '"' :: (k ++ ('"' :: (w1 ++ (':' ::
                        (w2 ++ (cv ++ (w3 ++ ('}' :: r₂)))))))) := by
                    simp
                  have hlen : cv.length + 1 ≤ g' := by
                    simp only [List.length_cons, List.length_append] at hg
                    omega
                  have hpv2 : parseValue g' (cv ++ (w3 ++ '}' :: r₂))
                      = some (v, w3 ++ '}' :: r₂) :=
                    hcvrep g' _ hlen
                      (restOk_jws_append w3 '}' r₂ hw3all (by decide))
                  have hsk1 : skipJws (w1 ++ (':' ::
                      (w2 ++ (cv ++ (w3 ++ ('}' :: r₂))))))
                      = ':' :: (w2 ++ (cv ++ (w3 ++ ('}' :: r₂)))) :=
                    skipJws_append_all w1 _ hw1all (by
                      intro d hd
                      simp only [List.head?_cons, Option.some_inj] at hd
                      subst hd; decide)
                  have hsk2 : skipJws (w2 ++ (cv ++ (w3 ++ ('}' :: r₂))))
                      = cv ++ (w3 ++ ('}' :: r₂)) :=
                    skipJws_append_all w2 _ hw2all (by
                      intro d hd
                      rw [List.head?_append_of_ne_nil _ hcvne] at hd
                      exact (valueStart_not_ws d (hcvhead d hd)).2)
                  have hsk3 : skipJws (w3 ++ ('}' :: r₂)) = '}' :: r₂ :=
                    skipJws_append_all w3 _ hw3all (by
                      intro d hd
                      simp only [List.head?_cons, Option.some_inj] at hd
                      subst hd; decide)
                  rw [parseMembers_succ, hX]
                  simp only [membersStep]
                  try rw [if_pos (show ('"' : Char) = '"' from rfl)]
                  try rw [if_true]
                  rw [hkrep]
                  simp only []
                  rw [hsk1,
                    if_pos (show List.head? (':' ::
                      (w2 ++ (cv ++ (w3 ++ ('}' :: r₂))))) = some ':' from rfl),
                    show List.tail (':' :: (w2 ++ (cv ++ (w3 ++ ('}' :: r₂)))))
                      = w2 ++ (cv ++ (w3 ++ ('}' :: r₂))) from rfl,
                    hsk2, hpv2]
                  simp only []
                  rw [hsk3,
                    if_neg (show ¬ List.head? ('}' :: r₂) = some ',' by simp),
                    if_pos (show List.head? ('}' :: r₂) = some '}' from rfl)]
                  rfl
              · rw [if_neg hbr] at h
                exact absurd h (by simp)
        · rw [if_neg hcol] at h
          exact absurd h (by simp)
    · rw [if_neg hq] at h
      exact absurd h (by simp)

theorem scan_spec : ∀ f, ScanInv parseValue f ∧ ScanInv parseElems f ∧
    ScanInv parseMembers f := by
  intro f
  induction f with
  | zero =>
    refine ⟨?_, ?_, ?_⟩ <;>
      (intro s a r h; rw [show (0 : Nat) = 0 from rfl] at h)
    · rw [parseValue_zero] at h; exact absurd h (by simp)
    · rw [parseElems_zero] at h; exact absurd h (by simp)
    · rw [parseMembers_zero] at h; exact absurd h (by simp)
  | succ f ih =>
    obtain ⟨ihv, ihe, ihm⟩ := ih
    exact ⟨scan_spec_value_step f ihe ihm, scan_spec_elems_step f ihv ihe,
      scan_spec_members_step f ihv ihm⟩

/-- Right-stripping absorbs an all-whitespace suffix. -/
theorem pyRstrip_append_ws (x y : Str) (hy : ∀ c ∈ y, isPyWs c = true) :
    pyRstrip (x ++ y) = pyRstrip x := by
  unfold pyRstrip
  have h1 : List.dropWhile isPyWs y.reverse = [] :=
    List.dropWhile_eq_nil_iff.mpr (by
      intro z hz
      exact hy z (List.mem_reverse.mp hz))
  rw [List.reverse_append, List.dropWhile_append, h1]
  simp

/-- `json.loads` is invariant under Python stripping of its input: a parse of
the raw text is a parse of the stripped text, whose head is a value-start
character. -/
theorem json_loads_strip (A : Str) (v : Json) (h : json_loads A = some v) :
    json_loads (pyStrip A) = some v ∧
    (∀ c, (pyStrip A).head? = some c → valueStart c = true) ∧ pyStrip A ≠ [] := by
  simp only [json_loads] at h
  cases hpv : parseValue ((skipJws A).length + 1) (skipJws A) with
  | none => rw [hpv] at h; exact absurd h (by simp)
  | some p =>
    obtain ⟨v0, r⟩ := p
    rw [hpv] at h
    simp only [] at h
    by_cases hre : skipJws r = []
    · rw [if_pos hre] at h
      have hv : v0 = v := Option.some.inj h
      subst hv
      obtain ⟨cons, hdec, hconsne, hconshead, hconslast, hrep⟩ :=
        (scan_spec ((skipJws A).length + 1)).1 (skipJws A) v0 r hpv
      obtain ⟨w0, hA0, hw0all⟩ := skipJws_decomp A
      have hrws : ∀ c ∈ r, isPyWs c = true := by
        intro c hc
        exact isJws_imp_isPyWs c (List.dropWhile_eq_nil_iff.mp hre c hc)
      have hAform : A = w0 ++ (cons ++ r) := by rw [hA0, hdec]
      have hL : pyLstrip A = cons ++ r := by
        rw [hAform]
        unfold pyLstrip
        refine (takeWhile_dropWhile_append isPyWs w0 (cons ++ r) ?_ ?_).2
        · intro c hc; exact isJws_imp_isPyWs c (hw0all c hc)
        · intro c hc
          rw [List.head?_append_of_ne_nil _ hconsne] at hc
          exact (valueStart_not_ws c (hconshead c hc)).1
      have hstrip : pyStrip A = cons := by
        unfold pyStrip
        rw [hL, pyRstrip_append_ws cons r hrws]
        exact pyRstrip_eq_self cons hconslast
      have hskc : skipJws cons = cons := by
        obtain ⟨c0, t0, hc⟩ := List.exists_cons_of_ne_nil hconsne
        exact skipJws_valueStart cons c0 t0 hc (hconshead c0 (by rw [hc]; rfl))
      have hloads : json_loads cons = some v0 := by
        simp only [json_loads]
        rw [hskc]
        have hrun := hrep (cons.length + 1) [] (Nat.le_refl _) restOk_nil
        rw [List.append_nil] at hrun
        rw [hrun]
        rfl
      rw [hstrip]
      exact ⟨hloads, hconshead, hconsne⟩
    · rw [if_neg hre] at h
      exact absurd h (by simp)

/-! ## Fence stripping over newline-only texts -/

theorem modifyHead_append_left (f : Str → Str) (l m : List Str) (h : l ≠ []) :
    (l ++ m).modifyHead f = l.modifyHead f ++ m := by
  cases l with
  | nil => exact absurd rfl h
  | cons a t => rfl

theorem splitOnP_append_sep (p : Char → Bool) (sep : Char) (hsep : p sep = true) :
    ∀ a b : Str, (a ++ sep :: b).splitOnP p = a.splitOnP p ++ b.splitOnP p := by
  intro a
  induction a with
  | nil =>
    intro b
    rw [List.nil_append, List.splitOnP_cons, if_pos hsep, List.splitOnP_nil]
    rfl
  | cons x a' ih =>
    intro b
    rw [List.cons_append, List.splitOnP_cons, List.splitOnP_cons]
    by_cases hx : p x
    · rw [if_pos hx, if_pos hx, ih b]
      rfl
    · rw [if_neg hx, if_neg hx, ih b,
        modifyHead_append_left _ _ _ (List.splitOnP_ne_nil _ a')]

/-- On text whose only line boundaries are `\n` and which does not end in a
boundary, `str.splitlines` agrees with splitting on `\n`. -/
theorem splitlinesAux_nlOnly : ∀ (n : Nat) (T : Str), T.length ≤ n →
    (∀ c ∈ T, isLineSep c = true → c = '\n') →
    (∀ c, T.getLast? = some c → c ≠ '\n') →
    splitlinesAux T = T.splitOn '\n' := by
  intro n
  induction n with
  | zero =>
    intro T hT hmem hlast
    have hTnil : T = [] := by
      cases T with
      | nil => rfl
      | cons a b => simp at hT
    subst hTnil
    rfl
  | succ n ih =>
    intro T hT hmem hlast
    match T with
    | [] => rfl
    | [c] =>
      have hc : c ≠ '\n' := hlast c (by simp)
      have hsep : isLineSep c = false := by
        cases hs : isLineSep c with
        | false => rfl
        | true => exact absurd (hmem c (by simp) hs) hc
      simp only [splitlinesAux]
      rw [if_neg (by simp [hsep])]
      show _ = List.splitOnP (fun x => x == '\n') [c]
      rw [List.splitOnP_cons,
        if_neg (by simp [hc]), List.splitOnP_nil]
      rfl
    | c :: c2 :: cs =>
      have hTlen : (c2 :: cs).length ≤ n := by
        simp only [List.length_cons] at hT ⊢
        omega
      have hmem2 : ∀ x ∈ c2 :: cs, isLineSep x = true → x = '\n' := fun x hx =>
        hmem x (List.mem_cons_of_mem _ hx)
      have hlast2 : ∀ x, (c2 :: cs).getLast? = some x → x ≠ '\n' := by
        intro x hx
        exact hlast x (by rw [List.getLast?_cons_cons]; exact hx)
      have ihrec := ih (c2 :: cs) hTlen hmem2 hlast2
      by_cases hsep : isLineSep c = true
      · have hc : c = '\n' := hmem c (List.mem_cons_self _ _) hsep
        subst hc
        simp only [splitlinesAux]
        rw [if_pos (by decide),
          if_neg (by rintro ⟨h1, _⟩; exact absurd h1 (by decide)), ihrec]
        show _ = List.splitOnP (fun x => x == '\n') ('\n' :: c2 :: cs)
        rw [List.splitOnP_cons, if_pos (by simp)]
        rfl
      · have hc : c ≠ '\n' := by
          intro hcc; subst hcc; exact hsep (by decide)
        simp only [splitlinesAux]
        rw [if_neg hsep, ihrec]
        obtain ⟨l0, ls0, hl0⟩ : ∃ l0 ls0, (c2 :: cs).splitOn '\n' = l0 :: ls0 := by
          cases hsp : (c2 :: cs).splitOn '\n' with
          | nil => exact absurd hsp (List.splitOnP_ne_nil _ _)
          | cons a b => exact ⟨a, b, rfl⟩
        rw [hl0]
        show _ = List.splitOnP (fun x => x == '\n') (c :: c2 :: cs)
        rw [List.splitOnP_cons, if_neg (by simp [hc])]
        have hl0' : List.splitOnP (fun x => x == '\n') (c2 :: cs) = l0 :: ls0 := hl0
        rw [hl0']
        rfl

theorem pySplitlines_nlOnly (T : Str) (hne : T ≠ [])
    (hmem : ∀ c ∈ T, isLineSep c = true → c = '\n')
    (hlast : ∀ c, T.getLast? = some c → c ≠ '\n') :
    pySplitlines T = T.splitOn '\n' := by
  match T with
  | [] => exact absurd rfl hne
  | c :: cs =>
    show splitlinesAux (c :: cs) = _
    exact splitlinesAux_nlOnly (c :: cs).length (c :: cs) (Nat.le_refl _) hmem hlast

theorem strip_code_fences_fence (A : Str)
    (hmem : ∀ c ∈ A, isLineSep c = true → c = '\n') :
    _strip_code_fences (strS "```json\n" ++ A ++ strS "\n```") = A := by
  have hlastT : ∀ d, (strS "```json\n" ++ A ++ strS "\n```").getLast? = some d →
      d = '`' := by
    intro d hd
    rw [List.getLast?_append_of_ne_nil _ (by decide)] at hd
    rw [show (strS "\n```").getLast? = some '`' from rfl] at hd
    simp only [Option.some_inj] at hd
    exact hd.symm
  have hstripT : pyStrip (strS "```json\n" ++ A ++ strS "\n```")
      = strS "```json\n" ++ A ++ strS "\n```" := by
    unfold pyStrip
    rw [show strS "```json\n" ++ A ++ strS "\n```"
        = '`' :: (strS "``json\n" ++ A ++ strS "\n```") by simp [strS],
      pyLstrip_cons_of_neg _ _ (by decide),
      show ('`' : Char) :: (strS "``json\n" ++ A ++ strS "\n```")
        = strS "```json\n" ++ A ++ strS "\n```" by simp [strS]]
    apply pyRstrip_eq_self
    intro d hd
    have := hlastT d hd
    subst this; decide
  have hstart : startsTicks (strS "```json\n" ++ A ++ strS "\n```") = true := by
    rw [show strS "```json\n" ++ A ++ strS "\n```"
        = strS "```" ++ (strS "json\n" ++ A ++ strS "\n```") by simp [strS]]
    exact List.isPrefixOf_iff_prefix.mpr (List.prefix_append _ _)
  have hsuf : endsTicks (strS "```json\n" ++ A ++ strS "\n```") = true := by
    rw [show strS "```json\n" ++ A ++ strS "\n```"
        = (strS "```json\n" ++ A ++ ['\n']) ++ strS "```" by simp [strS]]
    exact List.isSuffixOf_iff_suffix.mpr (List.suffix_append _ _)
  have hsplit : pySplitlines (strS "```json\n" ++ A ++ strS "\n```")
      = strS "```json" :: (A.splitOn '\n' ++ [strS "```"]) := by
    rw [pySplitlines_nlOnly _ (by simp [strS]) ?hm ?hl]
    case hm =>
      intro c hc hcl
      rcases List.mem_append.mp hc with hc1 | hc1
      · rcases List.mem_append.mp hc1 with hc2 | hc2
        · have hall : ∀ x ∈ strS "```json\n", isLineSep x = true → x = '\n' := by
            decide
          exact hall c hc2 hcl
        · exact hmem c hc2 hcl
      · have hall : ∀ x ∈ strS "\n```", isLineSep x = true → x = '\n' := by decide
        exact hall c hc1 hcl
    case hl =>
      intro c hc
      have := hlastT c hc
      subst this; decide
    · rw [show strS "```json\n" ++ A ++ strS "\n```"
          = strS "```json" ++ '\n' :: (A ++ '\n' :: strS "```") by simp [strS]]
      show List.splitOnP (fun x => x == '\n') _ = _
      rw [List.splitOnP_first (fun x => x == '\n') (strS "```json") (by decide)
          '\n' (by decide) (A ++ '\n' :: strS "```"),
        splitOnP_append_sep (fun x => x == '\n') '\n' (by decide) A (strS "```")]
      rfl
  simp only [_strip_code_fences]
  rw [hstripT, if_pos ⟨hstart, hsuf⟩, hsplit]
  show List.intercalate (strS "\n") ((A.splitOn '\n' ++ [strS "```"]).dropLast) = A
  rw [show (A.splitOn '\n' ++ [strS "```"]).dropLast = A.splitOn '\n' by simp]
  rw [show strS "\n" = ['\n'] from rfl, List.intercalate_splitOn]

theorem startsTicks_false (u : Str) (h : ∀ c, u.head? = some c → c ≠ '`') :
    startsTicks u = false := by
  cases u with
  | nil => rfl
  | cons c0 t0 =>
    cases hst : startsTicks (c0 :: t0) with
    | false => rfl
    | true =>
      exfalso
      have hpre : strS "```" <+: c0 :: t0 := List.isPrefixOf_iff_prefix.mp hst
      obtain ⟨s, hs⟩ := hpre
      rw [show strS "```" ++ s = '`' :: ('`' :: '`' :: s) from rfl] at hs
      injection hs with h1 _
      exact h c0 rfl h1.symm

theorem strip_code_fences_unfenced (A : Str)
    (hhead : ∀ c, (pyStrip A).head? = some c → valueStart c = true) :
    _strip_code_fences A = pyStrip A := by
  simp only [_strip_code_fences]
  rw [if_neg ?hn]
  case hn =>
    rintro ⟨h1, _⟩
    rw [startsTicks_false (pyStrip A) (by
      intro c hc he
      have := hhead c hc
      rw [he] at this
      exact absurd this (by decide))] at h1
    exact absurd h1 (by simp)

/-! ## Claim C5 -/

/-- C5 (corrected): for a JSON array text whose only line-boundary characters
are `\n`, `_try_parse_json_array` returns the decoded element list both on the
text wrapped in a leading/trailing code fence and on the unfenced text; and on
any text that yields no array, the result is the explicit unparsable `none`,
never an exception. The newline restriction is necessary: a JSON-legal
`U+2028` inside a string survives the direct parse but is re-split by
`str.splitlines` during fence stripping (see the counterexample). -/
theorem c5_fence_agreement (A : Str) (l : List Json)
    (hA : ∀ c ∈ A, isLineSep c = true → c = '\n')
    (h : json_loads A = some (Json.arr l)) :
    _try_parse_json_array (strS "```json\n" ++ A ++ strS "\n```") = some l ∧
    _try_parse_json_array A = some l ∧
    (∀ text : Str, (∀ l2 : List Json, _try_parse_json_array text ≠ some l2) →
      _try_parse_json_array text = none) := by
  refine ⟨?_, ?_, ?_⟩
  · simp only [_try_parse_json_array]
    rw [strip_code_fences_fence A hA, h]
  · obtain ⟨hl, hhd, hne⟩ := json_loads_strip A (Json.arr l) h
    simp only [_try_parse_json_array]
    rw [strip_code_fences_unfenced A hhd, hl]
  · intro text hnot
    cases ht : _try_parse_json_array text with
    | none => rfl
    | some l2 => exact absurd ht (hnot l2)

/-- C5 counterexample: the text `["\u2028"]` is a valid JSON array (CPython
accepts an unescaped U+2028 inside a string), and unfenced parsing succeeds,
but the same text wrapped in a code fence parses to nothing: fence stripping
splits the line at the U+2028 inside the string literal and rejoins with `\n`,
which the strict decoder then rejects as a raw control character. -/
theorem c5_counterexample :
    json_loads (strS "[\"\u2028\"]") = some (Json.arr [Json.str ['\u2028']]) ∧
    _try_parse_json_array (strS "[\"\u2028\"]") = some [Json.str ['\u2028']] ∧
    _try_parse_json_array
      (strS "```json\n" ++ strS "[\"\u2028\"]" ++ strS "\n```") = none :=
  ⟨rfl, rfl, rfl⟩

/-- Witness for C5 at a concrete array of a string, a number and an object. -/
theorem c5_fence_agreement_witness :
    (∀ c ∈ strS "[\"ab\", 1, \x7b\"k\": null\x7d]", isLineSep c = true → c = '\n') ∧
    _try_parse_json_array (strS "```json\n"
        ++ strS "[\"ab\", 1, \x7b\"k\": null\x7d]" ++ strS "\n```")
      = some [Json.str (strS "ab"), Json.num (strS "1"),
          Json.obj [(strS "k", Json.null)]] ∧
    _try_parse_json_array (strS "[\"ab\", 1, \x7b\"k\": null\x7d]")
      = some [Json.str (strS "ab"), Json.num (strS "1"),
          Json.obj [(strS "k", Json.null)]] :=
  ⟨by decide,
    (c5_fence_agreement (strS "[\"ab\", 1, \x7b\"k\": null\x7d]")
      [Json.str (strS "ab"), Json.num (strS "1"), Json.obj [(strS "k", Json.null)]]
      (by decide) (by rfl)).1,
    (c5_fence_agreement (strS "[\"ab\", 1, \x7b\"k\": null\x7d]")
      [Json.str (strS "ab"), Json.num (strS "1"), Json.obj [(strS "k", Json.null)]]
      (by decide) (by rfl)).2.1⟩
